import Mathlib

/-!
# Storage backup walker (`scripts/storage-backup.mjs`)

A shallow embedding of the backup script: the paginated, stack-driven
listing walk `listAll` and the download loop `main`, over an explicit
remote (state-passing oracle), an explicit filesystem and an event log.
-/

namespace StorageBackup

/-! ## Data model -/

/-- An error value as returned in the `error` field of a client response (and thrown). -/
abbrev Error := String

/-- The bytes of a downloaded object (`Buffer.from(await data.arrayBuffer())`). -/
abbrev Bytes := List Nat

/-- The `metadata` object of a listing row (any JSON object, always truthy in JS). -/
structure Metadata where
  fields : List (String × String)
deriving DecidableEq, Repr

/-- One row of a `list` response: `name`, and the nullable `id` and `metadata`. -/
structure Entry where
  name : String
  id : Option String
  metadata : Option Metadata
deriving DecidableEq, Repr

/-- JS truthiness of a nullable string: non-null and non-empty. -/
def truthyString : Option String → Bool
  | some s => s != ""
  | none => false

/-- The test `entry.id || entry.metadata` of line 41. -/
def Entry.isFile (e : Entry) : Bool :=
  truthyString e.id || e.metadata.isSome

/-- The `sortBy` option of a list call. -/
structure SortBy where
  column : String
  order : String
deriving DecidableEq, Repr

/-- The options object of a list call. -/
structure ListOptions where
  limit : Nat
  offset : Nat
  sortBy : SortBy
deriving DecidableEq, Repr

/-- One element of the `listBuckets` response (only `name` is read). -/
structure Bucket where
  name : String
deriving DecidableEq, Repr

/-- The remote storage service, as a state-passing oracle: each call sees the
service state and returns a response (`error` or `data`) and the next state. -/
structure Remote (σ : Type) where
  listBuckets : σ → Except Error (List Bucket) × σ
  list : σ → String → String → ListOptions → Except Error (List Entry) × σ
  download : σ → String → String → Except Error Bytes × σ

/-- What a file written by `fs.writeFileSync` holds: a byte buffer, or the text
`JSON.stringify(\x7bproject, generated_at\x7d, null, 2)` kept as its two fields. -/
inductive FileData
  | buffer (bytes : Bytes)
  | manifest (project : String) (generatedAt : String)
deriving DecidableEq, Repr

instance instDecidableEqExcept {ε α : Type} [DecidableEq ε] [DecidableEq α] :
    DecidableEq (Except ε α)
  | .ok a, .ok b => if h : a = b then isTrue (by rw [h]) else isFalse (fun h2 => by cases h2; exact h rfl)
  | .error a, .error b =>
      if h : a = b then isTrue (by rw [h]) else isFalse (fun h2 => by cases h2; exact h rfl)
  | .ok _, .error _ => isFalse (fun h2 => by cases h2)
  | .error _, .ok _ => isFalse (fun h2 => by cases h2)

/-- Observable effects, in the order they happen. -/
inductive Event
  | listBuckets (resp : Except Error (List Bucket))
  | list (bucket path : String) (opts : ListOptions) (resp : Except Error (List Entry))
  | download (bucket path : String) (resp : Except Error Bytes)
  | mkdir (path : String)
  | writeFile (path : String) (data : FileData)
  | stdout (line : String)
  | stderr (e : Error)
deriving DecidableEq

/-- How a piece of the script ends: normally, by a thrown error, or not within
the step budget of the model (the loops of `listAll` need not terminate). -/
inductive Outcome (α : Type)
  | ok (a : α)
  | throw (e : Error)
  | diverge
deriving DecidableEq

/-! ## `listAll` (lines 21-52) -/

/-- The constant `limit` of line 28. -/
def limit : Nat := 1000

/-- The options passed at lines 31-35. -/
def listOptions (offset : Nat) : ListOptions :=
  ⟨limit, offset, ⟨"name", "asc"⟩⟩

/-- Line 39: the path of an entry under the current prefix. -/
def childPath (current name : String) : String :=
  if current ≠ "" then current ++ "/" ++ name else name

/-- The `for` loop of lines 38-46 over one page; `results.push` and
`stack.push` append at the end of the array. -/
def forEntries (current : String) :
    List Entry → List String × List String → List String × List String
  | [], acc => acc
  | entry :: rest, (results, stack) =>
      let p := childPath current entry.name
      if entry.isFile then forEntries current rest (results ++ [p], stack)
      else forEntries current rest (results, stack ++ [p])

/-- The inner `while (true)` loop of lines 30-49 for the popped prefix `current`,
from `offset` on. Each iteration issues one list call (`current || ''` is
`current` itself for a string). -/
def pageLoop {σ : Type} (R : Remote σ) (bucket current : String) :
    Nat → Nat → List String → List String → σ →
      Outcome (List String × List String) × σ × List Event
  | 0, _, _, _, s => (.diverge, s, [])
  | fuel + 1, offset, results, stack, s =>
      match R.list s bucket current (listOptions offset) with
      | (.error e, s1) =>
          (.throw e, s1, [Event.list bucket current (listOptions offset) (.error e)])
      | (.ok data, s1) =>
          let ev := Event.list bucket current (listOptions offset) (.ok data)
          let acc := forEntries current data (results, stack)
          if data.length < limit then (.ok acc, s1, [ev])
          else
            match pageLoop R bucket current fuel (offset + limit) acc.1 acc.2 s1 with
            | (out, s2, evs) => (out, s2, ev :: evs)

/-- The outer `while (stack.length)` loop of lines 25-50; `stack.pop()` removes
the last element of the array. -/
def stackLoop {σ : Type} (R : Remote σ) (bucket : String) :
    Nat → List String → List String → σ → Outcome (List String) × σ × List Event
  | 0, _, _, s => (.diverge, s, [])
  | fuel + 1, results, stack, s =>
      match stack.getLast? with
      | none => (.ok results, s, [])
      | some current =>
          match pageLoop R bucket current fuel 0 results stack.dropLast s with
          | (.ok acc, s1, evs) =>
              match stackLoop R bucket fuel acc.1 acc.2 s1 with
              | (out, s2, evs2) => (out, s2, evs ++ evs2)
          | (.throw e, s1, evs) => (.throw e, s1, evs)
          | (.diverge, s1, evs) => (.diverge, s1, evs)

/-- The function `listAll(bucket, prefix)`. -/
def listAll {σ : Type} (R : Remote σ) (bucket : String) (start : String) (fuel : Nat) (s : σ) :
    Outcome (List String) × σ × List Event :=
  stackLoop R bucket fuel [] [start] s

/-! ## A finite folder tree and the remote that serves it -/

/-- The content of one folder, row by row in listing order: a file row carries
its entry, a folder row its name and its own content. -/
inductive Listing
  | nil
  | file (e : Entry) (rest : Listing)
  | folder (name : String) (sub : Listing) (rest : Listing)
deriving DecidableEq, Repr

namespace Listing

/-- The rows a list call returns for the folder (a folder row has no id and no metadata). -/
def rows : Listing → List Entry
  | nil => []
  | file e rest => e :: rows rest
  | folder name _ rest => ⟨name, none, none⟩ :: rows rest

/-- Every file row carries the signal the walker classifies by: a non-empty id or a metadata block. -/
def recognisable : Listing → Bool
  | nil => true
  | file e rest => e.isFile && recognisable rest
  | folder _ sub rest => recognisable sub && recognisable rest

/-- The subfolders of the folder at path `p`, in listing order, with their paths. -/
def subfolders (p : String) : Listing → List (String × Listing)
  | nil => []
  | file _ rest => subfolders p rest
  | folder name sub rest => (childPath p name, sub) :: subfolders p rest

/-- The paths of the files directly inside the folder at path `p`, in listing order. -/
def ownFiles (p : String) : Listing → List String
  | nil => []
  | file e rest => childPath p e.name :: ownFiles p rest
  | folder _ _ rest => ownFiles p rest

/-- The files below the subfolders of the folder at `p`: subfolders from the
last listed to the first, each giving its own files first. -/
def walkSubs (p : String) : Listing → List String
  | nil => []
  | file _ rest => walkSubs p rest
  | folder name sub rest =>
      walkSubs p rest ++ (ownFiles (childPath p name) sub ++ walkSubs (childPath p name) sub)

/-- Preorder enumeration: a folder's own files, then its subfolders from last listed to first. -/
def walk (p : String) (l : Listing) : List String :=
  ownFiles p l ++ walkSubs p l

/-- Number of rows of the folder and of all folders below it. -/
def size : Listing → Nat
  | nil => 0
  | file _ rest => size rest + 1
  | folder _ sub rest => size sub + size rest + 1

/-- Number of list calls for the folders strictly below this one. -/
def subCalls : Listing → Nat
  | nil => 0
  | file _ rest => subCalls rest
  | folder _ sub rest => ((rows sub).length / limit + 1 + subCalls sub) + subCalls rest

/-- Number of list calls for the folder and all folders below it:
`floor(n / 1000) + 1` for each folder with `n` rows. -/
def calls (l : Listing) : Nat :=
  (rows l).length / limit + 1 + subCalls l

/-- Number of folders strictly below this one. -/
def subFolderCount : Listing → Nat
  | nil => 0
  | file _ rest => subFolderCount rest
  | folder _ sub rest => (1 + subFolderCount sub) + subFolderCount rest

/-- Number of folders of the tree, the folder itself included. -/
def folderCount (l : Listing) : Nat :=
  1 + subFolderCount l

end Listing

/-- The list call for prefix `p` is a faithful pagination of `rows`: at every
offset it returns the rows from that position, at most `limit` of them. -/
def PagesOf {σ : Type} (R : Remote σ) (bucket p : String) (rows : List Entry) : Prop :=
  ∀ (s : σ) (offset : Nat),
    (R.list s bucket p (listOptions offset)).1 = .ok ((rows.drop offset).take limit)

/-- Every folder below the folder at path `p` is faithfully paginated under its own path. -/
def ServesBelow {σ : Type} (R : Remote σ) (bucket : String) : String → Listing → Prop
  | _, .nil => True
  | p, .file _ rest => ServesBelow R bucket p rest
  | p, .folder name sub rest =>
      PagesOf R bucket (childPath p name) sub.rows ∧
        ServesBelow R bucket (childPath p name) sub ∧ ServesBelow R bucket p rest

/-- The remote serves the tree `l` at path `p` of `bucket`: the rows of a file
carry an id or a metadata block (folder rows carry neither), and the folder at
`p` and every folder below it is faithfully paginated under its own path. -/
def Faithful {σ : Type} (R : Remote σ) (bucket p : String) (l : Listing) : Prop :=
  l.recognisable = true ∧ PagesOf R bucket p l.rows ∧ ServesBelow R bucket p l

/-- Paths the `for` loop appends to `results` for one page. -/
def filePaths (current : String) (data : List Entry) : List String :=
  (data.filter (fun e => e.isFile)).map (fun e => childPath current e.name)

/-- Paths the `for` loop pushes onto `stack` for one page. -/
def folderPaths (current : String) (data : List Entry) : List String :=
  (data.filter (fun e => !e.isFile)).map (fun e => childPath current e.name)

/-- The list events of a faithfully paginated folder: `n` consecutive pages from `offset`. -/
def pageEvents (bucket p : String) (rows : List Entry) (offset : Nat) : Nat → List Event
  | 0 => []
  | n + 1 =>
      Event.list bucket p (listOptions offset) (.ok ((rows.drop offset).take limit)) ::
        pageEvents bucket p rows (offset + limit) n

/-- The list events for the folders strictly below the folder at `p`, in visiting order. -/
def subsEvents (bucket : String) (p : String) : Listing → List Event
  | .nil => []
  | .file _ rest => subsEvents bucket p rest
  | .folder name sub rest =>
      subsEvents bucket p rest ++
        (pageEvents bucket (childPath p name) sub.rows 0 (sub.rows.length / limit + 1) ++
          subsEvents bucket (childPath p name) sub)

/-- The list events of the whole walk of the tree `l` at path `p`. -/
def walkEvents (bucket : String) (p : String) (l : Listing) : List Event :=
  pageEvents bucket p l.rows 0 (l.rows.length / limit + 1) ++ subsEvents bucket p l

/-- The prefixes popped from the stack below the folder at `p`, in popping order. -/
def subsVisited (p : String) : Listing → List String
  | .nil => []
  | .file _ rest => subsVisited p rest
  | .folder name sub rest =>
      subsVisited p rest ++ (childPath p name :: subsVisited (childPath p name) sub)

/-- The prefixes popped from the stack during the walk of `l` at `p`: one per folder. -/
def visited (p : String) (l : Listing) : List String :=
  p :: subsVisited p l

/-- The prefix of a list call issued at offset 0 (the first call after a pop). -/
def Event.poppedPath : Event → Option String
  | .list _ path opts _ => if opts.offset = 0 then some path else none
  | _ => none

/-- Whether the event is a list call. -/
def Event.isList : Event → Bool
  | .list _ _ _ _ => true
  | _ => false

/-- The list events of consecutive successful pages `pages` of prefix `current`, from `offset`. -/
def okPageEvents (bucket current : String) : Nat → List (List Entry) → List Event
  | _, [] => []
  | offset, pg :: rest =>
      Event.list bucket current (listOptions offset) (.ok pg) ::
        okPageEvents bucket current (offset + limit) rest

/-- The paths a list event makes the walker append to `results`. -/
def Event.appended : Event → List String
  | .list _ current _ (.ok data) => filePaths current data
  | _ => []

/-- The paths a list event makes the walker push onto `stack`. -/
def Event.pushed : Event → List String
  | .list _ current _ (.ok data) => folderPaths current data
  | _ => []

/-- The prefix a list call was issued for. -/
def Event.listedPath : Event → Option String
  | .list _ current _ _ => some current
  | _ => none

/-- Whether the event is a list call that returned data. -/
def Event.okList : Event → Bool
  | .list _ _ _ (.ok _) => true
  | _ => false

/-- Every event is a list call that returned data. -/
def AllOk (evs : List Event) : Prop :=
  ∀ ev ∈ evs, ev.okList = true

/-- Every prefix listed in `evs` is in `known` or was pushed by an earlier event of `evs`. -/
def Justified : List String → List Event → Prop
  | _, [] => True
  | known, ev :: rest =>
      (∀ q, ev.listedPath = some q → q ∈ known) ∧ Justified (known ++ ev.pushed) rest

/-- Termination measure of a stack of pending folders. -/
def pendingSize (pending : List (String × Listing)) : Nat :=
  (pending.map (fun x => x.2.size + 1)).sum

/-- Step budget that suffices for a stack of pending folders. -/
def pendingCost (pending : List (String × Listing)) : Nat :=
  (pending.map (fun x => x.2.calls + x.2.folderCount)).sum

/-! ## Paths (`node:path`, POSIX flavour) -/

/-- Split a path at every `/`. -/
def splitSlash : List Char → List (List Char)
  | [] => [[]]
  | c :: cs =>
      if c = '/' then [] :: splitSlash cs
      else
        match splitSlash cs with
        | [] => [[c]]
        | seg :: segs => (c :: seg) :: segs

/-- Segment normalisation of `path.normalize`: empty and `.` segments are
dropped, `..` removes the segment before it (kept, when allowed, if there is none). -/
def normalizeSegments (allowAboveRoot : Bool) :
    List (List Char) → List (List Char) → List (List Char)
  | [], acc => acc.reverse
  | seg :: rest, acc =>
      if seg = [] ∨ seg = ['.'] then normalizeSegments allowAboveRoot rest acc
      else if seg = ['.', '.'] then
        match acc with
        | top :: below =>
            if top = ['.', '.'] then
              normalizeSegments allowAboveRoot rest
                (if allowAboveRoot then ['.', '.'] :: acc else acc)
            else normalizeSegments allowAboveRoot rest below
        | [] =>
            normalizeSegments allowAboveRoot rest (if allowAboveRoot then [['.', '.']] else [])
      else normalizeSegments allowAboveRoot rest (seg :: acc)

/-- The function `path.normalize`. -/
def pathNormalize (path : List Char) : List Char :=
  if path = [] then ['.']
  else
    let isAbsolute := path.head? = some '/'
    let trailing := path.getLast? = some '/'
    let body := List.intercalate ['/'] (normalizeSegments (!isAbsolute) (splitSlash path) [])
    if body = [] then
      if isAbsolute then ['/'] else if trailing then ['.', '/'] else ['.']
    else (if isAbsolute then ['/'] else []) ++ body ++ (if trailing then ['/'] else [])

/-- The function `path.join` on two arguments: empty arguments are skipped, the
rest is joined with `/` and normalised. -/
def pathJoin (a b : String) : String :=
  if a = "" then (if b = "" then "." else ⟨pathNormalize b.data⟩)
  else if b = "" then ⟨pathNormalize a.data⟩
  else ⟨pathNormalize (a.data ++ '/' :: b.data)⟩

/-- The function `path.dirname`. -/
def pathDirname (path : String) : String :=
  if path = "" then "."
  else
    let hasRoot := path.data.head? = some '/'
    let scan := ((path.data.drop 1).reverse.dropWhile (fun c => c = '/')).dropWhile
      (fun c => c ≠ '/')
    if scan = [] then (if hasRoot then "/" else ".")
    else if hasRoot ∧ scan.length = 1 then "//"
    else ⟨path.data.take scan.length⟩

/-! ## The local filesystem -/

/-- What a location of the filesystem holds. -/
inductive FsNode
  | dir
  | file (data : FileData)
deriving DecidableEq, Repr

/-- The filesystem: what is at each absolute location (a list of names from the
root; the root itself is a directory). Symbolic links are not modelled. -/
abbrev FS := List String → Option FsNode

/-- Whether `loc` is a directory. -/
def FS.isDir (fs : FS) (loc : List String) : Bool :=
  loc = [] || fs loc = some FsNode.dir

/-- Put `node` at `loc`. -/
def FS.set (fs : FS) (loc : List String) (node : FsNode) : FS :=
  fun l => if l = loc then some node else fs l

/-- Resolution of the segments of a path below the location `acc` (kept reversed). -/
def resolveSegments : List (List Char) → List String → List String
  | [], acc => acc.reverse
  | seg :: rest, acc =>
      if seg = [] ∨ seg = ['.'] then resolveSegments rest acc
      else if seg = ['.', '.'] then resolveSegments rest acc.tail
      else resolveSegments rest (String.mk seg :: acc)

/-- The location a path string names for a process whose working directory is
`cwd`; the empty path names nothing. Segments `.` and `..` are resolved on the
string (every path the script builds with `path.join` is already normalised). -/
def resolve (cwd : List String) (path : String) : Option (List String) :=
  if path = "" then none
  else if path.data.head? = some '/' then some (resolveSegments (splitSlash path.data) [])
  else some (resolveSegments (splitSlash path.data) cwd.reverse)

/-- Create the directories `names` one below the other, starting below `base`;
an existing directory is kept, an existing file is an error. -/
def mkdirFrom (fs : FS) (base : List String) : List String → Except Error FS
  | [] => .ok fs
  | name :: rest =>
      match fs (base ++ [name]) with
      | some FsNode.dir => mkdirFrom fs (base ++ [name]) rest
      | some (FsNode.file _) => .error (if rest = [] then "EEXIST" else "ENOTDIR")
      | none => mkdirFrom (fs.set (base ++ [name]) FsNode.dir) (base ++ [name]) rest

/-- The call `fs.mkdirSync(path, \x7b recursive: true \x7d)`. -/
def mkdirSync (cwd : List String) (fs : FS) (path : String) : Except Error FS :=
  match resolve cwd path with
  | none => .error "ENOENT"
  | some loc => mkdirFrom fs [] loc

/-- The call `fs.writeFileSync(path, data)`: the parent must be a directory and
the target must not be one; the file is created or replaced. -/
def writeFileSync (cwd : List String) (fs : FS) (path : String) (data : FileData) :
    Except Error FS :=
  match resolve cwd path with
  | none => .error "ENOENT"
  | some loc =>
      if loc = [] ∨ path.data.getLast? = some '/' then .error "EISDIR"
      else if fs.isDir loc.dropLast = false then .error "ENOENT"
      else if fs loc = some FsNode.dir then .error "EISDIR"
      else .ok (fs.set loc (FsNode.file data))

/-! ## `main` (lines 54-81) and the script around it -/

/-- The state the script runs against: the remote service and the local filesystem. -/
structure World (σ : Type) where
  remote : σ
  fs : FS

/-- What the process reads from its environment. -/
structure Env where
  supabaseUrl : Option String
  serviceRole : Option String
  argv2 : Option String
  cwd : List String
  now : String

/-- The line written to standard output at line 73. -/
def downloadedLine (bucket filePath : String) : String :=
  "Downloaded: " ++ bucket ++ "/" ++ filePath ++ "\n"

/-- The inner `for` loop of lines 64-74 over the listed files of one bucket. -/
def downloadLoop {σ : Type} (R : Remote σ) (cwd : List String) (bucket bucketDir : String) :
    List String → World σ → Outcome Unit × World σ × List Event
  | [], w => (.ok (), w, [])
  | filePath :: rest, w =>
      let dest := pathJoin bucketDir filePath
      match mkdirSync cwd w.fs (pathDirname dest) with
      | .error e => (.throw e, w, [])
      | .ok fs1 =>
          match R.download w.remote bucket filePath with
          | (.error e, s1) =>
              (.throw e, ⟨s1, fs1⟩,
                [Event.mkdir (pathDirname dest), Event.download bucket filePath (.error e)])
          | (.ok data, s1) =>
              match writeFileSync cwd fs1 dest (.buffer data) with
              | .error e =>
                  (.throw e, ⟨s1, fs1⟩,
                    [Event.mkdir (pathDirname dest), Event.download bucket filePath (.ok data)])
              | .ok fs2 =>
                  match downloadLoop R cwd bucket bucketDir rest ⟨s1, fs2⟩ with
                  | (out, w2, evs) =>
                      (out, w2,
                        Event.mkdir (pathDirname dest) :: Event.download bucket filePath (.ok data) ::
                          Event.writeFile dest (.buffer data) ::
                          Event.stdout (downloadedLine bucket filePath) :: evs)

/-- The outer `for` loop of lines 58-75 over the buckets. -/
def bucketLoop {σ : Type} (R : Remote σ) (cwd : List String) (outDir : String) (fuel : Nat) :
    List Bucket → World σ → Outcome Unit × World σ × List Event
  | [], w => (.ok (), w, [])
  | b :: rest, w =>
      let bucket := b.name
      let bucketDir := pathJoin outDir bucket
      match mkdirSync cwd w.fs bucketDir with
      | .error e => (.throw e, w, [])
      | .ok fs1 =>
          match listAll R bucket "" fuel w.remote with
          | (.throw e, s1, evs1) => (.throw e, ⟨s1, fs1⟩, Event.mkdir bucketDir :: evs1)
          | (.diverge, s1, evs1) => (.diverge, ⟨s1, fs1⟩, Event.mkdir bucketDir :: evs1)
          | (.ok files, s1, evs1) =>
              match downloadLoop R cwd bucket bucketDir files ⟨s1, fs1⟩ with
              | (.throw e, w2, evs2) => (.throw e, w2, Event.mkdir bucketDir :: (evs1 ++ evs2))
              | (.diverge, w2, evs2) => (.diverge, w2, Event.mkdir bucketDir :: (evs1 ++ evs2))
              | (.ok _, w2, evs2) =>
                  match bucketLoop R cwd outDir fuel rest w2 with
                  | (out, w3, evs3) => (out, w3, Event.mkdir bucketDir :: (evs1 ++ evs2 ++ evs3))

/-- The path of the manifest, line 77. -/
def manifestPath (outDir : String) : String :=
  pathJoin outDir "manifest.json"

/-- The function `main()`, given the module-level `supabaseUrl` and `outDir`;
`now` is what `new Date().toISOString()` returns at line 79. -/
def main {σ : Type} (R : Remote σ) (cwd : List String) (supabaseUrl outDir now : String)
    (fuel : Nat) (w : World σ) : Outcome Unit × World σ × List Event :=
  match R.listBuckets w.remote with
  | (.error e, s1) => (.throw e, ⟨s1, w.fs⟩, [Event.listBuckets (.error e)])
  | (.ok buckets, s1) =>
      match bucketLoop R cwd outDir fuel buckets ⟨s1, w.fs⟩ with
      | (.throw e, w2, evs) => (.throw e, w2, Event.listBuckets (.ok buckets) :: evs)
      | (.diverge, w2, evs) => (.diverge, w2, Event.listBuckets (.ok buckets) :: evs)
      | (.ok _, w2, evs) =>
          match writeFileSync cwd w2.fs (manifestPath outDir) (.manifest supabaseUrl now) with
          | .error e => (.throw e, w2, Event.listBuckets (.ok buckets) :: evs)
          | .ok fs3 =>
              (.ok (), ⟨w2.remote, fs3⟩,
                Event.listBuckets (.ok buckets) ::
                  (evs ++ [Event.writeFile (manifestPath outDir) (.manifest supabaseUrl now)]))

/-- The output directory the script uses (line 13): `process.argv[2] || 'storage-backup'`. -/
def Env.outDir (env : Env) : String :=
  if truthyString env.argv2 then env.argv2.getD "" else "storage-backup"

/-- The whole script: the configuration check of lines 6-11, the output
directory of lines 13-14, then `main().catch(...)` of line 83 (the client of
lines 16-18 is the remote `R`). The first component is the exit status, `none`
while `main` has not returned. -/
def script {σ : Type} (R : Remote σ) (env : Env) (fuel : Nat) (w : World σ) :
    Option Nat × World σ × List Event :=
  if truthyString env.supabaseUrl = false ∨ truthyString env.serviceRole = false then
    (some 1, w, [Event.stderr "Missing SUPABASE_URL or SUPABASE_SERVICE_ROLE"])
  else
    let outDir := env.outDir
    match mkdirSync env.cwd w.fs outDir with
    | .error e => (some 1, w, [Event.stderr e])
    | .ok fs1 =>
        match main R env.cwd (env.supabaseUrl.getD "") outDir env.now fuel ⟨w.remote, fs1⟩ with
        | (.ok _, w2, evs) => (some 0, w2, Event.mkdir outDir :: evs)
        | (.throw e, w2, evs) => (some 1, w2, Event.mkdir outDir :: (evs ++ [Event.stderr e]))
        | (.diverge, w2, evs) => (none, w2, Event.mkdir outDir :: evs)

/-! ## Specification-side notions for the listing walk -/

/-- The file entries of the tree, each with the names of the folders leading to it. -/
def Listing.fileEntries : Listing → List (List String × Entry)
  | .nil => []
  | .file e rest => ([], e) :: Listing.fileEntries rest
  | .folder name sub rest =>
      (Listing.fileEntries sub).map (fun x => (name :: x.1, x.2)) ++ Listing.fileEntries rest

/-- The `/`-joined path `seg1/.../segN-1/fileName`. -/
def joinedPath (segs : List String) (fileName : String) : String :=
  "/".intercalate (segs ++ [fileName])

/-- The folders strictly below the folder at `p`, each with its path. -/
def Listing.subAllFolders (p : String) : Listing → List (String × Listing)
  | .nil => []
  | .file _ rest => Listing.subAllFolders p rest
  | .folder name sub rest =>
      (childPath p name, sub) :: (Listing.subAllFolders (childPath p name) sub ++
        Listing.subAllFolders p rest)

/-- All folders of the tree at `p`, the folder itself included. -/
def Listing.allFolders (p : String) (l : Listing) : List (String × Listing) :=
  (p, l) :: Listing.subAllFolders p l

/-- The error a remote call returned, if it failed. -/
def Event.failure : Event → Option Error
  | .listBuckets (.error e) => some e
  | .list _ _ _ (.error e) => some e
  | .download _ _ (.error e) => some e
  | _ => none

/-- The path the code builds for a file `fileName` reached from prefix `p` through folders `segs`. -/
def codePath (p : String) (segs : List String) (fileName : String) : String :=
  childPath (segs.foldl childPath p) fileName

/-! ## Concrete scenarios -/

/-- The bucket `assets` of the end-to-end scenario: file `a.png` and folder `img` holding `b.png`. -/
def assetsTree : Listing :=
  .file ⟨"a.png", some "id-a", some ⟨[("size", "3")]⟩⟩
    (.folder "img" (.file ⟨"b.png", some "id-b", some ⟨[("size", "2")]⟩⟩ .nil) .nil)

/-- A remote that serves `assetsTree` as its only bucket; each download gives
the bytes `[1, 2, 3]` for `a.png` and `[4, 5]` for every other path. -/
def assetsRemote : Remote Unit where
  listBuckets := fun s => (.ok [⟨"assets"⟩], s)
  list := fun s _ path opts =>
    if path = "" then (.ok ((assetsTree.rows.drop opts.offset).take opts.limit), s)
    else if path = "img" then
      (.ok ((([⟨"b.png", some "id-b", some ⟨[("size", "2")]⟩⟩] : List Entry).drop
        opts.offset).take opts.limit), s)
    else (.ok [], s)
  download := fun s _ path => if path = "a.png" then (.ok [1, 2, 3], s) else (.ok [4, 5], s)

/-- The tree with folder `a` (holding file `x`) listed before the root file `b`. -/
def orderTree : Listing :=
  .folder "a" (.file ⟨"x", some "id-x", none⟩ .nil) (.file ⟨"b", some "id-b", none⟩ .nil)

/-- A remote that serves `orderTree`. -/
def orderRemote : Remote Unit where
  listBuckets := fun s => (.ok [⟨"docs"⟩], s)
  list := fun s _ path opts =>
    if path = "" then (.ok ((orderTree.rows.drop opts.offset).take opts.limit), s)
    else if path = "a" then
      (.ok ((([⟨"x", some "id-x", none⟩] : List Entry).drop opts.offset).take opts.limit), s)
    else (.ok [], s)
  download := fun s _ _ => (.ok [], s)

/-- A folder content of `n` file rows. -/
def fileRows (n : Nat) : List Entry :=
  List.replicate n ⟨"f", some "id-f", none⟩

/-- A remote whose list call fails for the prefix `img` and serves `assetsTree` otherwise. -/
def failingListRemote : Remote Unit where
  listBuckets := fun s => (.ok [⟨"assets"⟩], s)
  list := fun s _ path opts =>
    if path = "" then (.ok ((assetsTree.rows.drop opts.offset).take opts.limit), s)
    else (.error "list failed", s)
  download := fun s _ _ => (.ok [], s)

/-- A complete configuration: no output directory argument, working directory `/home/u`. -/
def scenarioEnv : Env :=
  ⟨some "https://project.example", some "service-role-key", none, ["home", "u"],
    "2024-01-01T00:00:00.000Z"⟩

/-- A filesystem that holds the directories `/home` and `/home/u` and nothing else. -/
def scenarioFs : FS :=
  fun loc => if loc = ["home"] ∨ loc = ["home", "u"] then some FsNode.dir else none

/-- A bucket that holds the object `a` and, in a folder of the same name, the object `a/b`. -/
def clashTree : Listing :=
  .file ⟨"a", some "id-a", none⟩ (.folder "a" (.file ⟨"b", some "id-b", none⟩ .nil) .nil)

/-- A remote that serves `clashTree` in the bucket `assets`; no call ever fails. -/
def clashRemote : Remote Unit where
  listBuckets := fun s => (.ok [⟨"assets"⟩], s)
  list := fun s _ path opts =>
    if path = "" then (.ok ((clashTree.rows.drop opts.offset).take opts.limit), s)
    else if path = "a" then
      (.ok ((([⟨"b", some "id-b", none⟩] : List Entry).drop opts.offset).take opts.limit), s)
    else (.ok [], s)
  download := fun s _ _ => (.ok [7], s)

/-- A remote whose listing of the bucket root shows the file `a` twice. -/
def duplicateRemote : Remote Unit where
  listBuckets := fun s => (.ok [⟨"assets"⟩], s)
  list := fun s _ _ opts =>
    (.ok ((([⟨"a", some "id-a", none⟩, ⟨"a", some "id-a", none⟩] : List Entry).drop
      opts.offset).take opts.limit), s)
  download := fun s _ _ => (.ok [7], s)

/-- A bucket with the file `x` and a folder named `.` that holds another file `x`. -/
def dotTree : Listing :=
  .folder "." (.file ⟨"x", some "id-2", none⟩ .nil) (.file ⟨"x", some "id-1", none⟩ .nil)

/-- A remote that serves `dotTree`. -/
def dotRemote : Remote Unit where
  listBuckets := fun s => (.ok [⟨"assets"⟩], s)
  list := fun s _ path opts =>
    if path = "" then (.ok ((dotTree.rows.drop opts.offset).take opts.limit), s)
    else if path = "." then
      (.ok ((([⟨"x", some "id-2", none⟩] : List Entry).drop opts.offset).take opts.limit), s)
    else (.ok [], s)
  download := fun s _ path => if path = "x" then (.ok [1], s) else (.ok [2], s)

/-- A remote whose list call returns a full page of 1000 file rows at every
offset, for every prefix; no call ever fails. -/
def endlessRemote : Remote Unit where
  listBuckets := fun s => (.ok [⟨"flat"⟩], s)
  list := fun s _ _ _ => (.ok (fileRows 1000), s)
  download := fun s _ _ => (.ok [], s)

/-- The write a `writeFile` event performed. -/
def Event.write? : Event → Option (String × FileData)
  | .writeFile path data => some (path, data)
  | _ => none

/-- The writes of a run, in order. -/
def writesOf (evs : List Event) : List (String × FileData) :=
  evs.filterMap Event.write?

/-- The bucket, path and bytes of a download that returned data. -/
def Event.okDownload? : Event → Option (String × String × Bytes)
  | .download bucket path (.ok data) => some (bucket, path, data)
  | _ => none

/-- The successful downloads of a run, in order. -/
def okDownloads (evs : List Event) : List (String × String × Bytes) :=
  evs.filterMap Event.okDownload?

/-- The bucket and path a download was requested for. -/
def Event.downloadReq? : Event → Option (String × String)
  | .download bucket path _ => some (bucket, path)
  | _ => none

/-- The downloads requested in a run, in order. -/
def downloadsOf (evs : List Event) : List (String × String) :=
  evs.filterMap Event.downloadReq?

/-- The file paths a list event adds to the result of `listAll`, with their bucket. -/
def Event.listed : Event → List (String × String)
  | .list bucket current _ (.ok data) => (filePaths current data).map (fun p => (bucket, p))
  | _ => []

/-- All file paths collected by the list calls of a run, in order. -/
def listedFiles (evs : List Event) : List (String × String) :=
  evs.flatMap Event.listed

/-- The destination of a file: `path.join(path.join(outDir, bucket), filePath)` (lines 60, 65). -/
def destPath (outDir bucket filePath : String) : String :=
  pathJoin (pathJoin outDir bucket) filePath

/-- The write line 72 performs for a successful download. -/
def toWrite (outDir : String) (d : String × String × Bytes) : String × FileData :=
  (destPath outDir d.1 d.2.1, FileData.buffer d.2.2)

/-- The data of the last of the writes `ws` that went to location `loc`. -/
def lastWrite (cwd : List String) (ws : List (String × FileData)) (loc : List String) :
    Option FileData :=
  (ws.reverse.find? (fun x => resolve cwd x.1 = some loc)).map Prod.snd

/-- The filesystem `fs1` is `fs0` after the writes `ws` and some directory
creations: a written location holds the data last written to it, any other
location is unchanged or a new directory. -/
def FsCons (cwd : List String) (ws : List (String × FileData)) (fs0 fs1 : FS) : Prop :=
  ∀ loc, (∀ d, lastWrite cwd ws loc = some d → fs1 loc = some (FsNode.file d)) ∧
    (lastWrite cwd ws loc = none →
      fs1 loc = fs0 loc ∨ (fs0 loc = none ∧ fs1 loc = some FsNode.dir))

/-- Every directory of `a` is a directory of `b` and every file of `a` is a file of `b`. -/
def FS.le (a b : FS) : Prop :=
  ∀ loc, (a loc = some FsNode.dir → b loc = some FsNode.dir) ∧
    (∀ d, a loc = some (FsNode.file d) → ∃ d2, b loc = some (FsNode.file d2))

/-- Nothing exists in `b` where nothing existed in `a`. -/
def FS.noNew (a b : FS) : Prop :=
  ∀ loc, a loc = none → b loc = none

/-- The locations `mkdirFrom` visits: `base` extended by each non-empty initial part of `names`. -/
def prefixesFrom (base : List String) : List String → List (List String)
  | [] => []
  | name :: rest => (base ++ [name]) :: prefixesFrom (base ++ [name]) rest

/-- A failing remote call, if there is one, is the last event and its error is what is thrown. -/
def FailStop {α : Type} (evs : List Event) (out : Outcome α) : Prop :=
  ∀ pre ev post e, evs = pre ++ ev :: post → ev.failure = some e → post = [] ∧ out = .throw e

/-- Every successful download was followed by the write of its bytes to its
destination, except possibly the very last one when that write failed. -/
def Balanced {α : Type} (outDir : String) (evs : List Event) (out : Outcome α) : Prop :=
  writesOf evs = (okDownloads evs).map (toWrite outDir) ∨
    ∃ pre b p data e, evs = pre ++ [Event.download b p (.ok data)] ∧ out = .throw e ∧
      writesOf pre = (okDownloads pre).map (toWrite outDir)

/-- The responses of the remote do not depend on its state. -/
def Stateless {σ : Type} (R : Remote σ) : Prop :=
  (∀ s t, (R.listBuckets s).1 = (R.listBuckets t).1) ∧
    (∀ s t b p o, (R.list s b p o).1 = (R.list t b p o).1) ∧
    (∀ s t b p, (R.download s b p).1 = (R.download t b p).1)

/-- An ordinary entry name: not empty and without `/`. -/
def safeName (n : String) : Bool :=
  decide (n ≠ "" ∧ '/' ∉ n.data)

/-- The names of the file rows of a folder. -/
def Listing.fileNames : Listing → List String
  | .nil => []
  | .file e rest => e.name :: Listing.fileNames rest
  | .folder _ _ rest => Listing.fileNames rest

/-- The names of the folder rows of a folder. -/
def Listing.folderNames : Listing → List String
  | .nil => []
  | .file _ rest => Listing.folderNames rest
  | .folder name _ rest => name :: Listing.folderNames rest

/-- In every folder of the tree the names are ordinary, no two files share a
name and no two subfolders share a name. -/
def Listing.tidy : Listing → Bool
  | .nil => true
  | .file e rest =>
      safeName e.name && decide (e.name ∉ Listing.fileNames rest) && Listing.tidy rest
  | .folder name sub rest =>
      safeName name && decide (name ∉ Listing.folderNames rest) && Listing.tidy sub &&
        Listing.tidy rest

/-- An ordinary path segment: not empty, not `.` and not `..`. -/
def cleanSegment (seg : List Char) : Bool :=
  decide (seg ≠ [] ∧ seg ≠ ['.'] ∧ seg ≠ ['.', '.'])

/-- A path all of whose segments are ordinary; `path.join` appends such a path unchanged. -/
def cleanPath (p : String) : Bool :=
  (splitSlash p.data).all cleanSegment

/-- What `path.join(b, p)` puts in front of a clean path `p`. -/
def joinFront (b : List Char) : List Char :=
  (if b.head? = some '/' then ['/'] else []) ++
    (if normalizeSegments (!decide (b.head? = some '/')) (splitSlash b) [] = [] then []
      else List.intercalate ['/']
        (normalizeSegments (!decide (b.head? = some '/')) (splitSlash b) []) ++ ['/'])

/-- A name that is also not `.` or `..`. -/
def ordinaryName (n : String) : Bool :=
  safeName n && decide (n ≠ "." ∧ n ≠ "..")

/-- Every name in the tree is ordinary. -/
def Listing.ordinary : Listing → Bool
  | .nil => true
  | .file e rest => ordinaryName e.name && Listing.ordinary rest
  | .folder name sub rest => ordinaryName name && Listing.ordinary sub && Listing.ordinary rest

/-! ## Lemmas on the listing walk -/

theorem forEntries_eq (current : String) (data : List Entry) (results stack : List String) :
    forEntries current data (results, stack) =
      (results ++ filePaths current data, stack ++ folderPaths current data) := by
  induction data generalizing results stack with
  | nil => simp [forEntries, filePaths, folderPaths]
  | cons e rest ih =>
    by_cases h : e.isFile = true
    · simp [forEntries, h, ih, filePaths, folderPaths]
    · simp [forEntries, h, ih, filePaths, folderPaths]

theorem filePaths_append (c : String) (xs ys : List Entry) :
    filePaths c (xs ++ ys) = filePaths c xs ++ filePaths c ys := by
  simp [filePaths]

theorem folderPaths_append (c : String) (xs ys : List Entry) :
    folderPaths c (xs ++ ys) = folderPaths c xs ++ folderPaths c ys := by
  simp [folderPaths]

theorem pageLoop_faithful {σ : Type} (R : Remote σ) (bucket p : String) (rows : List Entry)
    (h : PagesOf R bucket p rows) :
    ∀ (n offset : Nat) (results stack : List String) (s : σ) (fuel : Nat),
      (rows.length - offset) / limit = n → n + 1 ≤ fuel →
      ∃ s2, pageLoop R bucket p fuel offset results stack s =
        (.ok (results ++ filePaths p (rows.drop offset), stack ++ folderPaths p (rows.drop offset)),
          s2, pageEvents bucket p rows offset (n + 1)) := by
  intro n
  induction n with
  | zero =>
    intro offset results stack s fuel hn hf
    obtain ⟨f, rfl⟩ : ∃ f, fuel = f + 1 := ⟨fuel - 1, by omega⟩
    have hp := h s offset
    rcases hr : R.list s bucket p (listOptions offset) with ⟨resp, s1⟩
    rw [hr] at hp
    simp only at hp
    subst hp
    have hlt : rows.length - offset < limit := by
      have := Nat.div_eq_zero_iff (by decide : 0 < limit) |>.mp hn
      exact this
    have htake : (rows.drop offset).take limit = rows.drop offset := by
      apply List.take_of_length_le
      simp only [List.length_drop]; omega
    refine ⟨s1, ?_⟩
    simp only [pageLoop, hr, htake, forEntries_eq, pageEvents]
    simp [List.length_drop, hlt]
  | succ n ih =>
    intro offset results stack s fuel hn hf
    obtain ⟨f, rfl⟩ : ∃ f, fuel = f + 1 := ⟨fuel - 1, by omega⟩
    have hp := h s offset
    rcases hr : R.list s bucket p (listOptions offset) with ⟨resp, s1⟩
    rw [hr] at hp
    simp only at hp
    subst hp
    have hge : limit ≤ rows.length - offset := by
      by_contra hlt
      have : (rows.length - offset) / limit = 0 := Nat.div_eq_of_lt (by omega)
      omega
    have hlen : ((rows.drop offset).take limit).length = limit := by
      simp only [List.length_take, List.length_drop]; omega
    have hn2 : (rows.length - (offset + limit)) / limit = n := by
      have h1 : rows.length - offset = (rows.length - (offset + limit)) + limit := by omega
      rw [h1, Nat.add_div_right _ (by decide : 0 < limit)] at hn
      omega
    obtain ⟨s2, h2⟩ := ih (offset + limit) (results ++ filePaths p ((rows.drop offset).take limit))
      (stack ++ folderPaths p ((rows.drop offset).take limit)) s1 f hn2 (by omega)
    refine ⟨s2, ?_⟩
    have hsplit : rows.drop offset =
        (rows.drop offset).take limit ++ rows.drop (offset + limit) := by
      rw [← List.drop_drop, List.take_append_drop]
    have e1 : filePaths p (rows.drop offset) =
        filePaths p ((rows.drop offset).take limit) ++ filePaths p (rows.drop (offset + limit)) := by
      rw [← filePaths_append, ← hsplit]
    have e2 : folderPaths p (rows.drop offset) =
        folderPaths p ((rows.drop offset).take limit) ++
          folderPaths p (rows.drop (offset + limit)) := by
      rw [← folderPaths_append, ← hsplit]
    simp only [pageLoop, hr, forEntries_eq, hlen, lt_irrefl, if_false, h2, e1, e2,
      List.append_assoc, pageEvents]

/-! ### The page loop against an arbitrary remote -/

theorem okPageEvents_append (bucket current : String) (offset : Nat) (a b : List (List Entry)) :
    okPageEvents bucket current offset (a ++ b) =
      okPageEvents bucket current offset a ++
        okPageEvents bucket current (offset + a.length * limit) b := by
  induction a generalizing offset with
  | nil => simp [okPageEvents]
  | cons pg rest ih =>
    have h2 : offset + limit + rest.length * limit = offset + (rest.length + 1) * limit := by ring
    rw [List.cons_append, okPageEvents, okPageEvents, ih, List.length_cons, h2, List.cons_append]

theorem pageLoop_spec {σ : Type} (R : Remote σ) (bucket current : String) :
    ∀ (fuel offset : Nat) (results stack : List String) (s : σ),
      ∃ pages : List (List Entry), (∀ pg ∈ pages, limit ≤ pg.length) ∧
        ((∃ last s2, last.length < limit ∧
            pageLoop R bucket current fuel offset results stack s =
              (.ok (results ++ filePaths current (pages.flatten ++ last),
                  stack ++ folderPaths current (pages.flatten ++ last)), s2,
                okPageEvents bucket current offset (pages ++ [last]))) ∨
          (∃ e s2, pageLoop R bucket current fuel offset results stack s =
              (.throw e, s2, okPageEvents bucket current offset pages ++
                [Event.list bucket current (listOptions (offset + pages.length * limit))
                  (.error e)])) ∨
          (∃ s2, pages.length = fuel ∧
            pageLoop R bucket current fuel offset results stack s =
              (.diverge, s2, okPageEvents bucket current offset pages))) := by
  intro fuel
  induction fuel with
  | zero =>
    intro offset results stack s
    exact ⟨[], by simp, Or.inr (Or.inr ⟨s, rfl, by simp [pageLoop, okPageEvents]⟩)⟩
  | succ f ih =>
    intro offset results stack s
    rcases hr : R.list s bucket current (listOptions offset) with ⟨resp, s1⟩
    cases resp with
    | error e =>
      exact ⟨[], by simp, Or.inr (Or.inl ⟨e, s1, by simp [pageLoop, hr, okPageEvents]⟩)⟩
    | ok data =>
      by_cases hlt : data.length < limit
      · exact ⟨[], by simp, Or.inl ⟨data, s1, hlt, by
          simp [pageLoop, hr, hlt, okPageEvents, forEntries_eq]⟩⟩
      · obtain ⟨pages, hfull, hcases⟩ := ih (offset + limit) (results ++ filePaths current data)
          (stack ++ folderPaths current data) s1
        refine ⟨data :: pages, ?_, ?_⟩
        · intro pg hpg
          rcases List.mem_cons.mp hpg with rfl | h
          · omega
          · exact hfull pg h
        · have hoff : offset + (pages.length + 1) * limit = offset + limit + pages.length * limit := by
            ring
          rcases hcases with ⟨last, s2, hl, h⟩ | ⟨e, s2, h⟩ | ⟨s2, hlen, h⟩
          · refine Or.inl ⟨last, s2, hl, ?_⟩
            simp [pageLoop, hr, hlt, forEntries_eq, h, okPageEvents, filePaths_append,
              folderPaths_append, List.append_assoc]
          · refine Or.inr (Or.inl ⟨e, s2, ?_⟩)
            simp [pageLoop, hr, hlt, forEntries_eq, h, okPageEvents, hoff]
          · refine Or.inr (Or.inr ⟨s2, by simp [hlen], ?_⟩)
            simp [pageLoop, hr, hlt, forEntries_eq, h, okPageEvents]

theorem okPageEvents_appended (bucket current : String) (offset : Nat) (pages : List (List Entry)) :
    (okPageEvents bucket current offset pages).flatMap Event.appended =
      filePaths current pages.flatten := by
  induction pages generalizing offset with
  | nil => simp [okPageEvents, filePaths]
  | cons pg rest ih =>
    simp [okPageEvents, Event.appended, ih, filePaths_append]

theorem okPageEvents_pushed (bucket current : String) (offset : Nat) (pages : List (List Entry)) :
    (okPageEvents bucket current offset pages).flatMap Event.pushed =
      folderPaths current pages.flatten := by
  induction pages generalizing offset with
  | nil => simp [okPageEvents, folderPaths]
  | cons pg rest ih =>
    simp [okPageEvents, Event.pushed, ih, folderPaths_append]

theorem okPageEvents_allOk (bucket current : String) (offset : Nat) (pages : List (List Entry)) :
    AllOk (okPageEvents bucket current offset pages) := by
  induction pages generalizing offset with
  | nil => intro ev h; simp [okPageEvents] at h
  | cons pg rest ih =>
    intro ev h
    simp only [okPageEvents, List.mem_cons] at h
    rcases h with rfl | h
    · rfl
    · exact ih _ ev h

theorem okPageEvents_listedPath (bucket current : String) (offset : Nat)
    (pages : List (List Entry)) :
    ∀ ev ∈ okPageEvents bucket current offset pages, ev.listedPath = some current := by
  induction pages generalizing offset with
  | nil => intro ev h; simp [okPageEvents] at h
  | cons pg rest ih =>
    intro ev h
    simp only [okPageEvents, List.mem_cons] at h
    rcases h with rfl | h
    · rfl
    · exact ih _ ev h

/-- What one run of the page loop does, in terms of its events. -/
theorem pageLoop_run {σ : Type} (R : Remote σ) (bucket current : String)
    (fuel offset : Nat) (results stack : List String) (s : σ) :
    (∀ ev ∈ (pageLoop R bucket current fuel offset results stack s).2.2,
        ev.listedPath = some current) ∧
    (∀ acc, (pageLoop R bucket current fuel offset results stack s).1 = .ok acc →
        acc = (results ++
            (pageLoop R bucket current fuel offset results stack s).2.2.flatMap Event.appended,
          stack ++
            (pageLoop R bucket current fuel offset results stack s).2.2.flatMap Event.pushed) ∧
        AllOk (pageLoop R bucket current fuel offset results stack s).2.2) ∧
    (∀ e, (pageLoop R bucket current fuel offset results stack s).1 = .throw e →
        ∃ pre o, (pageLoop R bucket current fuel offset results stack s).2.2 =
          pre ++ [Event.list bucket current o (.error e)] ∧ AllOk pre) ∧
    ((pageLoop R bucket current fuel offset results stack s).1 = .diverge →
        AllOk (pageLoop R bucket current fuel offset results stack s).2.2) := by
  obtain ⟨pages, _, hcases⟩ := pageLoop_spec R bucket current fuel offset results stack s
  rcases hcases with ⟨last, s2, _, h⟩ | ⟨e, s2, h⟩ | ⟨s2, _, h⟩
  · rw [h]
    have hfl : pages.flatten ++ last = (pages ++ [last]).flatten := by simp
    refine ⟨okPageEvents_listedPath _ _ _ _, ?_, ?_, ?_⟩
    · intro acc hacc
      simp only [Outcome.ok.injEq] at hacc
      subst hacc
      exact ⟨by rw [okPageEvents_appended, okPageEvents_pushed, hfl],
        okPageEvents_allOk _ _ _ _⟩
    · intro e he; simp at he
    · intro he; simp at he
  · rw [h]
    refine ⟨?_, ?_, ?_, ?_⟩
    · intro ev hev
      rcases List.mem_append.mp hev with h1 | h1
      · exact okPageEvents_listedPath _ _ _ _ ev h1
      · simp only [List.mem_singleton] at h1; subst h1; rfl
    · intro acc hacc; simp at hacc
    · intro e2 he
      simp only [Outcome.throw.injEq] at he
      subst he
      exact ⟨_, _, rfl, okPageEvents_allOk _ _ _ _⟩
    · intro he; simp at he
  · rw [h]
    refine ⟨okPageEvents_listedPath _ _ _ _, ?_, ?_, ?_⟩
    · intro acc hacc; simp at hacc
    · intro e he; simp at he
    · intro _; exact okPageEvents_allOk _ _ _ _

theorem justified_mono (known known2 : List String) (evs : List Event)
    (hsub : ∀ q ∈ known, q ∈ known2) (h : Justified known evs) : Justified known2 evs := by
  induction evs generalizing known known2 with
  | nil => trivial
  | cons ev rest ih =>
    obtain ⟨h1, h2⟩ := h
    refine ⟨fun q hq => hsub q (h1 q hq), ih _ _ ?_ h2⟩
    intro q hq
    rcases List.mem_append.mp hq with h | h
    · exact List.mem_append.mpr (Or.inl (hsub q h))
    · exact List.mem_append.mpr (Or.inr h)

theorem justified_append (known : List String) (a b : List Event) :
    Justified known (a ++ b) ↔
      Justified known a ∧ Justified (known ++ a.flatMap Event.pushed) b := by
  induction a generalizing known with
  | nil => simp [Justified]
  | cons ev rest ih =>
    rw [List.cons_append, Justified, Justified, ih, List.flatMap_cons, List.append_assoc,
      and_assoc]

theorem justified_of_listedPath (known : List String) (current : String) (evs : List Event)
    (hc : current ∈ known) (h : ∀ ev ∈ evs, ev.listedPath = some current) :
    Justified known evs := by
  induction evs generalizing known with
  | nil => trivial
  | cons ev rest ih =>
    refine ⟨?_, ih _ (List.mem_append.mpr (Or.inl hc)) (fun e he => h e (List.mem_cons_of_mem _ he))⟩
    intro q hq
    have := h ev (List.mem_cons_self _ _)
    rw [this] at hq
    cases hq
    exact hc

theorem justified_split (known : List String) (evs pre post : List Event) (ev : Event)
    (q : String) (h : Justified known evs) (he : evs = pre ++ ev :: post)
    (hq : ev.listedPath = some q) : q ∈ known ∨ q ∈ pre.flatMap Event.pushed := by
  subst he
  rw [justified_append] at h
  have := h.2.1 q hq
  exact List.mem_append.mp this

theorem allOk_append (a b : List Event) : AllOk (a ++ b) ↔ AllOk a ∧ AllOk b := by
  simp only [AllOk, List.mem_append]
  constructor
  · intro h; exact ⟨fun ev he => h ev (Or.inl he), fun ev he => h ev (Or.inr he)⟩
  · rintro ⟨h1, h2⟩ ev (he | he)
    · exact h1 ev he
    · exact h2 ev he

/-- What one run of the stack loop does, in terms of its events. -/
theorem stackLoop_run {σ : Type} (R : Remote σ) (bucket : String) :
    ∀ (fuel : Nat) (results stack : List String) (s : σ),
      Justified stack (stackLoop R bucket fuel results stack s).2.2 ∧
      (∀ files, (stackLoop R bucket fuel results stack s).1 = .ok files →
        files = results ++ (stackLoop R bucket fuel results stack s).2.2.flatMap Event.appended ∧
          AllOk (stackLoop R bucket fuel results stack s).2.2) ∧
      (∀ e, (stackLoop R bucket fuel results stack s).1 = .throw e →
        ∃ pre c o, (stackLoop R bucket fuel results stack s).2.2 =
          pre ++ [Event.list bucket c o (.error e)] ∧ AllOk pre) ∧
      ((stackLoop R bucket fuel results stack s).1 = .diverge →
        AllOk (stackLoop R bucket fuel results stack s).2.2) := by
  intro fuel
  induction fuel with
  | zero =>
    intro results stack s
    simp [stackLoop, Justified, AllOk]
  | succ f ih =>
    intro results stack s
    cases hlast : stack.getLast? with
    | none => simp [stackLoop, hlast, Justified, AllOk]
    | some current =>
      have hmem : current ∈ stack := List.mem_of_getLast?_eq_some hlast
      have hdrop : ∀ q ∈ stack.dropLast, q ∈ stack := fun q hq => List.mem_of_mem_dropLast hq
      obtain ⟨hp1, hp2, hp3, hp4⟩ := pageLoop_run R bucket current f 0 results stack.dropLast s
      rcases h1 : pageLoop R bucket current f 0 results stack.dropLast s with ⟨out1, s1, evs1⟩
      rw [h1] at hp1 hp2 hp3 hp4
      simp only at hp1 hp2 hp3 hp4
      have hj1 : Justified stack evs1 := justified_of_listedPath stack current evs1 hmem hp1
      cases out1 with
      | ok acc =>
        obtain ⟨hacc, hok1⟩ := hp2 acc rfl
        obtain ⟨hi1, hi2, hi3, hi4⟩ := ih acc.1 acc.2 s1
        rcases h2 : stackLoop R bucket f acc.1 acc.2 s1 with ⟨out2, s2, evs2⟩
        rw [h2] at hi1 hi2 hi3 hi4
        simp only at hi1 hi2 hi3 hi4
        have hstep : stackLoop R bucket (f + 1) results stack s = (out2, s2, evs1 ++ evs2) := by
          simp [stackLoop, hlast, h1, h2]
        rw [hstep]
        simp only
        have hacc1 : acc.1 = results ++ evs1.flatMap Event.appended := by rw [hacc]
        have hacc2 : acc.2 = stack.dropLast ++ evs1.flatMap Event.pushed := by rw [hacc]
        refine ⟨?_, ?_, ?_, ?_⟩
        · rw [justified_append]
          refine ⟨hj1, justified_mono _ _ _ ?_ hi1⟩
          intro q hq
          rw [hacc2] at hq
          rcases List.mem_append.mp hq with h | h
          · exact List.mem_append.mpr (Or.inl (hdrop q h))
          · exact List.mem_append.mpr (Or.inr h)
        · intro files hfiles
          obtain ⟨hf1, hf2⟩ := hi2 files hfiles
          refine ⟨?_, (allOk_append _ _).mpr ⟨hok1, hf2⟩⟩
          rw [hf1, hacc1, List.flatMap_append, List.append_assoc]
        · intro e he
          obtain ⟨pre, c, o, hpre, hpok⟩ := hi3 e he
          exact ⟨evs1 ++ pre, c, o, by rw [hpre, List.append_assoc],
            (allOk_append _ _).mpr ⟨hok1, hpok⟩⟩
        · intro hd
          exact (allOk_append _ _).mpr ⟨hok1, hi4 hd⟩
      | throw e =>
        have hstep : stackLoop R bucket (f + 1) results stack s = (.throw e, s1, evs1) := by
          simp [stackLoop, hlast, h1]
        rw [hstep]
        refine ⟨hj1, ?_, ?_, ?_⟩
        · intro files hfiles; simp at hfiles
        · intro e2 he
          simp only [Outcome.throw.injEq] at he
          subst he
          obtain ⟨pre, o, hpre, hpok⟩ := hp3 e rfl
          exact ⟨pre, current, o, hpre, hpok⟩
        · intro hd; simp at hd
      | diverge =>
        have hstep : stackLoop R bucket (f + 1) results stack s = (.diverge, s1, evs1) := by
          simp [stackLoop, hlast, h1]
        rw [hstep]
        refine ⟨hj1, ?_, ?_, ?_⟩
        · intro files hfiles; simp at hfiles
        · intro e2 he; simp at he
        · intro _; exact hp4 rfl

/-! ### The walk over a faithfully served tree -/

theorem ownFiles_eq_filePaths (p : String) (l : Listing) (h : l.recognisable = true) :
    l.ownFiles p = filePaths p l.rows := by
  induction l with
  | nil => rfl
  | file e rest ih =>
    simp only [Listing.recognisable, Bool.and_eq_true] at h
    simp [Listing.ownFiles, Listing.rows, filePaths, h.1, ih h.2]
  | folder name sub rest _ ih =>
    simp only [Listing.recognisable, Bool.and_eq_true] at h
    simp [Listing.ownFiles, Listing.rows, filePaths, Entry.isFile, truthyString, ih h.2]

theorem subfolders_eq_folderPaths (p : String) (l : Listing) (h : l.recognisable = true) :
    (l.subfolders p).map Prod.fst = folderPaths p l.rows := by
  induction l with
  | nil => rfl
  | file e rest ih =>
    simp only [Listing.recognisable, Bool.and_eq_true] at h
    simp [Listing.subfolders, Listing.rows, folderPaths, h.1, ih h.2]
  | folder name sub rest _ ih =>
    simp only [Listing.recognisable, Bool.and_eq_true] at h
    simp [Listing.subfolders, Listing.rows, folderPaths, Entry.isFile, truthyString, ih h.2]

theorem walkSubs_eq (p : String) (l : Listing) :
    l.walkSubs p = (l.subfolders p).reverse.flatMap (fun x => Listing.walk x.1 x.2) := by
  induction l with
  | nil => rfl
  | file e rest ih => simpa [Listing.walkSubs, Listing.subfolders] using ih
  | folder name sub rest _ ih =>
    simp [Listing.walkSubs, Listing.subfolders, ih, Listing.walk, List.flatMap_append]

theorem subsEvents_eq (bucket p : String) (l : Listing) :
    subsEvents bucket p l = (l.subfolders p).reverse.flatMap (fun x => walkEvents bucket x.1 x.2) := by
  induction l with
  | nil => rfl
  | file e rest ih => simpa [subsEvents, Listing.subfolders] using ih
  | folder name sub rest _ ih =>
    simp [subsEvents, Listing.subfolders, ih, walkEvents, List.flatMap_append]

theorem subsVisited_eq (p : String) (l : Listing) :
    subsVisited p l = (l.subfolders p).reverse.flatMap (fun x => visited x.1 x.2) := by
  induction l with
  | nil => rfl
  | file e rest ih => simpa [subsVisited, Listing.subfolders] using ih
  | folder name sub rest _ ih =>
    simp [subsVisited, Listing.subfolders, ih, visited, List.flatMap_append]

theorem pendingSize_append (a b : List (String × Listing)) :
    pendingSize (a ++ b) = pendingSize a + pendingSize b := by
  simp [pendingSize]

theorem pendingCost_append (a b : List (String × Listing)) :
    pendingCost (a ++ b) = pendingCost a + pendingCost b := by
  simp [pendingCost]

theorem pendingSize_subfolders (p : String) (l : Listing) :
    pendingSize (l.subfolders p) ≤ l.size := by
  induction l with
  | nil => simp [pendingSize, Listing.subfolders]
  | file e rest ih => simp only [Listing.subfolders, Listing.size]; omega
  | folder name sub rest _ ih =>
    simp only [pendingSize, Listing.subfolders, Listing.size, List.map_cons, List.sum_cons] at ih ⊢
    omega

theorem pendingCost_subfolders (p : String) (l : Listing) :
    pendingCost (l.subfolders p) = l.subCalls + l.subFolderCount := by
  induction l with
  | nil => simp [pendingCost, Listing.subfolders, Listing.subCalls, Listing.subFolderCount]
  | file e rest ih =>
    simpa [Listing.subfolders, Listing.subCalls, Listing.subFolderCount] using ih
  | folder name sub rest _ ih =>
    simp only [pendingCost, Listing.subfolders, Listing.subCalls, Listing.subFolderCount,
      Listing.calls, Listing.folderCount, List.map_cons, List.sum_cons] at ih ⊢
    omega

theorem servesBelow_subfolders {σ : Type} (R : Remote σ) (bucket p : String) (l : Listing)
    (h : ServesBelow R bucket p l) (hr : l.recognisable = true) :
    ∀ x ∈ l.subfolders p, Faithful R bucket x.1 x.2 := by
  induction l with
  | nil => intro x hx; simp [Listing.subfolders] at hx
  | file e rest ih =>
    simp only [Listing.recognisable, Bool.and_eq_true] at hr
    exact ih h hr.2
  | folder name sub rest _ ih =>
    simp only [Listing.recognisable, Bool.and_eq_true] at hr
    obtain ⟨h1, h2, h3⟩ := h
    intro x hx
    simp only [Listing.subfolders, List.mem_cons] at hx
    rcases hx with rfl | hx
    · exact ⟨hr.1, h1, h2⟩
    · exact ih h3 hr.2 x hx

theorem stackLoop_faithful {σ : Type} (R : Remote σ) (bucket : String) :
    ∀ (m : Nat) (pending : List (String × Listing)) (results : List String) (s : σ) (fuel : Nat),
      pendingSize pending ≤ m →
      (∀ x ∈ pending, Faithful R bucket x.1 x.2) →
      pendingCost pending + 1 ≤ fuel →
      ∃ s2, stackLoop R bucket fuel results (pending.map Prod.fst) s =
        (.ok (results ++ pending.reverse.flatMap (fun x => Listing.walk x.1 x.2)), s2,
          pending.reverse.flatMap (fun x => walkEvents bucket x.1 x.2)) := by
  intro m
  induction m with
  | zero =>
    intro pending results s fuel hm _ hf
    obtain ⟨f, rfl⟩ : ∃ f, fuel = f + 1 := ⟨fuel - 1, by omega⟩
    have : pending = [] := by
      cases pending with
      | nil => rfl
      | cons x xs => simp [pendingSize] at hm
    subst this
    exact ⟨s, by simp [stackLoop]⟩
  | succ m ih =>
    intro pending results s fuel hm hfa hf
    obtain ⟨f, rfl⟩ : ∃ f, fuel = f + 1 := ⟨fuel - 1, by omega⟩
    rcases List.eq_nil_or_concat pending with rfl | ⟨init, ⟨p, l⟩, rfl⟩
    · exact ⟨s, by simp [stackLoop]⟩
    · simp only [List.concat_eq_append] at hm hfa hf ⊢
      have hx := hfa (p, l) (by simp)
      obtain ⟨hrec, hpages, hbelow⟩ := hx
      dsimp only at hpages hbelow hrec
      have hc1 : pendingCost [(p, l)] = l.calls + l.folderCount := by simp [pendingCost]
      have hs1 : pendingSize [(p, l)] = l.size + 1 := by simp [pendingSize]
      rw [pendingCost_append, hc1] at hf
      rw [pendingSize_append, hs1] at hm
      simp only [Listing.calls, Listing.folderCount] at hf
      have hcost := pendingCost_subfolders p l
      have hsize := pendingSize_subfolders p l
      have hq : 0 ≤ l.rows.length / limit := Nat.zero_le _
      obtain ⟨s1, h1⟩ := pageLoop_faithful R bucket p l.rows hpages (l.rows.length / limit) 0
        results (init.map Prod.fst) s f (by simp) (by omega)
      have hsub := servesBelow_subfolders R bucket p l hbelow hrec
      obtain ⟨s2, h2⟩ := ih (init ++ l.subfolders p) (results ++ l.ownFiles p) s1 f
        (by rw [pendingSize_append]; omega)
        (by
          intro x hx
          rcases List.mem_append.mp hx with hx | hx
          · exact hfa x (by simp [hx])
          · exact hsub x hx)
        (by rw [pendingCost_append, hcost]; omega)
      refine ⟨s2, ?_⟩
      simp only [List.drop_zero] at h1
      rw [← ownFiles_eq_filePaths p l hrec, ← subfolders_eq_folderPaths p l hrec,
        ← List.map_append] at h1
      simp only [stackLoop, List.map_append, List.map_cons, List.map_nil, List.getLast?_concat,
        List.dropLast_concat]
      rw [h1]
      simp only [h2]
      have hw : Listing.walk p l = l.ownFiles p ++
          (l.subfolders p).reverse.flatMap (fun x => Listing.walk x.1 x.2) := by
        rw [Listing.walk, walkSubs_eq]
      have he : walkEvents bucket p l = pageEvents bucket p l.rows 0 (l.rows.length / limit + 1) ++
          (l.subfolders p).reverse.flatMap (fun x => walkEvents bucket x.1 x.2) := by
        rw [walkEvents, subsEvents_eq]
      simp only [List.reverse_append, List.flatMap_append, List.reverse_cons, List.reverse_nil,
        List.nil_append, List.flatMap_cons, List.flatMap_nil, List.append_nil, hw, he,
        List.append_assoc]

/-! ### Consequences for `listAll` on a served tree -/

theorem listAll_faithful {σ : Type} (R : Remote σ) (bucket start : String) (l : Listing)
    (hf : Faithful R bucket start l) (s : σ) (fuel : Nat)
    (hfuel : l.calls + l.folderCount + 1 ≤ fuel) :
    ∃ s2, listAll R bucket start fuel s =
      (.ok (Listing.walk start l), s2, walkEvents bucket start l) := by
  obtain ⟨s2, h⟩ := stackLoop_faithful R bucket (l.size + 1) [(start, l)] [] s fuel
    (by simp [pendingSize])
    (by
      intro x hx
      simp only [List.mem_singleton] at hx
      subst hx
      exact hf)
    (by simpa [pendingCost] using hfuel)
  exact ⟨s2, by simpa [listAll] using h⟩

theorem walk_file (p : String) (e : Entry) (rest : Listing) :
    Listing.walk p (.file e rest) = childPath p e.name :: Listing.walk p rest := by
  simp [Listing.walk, Listing.ownFiles, Listing.walkSubs]

theorem mem_walk_folder (p name : String) (sub rest : Listing) (x : String) :
    x ∈ Listing.walk p (.folder name sub rest) ↔
      x ∈ Listing.walk (childPath p name) sub ∨ x ∈ Listing.walk p rest := by
  simp only [Listing.walk, Listing.ownFiles, Listing.walkSubs, List.mem_append]
  tauto

theorem mem_walk (l : Listing) : ∀ (p x : String),
    x ∈ Listing.walk p l ↔ ∃ fe ∈ l.fileEntries, x = codePath p fe.1 fe.2.name := by
  induction l with
  | nil =>
    intro p x
    constructor
    · intro h
      exact absurd h (List.not_mem_nil x)
    · rintro ⟨fe, hfe, _⟩
      exact absurd hfe (List.not_mem_nil fe)
  | file e rest ih =>
    intro p x
    rw [walk_file, List.mem_cons, ih p x]
    constructor
    · rintro (rfl | ⟨fe, hfe, rfl⟩)
      · exact ⟨([], e), List.mem_cons_self _ _, rfl⟩
      · exact ⟨fe, List.mem_cons_of_mem _ hfe, rfl⟩
    · rintro ⟨fe, hfe, rfl⟩
      rcases List.mem_cons.mp hfe with rfl | h
      · exact Or.inl rfl
      · exact Or.inr ⟨fe, h, rfl⟩
  | folder name sub rest ihs ihr =>
    intro p x
    rw [mem_walk_folder, ihs, ihr]
    simp only [Listing.fileEntries, List.mem_append, List.mem_map]
    constructor
    · rintro (⟨fe, hfe, rfl⟩ | ⟨fe, hfe, rfl⟩)
      · exact ⟨(name :: fe.1, fe.2), Or.inl ⟨fe, hfe, rfl⟩, by simp [codePath]⟩
      · exact ⟨fe, Or.inr hfe, rfl⟩
    · rintro ⟨fe, (⟨fe2, hfe2, rfl⟩ | hfe), rfl⟩
      · exact Or.inl ⟨fe2, hfe2, by simp [codePath]⟩
      · exact Or.inr ⟨fe, hfe, rfl⟩

theorem string_eq_empty_of_length (b : String) (h : b.length = 0) : b = "" := by
  apply String.ext
  cases b with
  | mk d => exact List.length_eq_zero.mp h

theorem childPath_ne_empty (q name : String) (hq : q ≠ "") : childPath q name ≠ "" := by
  have h : childPath q name = q ++ ("/" ++ name) := by
    simp [childPath, hq, String.append_assoc]
  rw [h]
  intro h2
  have h3 : (q ++ ("/" ++ name)).length = 0 := by rw [h2]; rfl
  rw [String.length_append] at h3
  exact hq (string_eq_empty_of_length q (by omega))

theorem codePath_eq_go (segs : List String) : ∀ (q name : String), q ≠ "" →
    codePath q segs name = String.intercalate.go q "/" (segs ++ [name]) := by
  induction segs with
  | nil =>
    intro q name hq
    simp [codePath, childPath, hq, String.intercalate.go]
  | cons a as ih =>
    intro q name hq
    have h := ih (childPath q a) name (childPath_ne_empty q a hq)
    simp only [codePath, List.foldl_cons] at h ⊢
    rw [h]
    simp [childPath, hq, String.intercalate.go]

theorem codePath_eq_joinedPath (segs : List String) (name : String)
    (h : segs.head? ≠ some "") : codePath "" segs name = joinedPath segs name := by
  cases segs with
  | nil => simp [codePath, childPath, joinedPath, String.intercalate, String.intercalate.go]
  | cons a as =>
    have ha : a ≠ "" := by
      intro h2; apply h; simp [h2]
    have h1 : codePath "" (a :: as) name = codePath a as name := by
      simp [codePath, childPath]
    rw [h1, codePath_eq_go as a name ha]
    simp [joinedPath, String.intercalate]

theorem pagesOf_unique {σ : Type} (R : Remote σ) (bucket p : String) (xs ys : List Entry)
    (s : σ) (hx : PagesOf R bucket p xs) (hy : PagesOf R bucket p ys) : xs = ys := by
  have key : ∀ offset, (xs.drop offset).take limit = (ys.drop offset).take limit := by
    intro offset
    have h1 := hx s offset
    have h2 := hy s offset
    rw [h1] at h2
    exact Except.ok.inj h2
  apply List.ext_getElem?
  intro i
  have h := congrArg (fun l => l[0]?) (key i)
  simpa [List.getElem?_take, limit] using h

theorem no_empty_named_folder {σ : Type} (R : Remote σ) (bucket : String) (s : σ)
    (xs : List Entry) (hxs : PagesOf R bucket "" xs) (hmem : (⟨"", none, none⟩ : Entry) ∈ xs) :
    ∀ l : Listing, ServesBelow R bucket "" l → l.recognisable = true →
      (⟨"", none, none⟩ : Entry) ∈ l.rows → False := by
  intro l
  induction l with
  | nil => intro _ _ h; simp [Listing.rows] at h
  | file e rest ih =>
    intro hs hr h
    simp only [Listing.recognisable, Bool.and_eq_true] at hr
    simp only [Listing.rows, List.mem_cons] at h
    rcases h with h | h
    · rw [← h] at hr
      simp [Entry.isFile, truthyString] at hr
    · exact ih hs hr.2 h
  | folder name sub rest ihs ihr =>
    intro hs hr h
    simp only [Listing.recognisable, Bool.and_eq_true] at hr
    obtain ⟨h1, h2, h3⟩ := hs
    simp only [Listing.rows, List.mem_cons] at h
    by_cases hn : name = ""
    · subst hn
      have hcp : childPath "" "" = "" := by simp [childPath]
      rw [hcp] at h1 h2
      have heq : sub.rows = xs := pagesOf_unique R bucket "" _ _ s h1 hxs
      exact ihs h2 hr.1 (by rw [heq]; exact hmem)
    · rcases h with h | h
      · simp only [Entry.mk.injEq] at h
        exact hn h.1.symm
      · exact ihr h3 hr.2 h

theorem fileEntries_head (l : Listing) :
    ∀ fe ∈ l.fileEntries, fe.1.head? = some "" → (⟨"", none, none⟩ : Entry) ∈ l.rows := by
  induction l with
  | nil => intro fe h; simp [Listing.fileEntries] at h
  | file e rest ih =>
    intro fe h hh
    simp only [Listing.fileEntries, List.mem_cons] at h
    rcases h with rfl | h
    · simp at hh
    · simp only [Listing.rows, List.mem_cons]
      exact Or.inr (ih fe h hh)
  | folder name sub rest _ ihr =>
    intro fe h hh
    simp only [Listing.fileEntries, List.mem_append, List.mem_map] at h
    simp only [Listing.rows, List.mem_cons]
    rcases h with ⟨fe2, _, rfl⟩ | h
    · simp only [List.head?_cons, Option.some.injEq] at hh
      subst hh
      exact Or.inl rfl
    · exact Or.inr (ihr fe h hh)

theorem faithful_root_names {σ : Type} (R : Remote σ) (bucket : String) (s : σ) (l : Listing)
    (hf : Faithful R bucket "" l) :
    ∀ fe ∈ l.fileEntries, fe.1.head? ≠ some "" := by
  intro fe hfe hh
  have hmem := fileEntries_head l fe hfe hh
  exact no_empty_named_folder R bucket s l.rows hf.2.1 hmem l hf.2.2 hf.1 hmem

/-! ### Counting the list calls -/

theorem pageEvents_length (bucket p : String) (rows : List Entry) (offset n : Nat) :
    (pageEvents bucket p rows offset n).length = n := by
  induction n generalizing offset with
  | zero => rfl
  | succ n ih => simp [pageEvents, ih]

theorem subsEvents_length (bucket : String) (l : Listing) :
    ∀ p, (subsEvents bucket p l).length = l.subCalls := by
  induction l with
  | nil => intro p; rfl
  | file e rest ih => intro p; simpa [subsEvents, Listing.subCalls] using ih p
  | folder name sub rest ihs ihr =>
    intro p
    simp only [subsEvents, Listing.subCalls, List.length_append, pageEvents_length, ihs, ihr]
    omega

theorem walkEvents_length (bucket p : String) (l : Listing) :
    (walkEvents bucket p l).length = l.calls := by
  simp [walkEvents, Listing.calls, pageEvents_length, subsEvents_length]

theorem pageEvents_popped_pos (bucket p : String) (rows : List Entry) (n : Nat) :
    ∀ offset, 0 < offset → (pageEvents bucket p rows offset n).filterMap Event.poppedPath = [] := by
  induction n with
  | zero => intro offset _; rfl
  | succ n ih =>
    intro offset h
    have h0 : offset ≠ 0 := by omega
    simp [pageEvents, Event.poppedPath, listOptions, h0, ih (offset + limit) (by omega)]

theorem pageEvents_popped (bucket p : String) (rows : List Entry) (n : Nat) :
    (pageEvents bucket p rows 0 (n + 1)).filterMap Event.poppedPath = [p] := by
  have h := pageEvents_popped_pos bucket p rows n (0 + limit) (by decide)
  rw [pageEvents, List.filterMap_cons, h]
  simp [Event.poppedPath, listOptions]

theorem subsEvents_popped (bucket : String) (l : Listing) :
    ∀ p, (subsEvents bucket p l).filterMap Event.poppedPath = subsVisited p l := by
  induction l with
  | nil => intro p; rfl
  | file e rest ih => intro p; simpa [subsEvents, subsVisited] using ih p
  | folder name sub rest ihs ihr =>
    intro p
    simp only [subsEvents, subsVisited, List.filterMap_append, pageEvents_popped, ihs, ihr,
      List.singleton_append]

theorem walkEvents_popped (bucket p : String) (l : Listing) :
    (walkEvents bucket p l).filterMap Event.poppedPath = visited p l := by
  simp only [walkEvents, visited, List.filterMap_append, pageEvents_popped, subsEvents_popped,
    List.singleton_append]

theorem subsVisited_perm (l : Listing) :
    ∀ p, (subsVisited p l).Perm ((l.subAllFolders p).map Prod.fst) := by
  induction l with
  | nil => intro p; exact List.Perm.refl _
  | file e rest ih => intro p; simpa [subsVisited, Listing.subAllFolders] using ih p
  | folder name sub rest ihs ihr =>
    intro p
    simp only [subsVisited, Listing.subAllFolders, List.map_cons, List.map_append]
    refine List.perm_append_comm.trans ?_
    simp only [List.cons_append]
    exact List.Perm.cons _ (List.Perm.append (ihs _) (ihr p))

theorem subAllFolders_length (l : Listing) :
    ∀ p, (l.subAllFolders p).length = l.subFolderCount := by
  induction l with
  | nil => intro p; rfl
  | file e rest ih => intro p; simpa [Listing.subAllFolders, Listing.subFolderCount] using ih p
  | folder name sub rest ihs ihr =>
    intro p
    simp only [Listing.subAllFolders, Listing.subFolderCount, List.length_cons,
      List.length_append, ihs, ihr]
    omega

theorem walkEvents_allList (bucket : String) (l : Listing) :
    ∀ p, ∀ ev ∈ walkEvents bucket p l, ev.isList = true := by
  have hp : ∀ p (rows : List Entry) n offset, ∀ ev ∈ pageEvents bucket p rows offset n,
      ev.isList = true := by
    intro p rows n
    induction n with
    | zero => intro offset ev h; simp [pageEvents] at h
    | succ n ih =>
      intro offset ev h
      simp only [pageEvents, List.mem_cons] at h
      rcases h with rfl | h
      · rfl
      · exact ih _ ev h
  have hs : ∀ (l : Listing) p, ∀ ev ∈ subsEvents bucket p l, ev.isList = true := by
    intro l
    induction l with
    | nil => intro p ev h; simp [subsEvents] at h
    | file e rest ih => intro p ev h; exact ih p ev (by simpa [subsEvents] using h)
    | folder name sub rest ihs ihr =>
      intro p ev h
      simp only [subsEvents, List.mem_append] at h
      rcases h with h | h | h
      · exact ihr p ev h
      · exact hp _ _ _ _ ev h
      · exact ihs _ ev h
  intro p ev h
  simp only [walkEvents, List.mem_append] at h
  rcases h with h | h
  · exact hp _ _ _ _ ev h
  · exact hs l p ev h

/-! ### The order of the result -/

theorem walk_infix_subs (l : Listing) :
    ∀ p, ∀ x ∈ l.subAllFolders p, Listing.walk x.1 x.2 <:+: l.walkSubs p := by
  induction l with
  | nil => intro p x h; simp [Listing.subAllFolders] at h
  | file e rest ih => intro p x h; exact ih p x (by simpa [Listing.subAllFolders] using h)
  | folder name sub rest ihs ihr =>
    intro p x h
    simp only [Listing.subAllFolders, List.mem_cons, List.mem_append] at h
    simp only [Listing.walkSubs]
    rcases h with rfl | h | h
    · exact ⟨rest.walkSubs p, [], by simp [Listing.walk]⟩
    · obtain ⟨a, b, hab⟩ := ihs _ x h
      exact ⟨rest.walkSubs p ++ sub.ownFiles (childPath p name) ++ a, b, by
        rw [← hab]; simp [List.append_assoc]⟩
    · obtain ⟨a, b, hab⟩ := ihr p x h
      exact ⟨a, b ++ (sub.ownFiles (childPath p name) ++ sub.walkSubs (childPath p name)), by
        rw [← hab]; simp [List.append_assoc]⟩

theorem walk_infix (p : String) (l : Listing) :
    ∀ x ∈ l.allFolders p, Listing.walk x.1 x.2 <:+: Listing.walk p l := by
  intro x h
  simp only [Listing.allFolders, List.mem_cons] at h
  rcases h with rfl | h
  · exact List.infix_refl _
  · obtain ⟨a, b, hab⟩ := walk_infix_subs l p x h
    have hw : Listing.walk p l = l.ownFiles p ++ l.walkSubs p := rfl
    exact ⟨l.ownFiles p ++ a, b, by rw [hw, ← hab]; simp [List.append_assoc]⟩

/-! ### More steps never change a finished run -/

theorem pageLoop_mono {σ : Type} (R : Remote σ) (bucket current : String) :
    ∀ (fuel offset : Nat) (results stack : List String) (s : σ),
      (pageLoop R bucket current fuel offset results stack s).1 ≠ .diverge →
      pageLoop R bucket current (fuel + 1) offset results stack s =
        pageLoop R bucket current fuel offset results stack s := by
  intro fuel
  induction fuel with
  | zero => intro offset results stack s h; simp [pageLoop] at h
  | succ f ih =>
    intro offset results stack s h
    rcases hr : R.list s bucket current (listOptions offset) with ⟨resp, s1⟩
    cases resp with
    | error e => simp [pageLoop, hr]
    | ok data =>
      by_cases hlt : data.length < limit
      · simp [pageLoop, hr, hlt]
      · have h2 : (pageLoop R bucket current f (offset + limit)
            (forEntries current data (results, stack)).1
            (forEntries current data (results, stack)).2 s1).1 ≠ .diverge := by
          intro hd
          apply h
          rw [pageLoop]
          simp [hr, hlt, hd]
        have h3 := ih (offset + limit) _ _ s1 h2
        rw [pageLoop]
        simp only [hr, hlt, if_false]
        rw [h3]
        conv_rhs => rw [pageLoop]
        simp only [hr, hlt, if_false]

theorem stackLoop_mono {σ : Type} (R : Remote σ) (bucket : String) :
    ∀ (fuel : Nat) (results stack : List String) (s : σ),
      (stackLoop R bucket fuel results stack s).1 ≠ .diverge →
      stackLoop R bucket (fuel + 1) results stack s = stackLoop R bucket fuel results stack s := by
  intro fuel
  induction fuel with
  | zero => intro results stack s h; simp [stackLoop] at h
  | succ f ih =>
    intro results stack s h
    cases hlast : stack.getLast? with
    | none => simp [stackLoop, hlast]
    | some current =>
      rcases h1 : pageLoop R bucket current f 0 results stack.dropLast s with ⟨out1, s1, evs1⟩
      have hnd : out1 ≠ .diverge := by
        intro hd
        apply h
        subst hd
        rw [stackLoop]
        simp [hlast, h1]
      have h1b : pageLoop R bucket current (f + 1) 0 results stack.dropLast s = (out1, s1, evs1) := by
        rw [pageLoop_mono R bucket current f 0 results stack.dropLast s (by rw [h1]; exact hnd), h1]
      cases out1 with
      | ok acc =>
        have h2 : (stackLoop R bucket f acc.1 acc.2 s1).1 ≠ .diverge := by
          intro hd
          apply h
          rw [stackLoop]
          simp [hlast, h1, hd]
        have h3 := ih acc.1 acc.2 s1 h2
        rw [stackLoop]
        simp only [hlast, h1b]
        rw [h3]
        conv_rhs => rw [stackLoop]
        simp only [hlast, h1]
      | throw e =>
        rw [stackLoop]
        simp only [hlast, h1b]
        conv_rhs => rw [stackLoop]
        simp only [hlast, h1]
      | diverge => exact absurd rfl hnd

theorem stackLoop_mono_add {σ : Type} (R : Remote σ) (bucket : String)
    (fuel : Nat) (results stack : List String) (s : σ)
    (h : (stackLoop R bucket fuel results stack s).1 ≠ .diverge) (k : Nat) :
    stackLoop R bucket (fuel + k) results stack s = stackLoop R bucket fuel results stack s := by
  induction k with
  | zero => rfl
  | succ k ih =>
    rw [← Nat.add_assoc, stackLoop_mono R bucket (fuel + k) results stack s (by rw [ih]; exact h), ih]


theorem okList_failure (ev : Event) (h : ev.okList = true) : ev.failure = none := by
  cases ev with
  | list b c o resp =>
    cases resp with
    | ok d => rfl
    | error e => simp [Event.okList] at h
  | listBuckets resp => simp [Event.okList] at h
  | download b c resp => simp [Event.okList] at h
  | mkdir c => rfl
  | writeFile c d => rfl
  | stdout c => rfl
  | stderr c => rfl

/-! ### The filesystem primitives -/

theorem fs_le_refl (a : FS) : FS.le a a :=
  fun _ => ⟨fun h => h, fun d h => ⟨d, h⟩⟩

theorem fs_le_trans (a b c : FS) (h1 : FS.le a b) (h2 : FS.le b c) : FS.le a c := by
  intro loc
  refine ⟨fun h => (h2 loc).1 ((h1 loc).1 h), ?_⟩
  intro d h
  obtain ⟨d2, hd2⟩ := (h1 loc).2 d h
  exact (h2 loc).2 d2 hd2

theorem fs_noNew_refl (a : FS) : FS.noNew a a :=
  fun _ h => h

theorem fs_noNew_trans (a b c : FS) (h1 : FS.noNew a b) (h2 : FS.noNew b c) : FS.noNew a c :=
  fun loc h => h2 loc (h1 loc h)

theorem mkdirFrom_change : ∀ (names : List String) (fs : FS) (base : List String) (fs2 : FS),
    mkdirFrom fs base names = .ok fs2 →
      ∀ loc, fs2 loc = fs loc ∨ (fs loc = none ∧ fs2 loc = some FsNode.dir) := by
  intro names
  induction names with
  | nil =>
    intro fs base fs2 h loc
    simp only [mkdirFrom, Except.ok.injEq] at h
    subst h
    exact Or.inl rfl
  | cons name rest ih =>
    intro fs base fs2 h loc
    cases hn : fs (base ++ [name]) with
    | none =>
      simp only [mkdirFrom, hn] at h
      have h2 := ih _ _ _ h loc
      by_cases hl : loc = base ++ [name]
      · subst hl
        simp only [FS.set, if_true] at h2
        rcases h2 with h2 | ⟨h2, _⟩
        · exact Or.inr ⟨hn, h2⟩
        · cases h2
      · simp only [FS.set, hl, if_false] at h2
        exact h2
    | some node =>
      cases node with
      | dir =>
        simp only [mkdirFrom, hn] at h
        exact ih _ _ _ h loc
      | file d =>
        simp [mkdirFrom, hn] at h

theorem mkdirFrom_dirs : ∀ (names : List String) (fs : FS) (base : List String) (fs2 : FS),
    mkdirFrom fs base names = .ok fs2 →
      ∀ loc ∈ prefixesFrom base names, fs2 loc = some FsNode.dir := by
  intro names
  induction names with
  | nil => intro fs base fs2 _ loc hloc; simp [prefixesFrom] at hloc
  | cons name rest ih =>
    intro fs base fs2 h loc hloc
    simp only [prefixesFrom, List.mem_cons] at hloc
    cases hn : fs (base ++ [name]) with
    | none =>
      simp only [mkdirFrom, hn] at h
      rcases hloc with rfl | hloc
      · rcases mkdirFrom_change _ _ _ _ h (base ++ [name]) with h2 | ⟨h2, _⟩
        · rw [h2]; simp [FS.set]
        · simp [FS.set] at h2
      · exact ih _ _ _ h loc hloc
    | some node =>
      cases node with
      | dir =>
        simp only [mkdirFrom, hn] at h
        rcases hloc with rfl | hloc
        · rcases mkdirFrom_change _ _ _ _ h (base ++ [name]) with h2 | ⟨h2, _⟩
          · rw [h2]; exact hn
          · rw [hn] at h2; cases h2
        · exact ih _ _ _ h loc hloc
      | file d =>
        simp [mkdirFrom, hn] at h

theorem mkdirFrom_noop : ∀ (names : List String) (g : FS) (base : List String),
    (∀ loc ∈ prefixesFrom base names, g loc = some FsNode.dir) →
      mkdirFrom g base names = .ok g := by
  intro names
  induction names with
  | nil => intro g base _; rfl
  | cons name rest ih =>
    intro g base h
    have h1 := h (base ++ [name]) (by simp [prefixesFrom])
    simp only [mkdirFrom, h1]
    exact ih g _ (fun loc hloc => h loc (by simp [prefixesFrom, hloc]))

theorem mkdirSync_le (cwd : List String) (fs fs2 : FS) (path : String)
    (h : mkdirSync cwd fs path = .ok fs2) : FS.le fs fs2 := by
  cases hr : resolve cwd path with
  | none => simp [mkdirSync, hr] at h
  | some loc =>
    simp only [mkdirSync, hr] at h
    intro l
    rcases mkdirFrom_change _ _ _ _ h l with h2 | ⟨h2, _⟩
    · rw [h2]; exact ⟨fun x => x, fun d x => ⟨d, x⟩⟩
    · rw [h2]; exact ⟨fun x => (by cases x), fun d x => (by cases x)⟩

theorem mkdirSync_change (cwd : List String) (fs fs2 : FS) (path : String)
    (h : mkdirSync cwd fs path = .ok fs2) :
    ∀ loc, fs2 loc = fs loc ∨ (fs loc = none ∧ fs2 loc = some FsNode.dir) := by
  cases hr : resolve cwd path with
  | none => simp [mkdirSync, hr] at h
  | some loc =>
    simp only [mkdirSync, hr] at h
    exact mkdirFrom_change _ _ _ _ h

/-- A directory creation that succeeded once succeeds, without changing anything,
on every filesystem that has kept what it created. -/
theorem mkdirSync_again (cwd : List String) (fs fs2 g : FS) (path : String)
    (h : mkdirSync cwd fs path = .ok fs2) (hle : FS.le fs2 g) : mkdirSync cwd g path = .ok g := by
  cases hr : resolve cwd path with
  | none => simp [mkdirSync, hr] at h
  | some loc =>
    simp only [mkdirSync, hr] at h ⊢
    apply mkdirFrom_noop
    intro l hl
    exact (hle l).1 (mkdirFrom_dirs _ _ _ _ h l hl)

theorem writeFileSync_ok (cwd : List String) (fs fs2 : FS) (path : String) (d : FileData)
    (h : writeFileSync cwd fs path d = .ok fs2) :
    ∃ loc, resolve cwd path = some loc ∧ loc ≠ [] ∧ path.data.getLast? ≠ some '/' ∧
      fs.isDir loc.dropLast = true ∧ fs loc ≠ some FsNode.dir ∧
      fs2 = fs.set loc (FsNode.file d) := by
  cases hr : resolve cwd path with
  | none => simp [writeFileSync, hr] at h
  | some loc =>
    simp only [writeFileSync, hr] at h
    by_cases h1 : loc = [] ∨ path.data.getLast? = some '/'
    · simp [h1] at h
    · simp only [h1, if_false] at h
      cases h2 : fs.isDir loc.dropLast with
      | false => simp [h2] at h
      | true =>
        by_cases h3 : fs loc = some FsNode.dir
        · simp [h2, h3] at h
        · simp only [h2, h3, if_false, Except.ok.injEq] at h
          push_neg at h1
          refine ⟨loc, rfl, h1.1, h1.2, h2, h3, ?_⟩
          simpa using h.symm

theorem dropLast_ne_self (loc : List String) (h : loc ≠ []) : loc.dropLast ≠ loc := by
  intro h2
  have h3 := congrArg List.length h2
  rw [List.length_dropLast] at h3
  have h4 : 0 < loc.length := List.length_pos.mpr h
  omega

theorem writeFileSync_le (cwd : List String) (fs fs2 : FS) (path : String) (d : FileData)
    (h : writeFileSync cwd fs path d = .ok fs2) : FS.le fs fs2 := by
  obtain ⟨loc, _, _, _, _, hnd, rfl⟩ := writeFileSync_ok cwd fs fs2 path d h
  intro l
  by_cases hl : l = loc
  · subst hl
    refine ⟨fun x => absurd x hnd, fun _ _ => ⟨d, by simp [FS.set]⟩⟩
  · simp only [FS.set, hl, if_false]
    exact ⟨fun x => x, fun d2 x => ⟨d2, x⟩⟩

/-- A write that succeeded once succeeds, with any data, on every filesystem
that has kept the file and the directories of the first result. -/
theorem writeFileSync_again (cwd : List String) (fs fs2 g : FS) (path : String)
    (d d2 : FileData) (h : writeFileSync cwd fs path d = .ok fs2) (hle : FS.le fs2 g) :
    ∃ loc, resolve cwd path = some loc ∧
      writeFileSync cwd g path d2 = .ok (g.set loc (FsNode.file d2)) ∧
      FS.le g (g.set loc (FsNode.file d2)) ∧ FS.noNew g (g.set loc (FsNode.file d2)) := by
  obtain ⟨loc, hr, hne, hslash, hpar, hnd, rfl⟩ := writeFileSync_ok cwd fs fs2 path d h
  obtain ⟨d3, hd3⟩ := (hle loc).2 d (by simp [FS.set])
  have hgpar : g.isDir loc.dropLast = true := by
    simp only [FS.isDir, Bool.or_eq_true, decide_eq_true_eq] at hpar ⊢
    rcases hpar with hpar | hpar
    · exact Or.inl hpar
    · right
      apply (hle loc.dropLast).1
      simp only [FS.set, dropLast_ne_self loc hne, if_false]
      exact hpar
  have hw : writeFileSync cwd g path d2 = .ok (g.set loc (FsNode.file d2)) := by
    simp [writeFileSync, hr, hne, hslash, hgpar, hd3]
  refine ⟨loc, hr, hw, ?_, ?_⟩
  · intro l
    by_cases hl : l = loc
    · subst hl
      refine ⟨fun x => ?_, fun _ _ => ⟨d2, by simp [FS.set]⟩⟩
      rw [hd3] at x; cases x
    · simp only [FS.set, hl, if_false]
      exact ⟨fun x => x, fun d4 x => ⟨d4, x⟩⟩
  · intro l hl
    by_cases hl2 : l = loc
    · subst hl2
      rw [hd3] at hl; cases hl
    · simp only [FS.set, hl2, if_false]
      exact hl

/-! ### Writes and the filesystem -/

theorem lastWrite_append (cwd : List String) (a b : List (String × FileData))
    (loc : List String) :
    lastWrite cwd (a ++ b) loc = (lastWrite cwd b loc).or (lastWrite cwd a loc) := by
  simp only [lastWrite, List.reverse_append, List.find?_append]
  cases List.find? (fun x => decide (resolve cwd x.1 = some loc)) b.reverse <;> rfl

theorem fsCons_nil_of_change (cwd : List String) (fs0 fs1 : FS)
    (h : ∀ loc, fs1 loc = fs0 loc ∨ (fs0 loc = none ∧ fs1 loc = some FsNode.dir)) :
    FsCons cwd [] fs0 fs1 := by
  intro loc
  exact ⟨fun d hd => by simp [lastWrite] at hd, fun _ => h loc⟩

theorem fsCons_refl (cwd : List String) (fs : FS) : FsCons cwd [] fs fs :=
  fsCons_nil_of_change cwd fs fs (fun _ => Or.inl rfl)

theorem fsCons_append (cwd : List String) (a b : List (String × FileData)) (fs0 fs1 fs2 : FS)
    (h1 : FsCons cwd a fs0 fs1) (h2 : FsCons cwd b fs1 fs2) : FsCons cwd (a ++ b) fs0 fs2 := by
  intro loc
  rw [lastWrite_append]
  obtain ⟨h1a, h1b⟩ := h1 loc
  obtain ⟨h2a, h2b⟩ := h2 loc
  cases hb : lastWrite cwd b loc with
  | some d =>
    refine ⟨fun d2 hd2 => ?_, fun hn => by simp at hn⟩
    simp only [Option.or_some, Option.some.injEq] at hd2
    subst hd2
    exact h2a d hb
  | none =>
    simp only [Option.none_or]
    constructor
    · intro d hd
      rcases h2b hb with h | ⟨h, _⟩
      · rw [h]; exact h1a d hd
      · rw [h1a d hd] at h; cases h
    · intro hn
      rcases h2b hb with h | ⟨h, h3⟩
      · rw [h]; exact h1b hn
      · rcases h1b hn with h4 | ⟨h4, h5⟩
        · exact Or.inr ⟨by rw [← h4]; exact h, h3⟩
        · rw [h5] at h; cases h

theorem fsCons_write (cwd : List String) (fs fs2 : FS) (path : String) (d : FileData)
    (h : writeFileSync cwd fs path d = .ok fs2) : FsCons cwd [(path, d)] fs fs2 := by
  obtain ⟨loc, hr, _, _, _, _, rfl⟩ := writeFileSync_ok cwd fs fs2 path d h
  intro l
  by_cases hl : l = loc
  · subst hl
    simp [lastWrite, hr, FS.set]
  · have hne : ¬ (some loc = some l) := fun h2 => hl (Option.some.inj h2).symm
    simp [lastWrite, hr, FS.set, hl, hne]

/-! ### Composing runs -/

theorem failStop_of_clean {α : Type} (evs : List Event) (out : Outcome α)
    (h : ∀ ev ∈ evs, ev.failure = none) : FailStop evs out := by
  intro pre ev post e hevs hfail
  have hmem : ev ∈ evs := by rw [hevs]; simp
  rw [h ev hmem] at hfail
  cases hfail

theorem failStop_append_clean {α : Type} (seg evs : List Event) (out : Outcome α)
    (hseg : ∀ ev ∈ seg, ev.failure = none) (h : FailStop evs out) :
    FailStop (seg ++ evs) out := by
  intro pre ev post e hevs hfail
  rcases List.append_eq_append_iff.mp hevs with ⟨a, rfl, ha⟩ | ⟨c, rfl, hc⟩
  · exact h a ev post e ha hfail
  · cases c with
    | nil =>
      simp only [List.nil_append] at hc
      exact h [] ev post e (by simpa using hc.symm) hfail
    | cons x c2 =>
      simp only [List.cons_append, List.cons.injEq] at hc
      have hmem : ev ∈ pre ++ x :: c2 := by rw [hc.1]; simp
      rw [hseg ev hmem] at hfail
      cases hfail

theorem failStop_clean_snoc {α : Type} (pre : List Event) (ev : Event) (out : Outcome α)
    (hpre : ∀ x ∈ pre, x.failure = none) (hev : ∀ e, ev.failure = some e → out = .throw e) :
    FailStop (pre ++ [ev]) out := by
  apply failStop_append_clean pre [ev] out hpre
  intro p x post e hx hfail
  cases p with
  | nil =>
    simp only [List.nil_append, List.cons.injEq] at hx
    obtain ⟨rfl, rfl⟩ := hx
    exact ⟨rfl, hev e hfail⟩
  | cons y p2 =>
    simp only [List.cons_append, List.cons.injEq] at hx
    have := hx.2
    simp at this

theorem failStop_clean {α : Type} (evs : List Event) (out : Outcome α) (h : FailStop evs out)
    (hout : ∀ e, out ≠ .throw e) : ∀ ev ∈ evs, ev.failure = none := by
  intro ev hev
  obtain ⟨pre, post, rfl⟩ := List.append_of_mem hev
  cases hf : ev.failure with
  | none => rfl
  | some e => exact absurd (h pre ev post e rfl hf).2 (hout e)

theorem failStop_map {α β : Type} (evs : List Event) (out : Outcome α) (out2 : Outcome β)
    (h : FailStop evs out) (hout : ∀ e, out = .throw e → out2 = .throw e) :
    FailStop evs out2 := by
  intro pre ev post e hevs hfail
  obtain ⟨h1, h2⟩ := h pre ev post e hevs hfail
  exact ⟨h1, hout e h2⟩

theorem writesOf_append (a b : List Event) : writesOf (a ++ b) = writesOf a ++ writesOf b := by
  simp [writesOf]

theorem okDownloads_append (a b : List Event) :
    okDownloads (a ++ b) = okDownloads a ++ okDownloads b := by
  simp [okDownloads]

theorem downloadsOf_append (a b : List Event) :
    downloadsOf (a ++ b) = downloadsOf a ++ downloadsOf b := by
  simp [downloadsOf]

theorem listedFiles_append (a b : List Event) :
    listedFiles (a ++ b) = listedFiles a ++ listedFiles b := by
  simp [listedFiles]

theorem balanced_append {α : Type} (outDir : String) (seg evs : List Event) (out : Outcome α)
    (hseg : writesOf seg = (okDownloads seg).map (toWrite outDir))
    (h : Balanced outDir evs out) : Balanced outDir (seg ++ evs) out := by
  rcases h with h | ⟨pre, b, p, data, e, hevs, hout, hpre⟩
  · left
    rw [writesOf_append, okDownloads_append, List.map_append, hseg, h]
  · right
    refine ⟨seg ++ pre, b, p, data, e, by rw [hevs, List.append_assoc], hout, ?_⟩
    rw [writesOf_append, okDownloads_append, List.map_append, hseg, hpre]

theorem balanced_map {α β : Type} (outDir : String) (evs : List Event) (out : Outcome α)
    (out2 : Outcome β) (h : Balanced outDir evs out)
    (hout : ∀ e, out = .throw e → out2 = .throw e) : Balanced outDir evs out2 := by
  rcases h with h | ⟨pre, b, p, data, e, hevs, ho, hpre⟩
  · exact Or.inl h
  · exact Or.inr ⟨pre, b, p, data, e, hevs, hout e ho, hpre⟩

/-! ### The download loop -/

/-- What one run of the download loop does. -/
theorem downloadLoop_run {σ : Type} (R : Remote σ) (cwd : List String) (outDir bucket : String) :
    ∀ (files : List String) (w : World σ),
      FailStop (downloadLoop R cwd bucket (pathJoin outDir bucket) files w).2.2
        (downloadLoop R cwd bucket (pathJoin outDir bucket) files w).1 ∧
      Balanced outDir (downloadLoop R cwd bucket (pathJoin outDir bucket) files w).2.2
        (downloadLoop R cwd bucket (pathJoin outDir bucket) files w).1 ∧
      FsCons cwd (writesOf (downloadLoop R cwd bucket (pathJoin outDir bucket) files w).2.2)
        w.fs (downloadLoop R cwd bucket (pathJoin outDir bucket) files w).2.1.fs ∧
      FS.le w.fs (downloadLoop R cwd bucket (pathJoin outDir bucket) files w).2.1.fs ∧
      downloadsOf (downloadLoop R cwd bucket (pathJoin outDir bucket) files w).2.2 <+:
        files.map (fun p => (bucket, p)) ∧
      ((downloadLoop R cwd bucket (pathJoin outDir bucket) files w).1 = .ok () →
        downloadsOf (downloadLoop R cwd bucket (pathJoin outDir bucket) files w).2.2 =
          files.map (fun p => (bucket, p))) ∧
      listedFiles (downloadLoop R cwd bucket (pathJoin outDir bucket) files w).2.2 = [] ∧
      (downloadLoop R cwd bucket (pathJoin outDir bucket) files w).1 ≠ .diverge := by
  intro files
  induction files with
  | nil =>
    intro w
    simp only [downloadLoop]
    refine ⟨failStop_of_clean _ _ (by simp), Or.inl rfl, fsCons_refl cwd w.fs, fs_le_refl _,
      List.prefix_refl _, fun _ => rfl, rfl, by simp⟩
  | cons filePath rest ih =>
    intro w
    cases hm : mkdirSync cwd w.fs (pathDirname (pathJoin (pathJoin outDir bucket) filePath)) with
    | error e =>
      simp only [downloadLoop, hm]
      refine ⟨failStop_of_clean _ _ (by simp), Or.inl rfl, fsCons_refl cwd w.fs, fs_le_refl _,
        List.nil_prefix, fun h => by simp at h, rfl, by simp⟩
    | ok fs1 =>
      have hle1 := mkdirSync_le cwd _ _ _ hm
      have hch1 := mkdirSync_change cwd _ _ _ hm
      rcases hd : R.download w.remote bucket filePath with ⟨resp, s1⟩
      cases resp with
      | error e =>
        simp only [downloadLoop, hm, hd]
        refine ⟨?_, Or.inl rfl, fsCons_nil_of_change cwd _ _ hch1, hle1, ?_,
          fun h => by simp at h, rfl, by simp⟩
        · exact failStop_clean_snoc [Event.mkdir _] _ _ (by simp [Event.failure])
            (fun e2 he2 => by simp only [Event.failure, Option.some.injEq] at he2; rw [he2])
        · simp [downloadsOf, Event.downloadReq?]
      | ok data =>
        cases hw : writeFileSync cwd fs1 (pathJoin (pathJoin outDir bucket) filePath)
            (.buffer data) with
        | error e =>
          simp only [downloadLoop, hm, hd, hw]
          refine ⟨failStop_of_clean _ _ (by simp [Event.failure]), ?_,
            fsCons_nil_of_change cwd _ _ hch1, hle1, ?_, fun h => by simp at h, rfl, by simp⟩
          · exact Or.inr ⟨[Event.mkdir _], bucket, filePath, data, e, rfl, rfl, rfl⟩
          · simp [downloadsOf, Event.downloadReq?]
        | ok fs2 =>
          have hle2 := writeFileSync_le cwd _ _ _ _ hw
          obtain ⟨i1, i2, i3, i4, i5, i6, i7, i8⟩ := ih ⟨s1, fs2⟩
          rcases hrest : downloadLoop R cwd bucket (pathJoin outDir bucket) rest ⟨s1, fs2⟩
            with ⟨out, w2, evs⟩
          rw [hrest] at i1 i2 i3 i4 i5 i6 i7 i8
          simp only at i1 i2 i3 i4 i5 i6 i7 i8
          simp only [downloadLoop, hm, hd, hw, hrest]
          have hseg : ∀ (tl : List Event),
              Event.mkdir (pathDirname (pathJoin (pathJoin outDir bucket) filePath)) ::
                Event.download bucket filePath (.ok data) ::
                Event.writeFile (pathJoin (pathJoin outDir bucket) filePath) (.buffer data) ::
                Event.stdout (downloadedLine bucket filePath) :: tl =
              [Event.mkdir (pathDirname (pathJoin (pathJoin outDir bucket) filePath)),
                Event.download bucket filePath (.ok data),
                Event.writeFile (pathJoin (pathJoin outDir bucket) filePath) (.buffer data),
                Event.stdout (downloadedLine bucket filePath)] ++ tl := fun _ => rfl
          rw [hseg]
          refine ⟨?_, ?_, ?_, fs_le_trans _ _ _ hle1 (fs_le_trans _ _ _ hle2 i4), ?_, ?_, ?_, i8⟩
          · exact failStop_append_clean _ _ _ (by simp [Event.failure]) i1
          · exact balanced_append outDir _ _ _ rfl i2
          · rw [writesOf_append]
            have hw1 : writesOf
                [Event.mkdir (pathDirname (pathJoin (pathJoin outDir bucket) filePath)),
                  Event.download bucket filePath (.ok data),
                  Event.writeFile (pathJoin (pathJoin outDir bucket) filePath) (.buffer data),
                  Event.stdout (downloadedLine bucket filePath)] =
                [] ++ [(pathJoin (pathJoin outDir bucket) filePath, FileData.buffer data)] := rfl
            rw [hw1]
            exact fsCons_append cwd _ _ _ _ _
              (fsCons_append cwd _ _ _ _ _ (fsCons_nil_of_change cwd _ _ hch1)
                (fsCons_write cwd _ _ _ _ hw)) i3
          · rw [downloadsOf_append]
            exact (List.prefix_cons_inj _).mpr i5
          · intro hok
            rw [downloadsOf_append, i6 hok]
            rfl
          · rw [listedFiles_append, i7]
            rfl

/-! ### The events of `listAll` inside `main` -/

theorem okPageEvents_bucket (bucket current : String) (offset : Nat) (pages : List (List Entry)) :
    ∀ ev ∈ okPageEvents bucket current offset pages,
      ∃ c o resp, ev = Event.list bucket c o resp := by
  induction pages generalizing offset with
  | nil => intro ev h; simp [okPageEvents] at h
  | cons pg rest ih =>
    intro ev h
    simp only [okPageEvents, List.mem_cons] at h
    rcases h with rfl | h
    · exact ⟨_, _, _, rfl⟩
    · exact ih _ ev h

theorem pageLoop_bucket {σ : Type} (R : Remote σ) (bucket current : String)
    (fuel offset : Nat) (results stack : List String) (s : σ) :
    ∀ ev ∈ (pageLoop R bucket current fuel offset results stack s).2.2,
      ∃ c o resp, ev = Event.list bucket c o resp := by
  obtain ⟨pages, _, hcases⟩ := pageLoop_spec R bucket current fuel offset results stack s
  rcases hcases with ⟨last, s2, _, h⟩ | ⟨e, s2, h⟩ | ⟨s2, _, h⟩
  · rw [h]; exact okPageEvents_bucket _ _ _ _
  · rw [h]
    intro ev hev
    rcases List.mem_append.mp hev with h1 | h1
    · exact okPageEvents_bucket _ _ _ _ ev h1
    · simp only [List.mem_singleton] at h1
      exact ⟨_, _, _, h1⟩
  · rw [h]; exact okPageEvents_bucket _ _ _ _

theorem stackLoop_bucket {σ : Type} (R : Remote σ) (bucket : String) :
    ∀ (fuel : Nat) (results stack : List String) (s : σ),
      ∀ ev ∈ (stackLoop R bucket fuel results stack s).2.2,
        ∃ c o resp, ev = Event.list bucket c o resp := by
  intro fuel
  induction fuel with
  | zero => intro results stack s ev h; simp [stackLoop] at h
  | succ f ih =>
    intro results stack s ev h
    cases hlast : stack.getLast? with
    | none => simp [stackLoop, hlast] at h
    | some current =>
      have hp := pageLoop_bucket R bucket current f 0 results stack.dropLast s
      rcases h1 : pageLoop R bucket current f 0 results stack.dropLast s with ⟨out1, s1, evs1⟩
      rw [h1] at hp
      cases out1 with
      | ok acc =>
        have hi := ih acc.1 acc.2 s1
        simp only [stackLoop, hlast, h1, List.mem_append] at h
        rcases h with h | h
        · exact hp ev h
        · exact hi ev h
      | throw e =>
        simp only [stackLoop, hlast, h1] at h
        exact hp ev h
      | diverge =>
        simp only [stackLoop, hlast, h1] at h
        exact hp ev h

theorem listEvents_projections (bucket : String) (evs : List Event)
    (h : ∀ ev ∈ evs, ∃ c o resp, ev = Event.list bucket c o resp) :
    writesOf evs = [] ∧ okDownloads evs = [] ∧ downloadsOf evs = [] ∧
      listedFiles evs = (evs.flatMap Event.appended).map (fun p => (bucket, p)) := by
  induction evs with
  | nil => exact ⟨rfl, rfl, rfl, rfl⟩
  | cons ev rest ih =>
    obtain ⟨c, o, resp, rfl⟩ := h _ (List.mem_cons_self _ _)
    obtain ⟨h1, h2, h3, h4⟩ := ih (fun x hx => h x (List.mem_cons_of_mem _ hx))
    refine ⟨?_, ?_, ?_, ?_⟩
    · simpa [writesOf, Event.write?] using h1
    · simpa [okDownloads, Event.okDownload?] using h2
    · simpa [downloadsOf, Event.downloadReq?] using h3
    · simp only [listedFiles, List.flatMap_cons, List.map_append] at h4 ⊢
      rw [h4]
      cases resp with
      | ok data => simp [Event.listed, Event.appended]
      | error e => simp [Event.listed, Event.appended]

theorem allOk_clean (evs : List Event) (h : AllOk evs) : ∀ ev ∈ evs, ev.failure = none :=
  fun ev hev => okList_failure ev (h ev hev)

theorem listAll_failStop {σ : Type} (R : Remote σ) (bucket start : String) (fuel : Nat) (s : σ) :
    FailStop (listAll R bucket start fuel s).2.2 (listAll R bucket start fuel s).1 := by
  obtain ⟨_, hok, hthrow, hdiv⟩ := stackLoop_run R bucket fuel [] [start] s
  simp only [listAll]
  rcases hout : (stackLoop R bucket fuel [] [start] s).1 with files | e | _
  · exact failStop_of_clean _ _ (allOk_clean _ (hok files hout).2)
  · obtain ⟨pre, c, o, hpre, hall⟩ := hthrow e hout
    rw [hpre]
    exact failStop_clean_snoc pre _ _ (allOk_clean _ hall)
      (fun e2 he2 => by simp only [Event.failure, Option.some.injEq] at he2; rw [he2])
  · exact failStop_of_clean _ _ (allOk_clean _ (hdiv hout))

theorem listAll_listed {σ : Type} (R : Remote σ) (bucket start : String) (fuel : Nat) (s : σ)
    (files : List String) (h : (listAll R bucket start fuel s).1 = .ok files) :
    listedFiles (listAll R bucket start fuel s).2.2 = files.map (fun p => (bucket, p)) := by
  have h1 := (listEvents_projections bucket _ (stackLoop_bucket R bucket fuel [] [start] s)).2.2.2
  have h2 := ((stackLoop_run R bucket fuel [] [start] s).2.1 files h).1
  simp only [listAll]
  rw [h1, ← List.nil_append (List.flatMap _ _), ← h2]

/-! ### The bucket loop -/

/-- What one run of the bucket loop does. -/
theorem bucketLoop_run {σ : Type} (R : Remote σ) (cwd : List String) (outDir : String)
    (fuel : Nat) :
    ∀ (buckets : List Bucket) (w : World σ),
      FailStop (bucketLoop R cwd outDir fuel buckets w).2.2
        (bucketLoop R cwd outDir fuel buckets w).1 ∧
      Balanced outDir (bucketLoop R cwd outDir fuel buckets w).2.2
        (bucketLoop R cwd outDir fuel buckets w).1 ∧
      FsCons cwd (writesOf (bucketLoop R cwd outDir fuel buckets w).2.2)
        w.fs (bucketLoop R cwd outDir fuel buckets w).2.1.fs ∧
      FS.le w.fs (bucketLoop R cwd outDir fuel buckets w).2.1.fs ∧
      downloadsOf (bucketLoop R cwd outDir fuel buckets w).2.2 <+:
        listedFiles (bucketLoop R cwd outDir fuel buckets w).2.2 ∧
      ((bucketLoop R cwd outDir fuel buckets w).1 = .ok () →
        downloadsOf (bucketLoop R cwd outDir fuel buckets w).2.2 =
          listedFiles (bucketLoop R cwd outDir fuel buckets w).2.2) := by
  intro buckets
  induction buckets with
  | nil =>
    intro w
    simp only [bucketLoop]
    exact ⟨failStop_of_clean _ _ (by simp), Or.inl rfl, fsCons_refl cwd w.fs, fs_le_refl _,
      List.prefix_refl _, fun _ => rfl⟩
  | cons b rest ih =>
    intro w
    cases hm : mkdirSync cwd w.fs (pathJoin outDir b.name) with
    | error e =>
      simp only [bucketLoop, hm]
      exact ⟨failStop_of_clean _ _ (by simp), Or.inl rfl, fsCons_refl cwd w.fs, fs_le_refl _,
        List.prefix_refl _, fun _ => rfl⟩
    | ok fs1 =>
      have hle1 := mkdirSync_le cwd _ _ _ hm
      have hch1 := mkdirSync_change cwd _ _ _ hm
      have hfs := listAll_failStop R b.name "" fuel w.remote
      have hproj := listEvents_projections b.name _
        (stackLoop_bucket R b.name fuel [] [""] w.remote)
      have hlisted := listAll_listed R b.name "" fuel w.remote
      have hcons : ∀ (tl : List Event), Event.mkdir (pathJoin outDir b.name) :: tl =
          [Event.mkdir (pathJoin outDir b.name)] ++ tl := fun _ => rfl
      have hmk : ∀ ev ∈ [Event.mkdir (pathJoin outDir b.name)], ev.failure = none := by
        simp [Event.failure]
      rcases hl : listAll R b.name "" fuel w.remote with ⟨out1, s1, evs1⟩
      rw [hl] at hfs hlisted
      simp only [listAll] at hl
      rw [hl] at hproj
      simp only at hfs hlisted hproj
      obtain ⟨p1, p2, p3, p4⟩ := hproj
      have hl2 : listAll R b.name "" fuel w.remote = (out1, s1, evs1) := by
        simp only [listAll]; exact hl
      have hwr : writesOf (Event.mkdir (pathJoin outDir b.name) :: evs1) = [] := by
        rw [hcons, writesOf_append, p1]; rfl
      have hdn : downloadsOf (Event.mkdir (pathJoin outDir b.name) :: evs1) = [] := by
        rw [hcons, downloadsOf_append, p3]; rfl
      cases out1 with
      | throw e =>
        simp only [bucketLoop, hm, hl2]
        refine ⟨?_, Or.inl ?_, ?_, hle1, ?_, fun h => by simp at h⟩
        · rw [hcons]
          exact failStop_append_clean _ _ _ hmk (failStop_map _ _ _ hfs (fun _ h => by
            simp only [Outcome.throw.injEq] at h; rw [h]))
        · rw [hcons, writesOf_append, okDownloads_append, p1, p2]; rfl
        · rw [hwr]; exact fsCons_nil_of_change cwd _ _ hch1
        · rw [hdn]; exact List.nil_prefix
      | diverge =>
        simp only [bucketLoop, hm, hl2]
        refine ⟨?_, Or.inl ?_, ?_, hle1, ?_, fun h => by simp at h⟩
        · rw [hcons]
          exact failStop_append_clean _ _ _ hmk (failStop_map _ _ _ hfs (fun _ h => by
            simp at h))
        · rw [hcons, writesOf_append, okDownloads_append, p1, p2]; rfl
        · rw [hwr]; exact fsCons_nil_of_change cwd _ _ hch1
        · rw [hdn]; exact List.nil_prefix
      | ok files =>
        have hclean1 : ∀ ev ∈ evs1, ev.failure = none :=
          failStop_clean _ _ hfs (fun e h => by simp at h)
        have hlf := hlisted files rfl
        obtain ⟨d1, d2, d3, d4, d5, d6, d7, d8⟩ :=
          downloadLoop_run R cwd outDir b.name files ⟨s1, fs1⟩
        rcases hdl : downloadLoop R cwd b.name (pathJoin outDir b.name) files ⟨s1, fs1⟩
          with ⟨out2, w2, evs2⟩
        rw [hdl] at d1 d2 d3 d4 d5 d6 d7 d8
        simp only at d1 d2 d3 d4 d5 d6 d7 d8
        have hseg1 : ∀ ev ∈ [Event.mkdir (pathJoin outDir b.name)] ++ evs1,
            ev.failure = none := by
          intro ev hev
          rcases List.mem_append.mp hev with h | h
          · exact hmk ev h
          · exact hclean1 ev h
        have hbal1 : writesOf ([Event.mkdir (pathJoin outDir b.name)] ++ evs1) =
            (okDownloads ([Event.mkdir (pathJoin outDir b.name)] ++ evs1)).map (toWrite outDir) := by
          rw [writesOf_append, okDownloads_append, p1, p2]; rfl
        have hassoc : ∀ (tl : List Event), Event.mkdir (pathJoin outDir b.name) :: (evs1 ++ tl) =
            ([Event.mkdir (pathJoin outDir b.name)] ++ evs1) ++ tl := fun _ => rfl
        have hw1 : writesOf ([Event.mkdir (pathJoin outDir b.name)] ++ evs1) = [] := hwr
        have hdn1 : downloadsOf ([Event.mkdir (pathJoin outDir b.name)] ++ evs1) = [] := hdn
        have hlf1 : listedFiles ([Event.mkdir (pathJoin outDir b.name)] ++ evs1) =
            files.map (fun p => (b.name, p)) := by
          rw [listedFiles_append, hlf]; rfl
        have hfc1 : FsCons cwd (writesOf ([Event.mkdir (pathJoin outDir b.name)] ++ evs1 ++ evs2))
            w.fs w2.fs := by
          rw [writesOf_append, hw1]
          exact fsCons_append cwd [] _ _ _ _ (fsCons_nil_of_change cwd _ _ hch1) d3
        cases out2 with
        | throw e =>
          simp only [bucketLoop, hm, hl2, hdl]
          rw [hassoc]
          refine ⟨failStop_append_clean _ _ _ hseg1 (failStop_map _ _ _ d1 (fun _ h => h)),
            balanced_append outDir _ _ _ hbal1 (balanced_map outDir _ _ _ d2 (fun _ h => h)),
            hfc1, fs_le_trans _ _ _ hle1 d4, ?_, fun h => by simp at h⟩
          rw [downloadsOf_append, listedFiles_append, hdn1, hlf1, d7, List.nil_append,
            List.append_nil]
          exact d5
        | diverge => exact absurd rfl d8
        | ok u =>
          obtain ⟨i1, i2, i3, i4, i5, i6⟩ := ih w2
          rcases hrest : bucketLoop R cwd outDir fuel rest w2 with ⟨out3, w3, evs3⟩
          rw [hrest] at i1 i2 i3 i4 i5 i6
          simp only at i1 i2 i3 i4 i5 i6
          simp only [bucketLoop, hm, hl2, hdl, hrest]
          have hassoc2 : Event.mkdir (pathJoin outDir b.name) :: (evs1 ++ evs2 ++ evs3) =
              (([Event.mkdir (pathJoin outDir b.name)] ++ evs1) ++ evs2) ++ evs3 := by
            simp [List.append_assoc]
          rw [hassoc2]
          have hclean2 : ∀ ev ∈ evs2, ev.failure = none :=
            failStop_clean _ _ d1 (fun e h => by simp at h)
          have hbal2 : writesOf evs2 = (okDownloads evs2).map (toWrite outDir) := by
            rcases d2 with h | ⟨_, _, _, _, _, _, h, _⟩
            · exact h
            · simp at h
          have hd2 : downloadsOf evs2 = files.map (fun p => (b.name, p)) := d6 rfl
          refine ⟨?_, ?_, ?_, fs_le_trans _ _ _ hle1 (fs_le_trans _ _ _ d4 i4), ?_, ?_⟩
          · apply failStop_append_clean _ _ _ _ i1
            intro ev hev
            rcases List.mem_append.mp hev with h | h
            · exact hseg1 ev h
            · exact hclean2 ev h
          · apply balanced_append outDir _ _ _ _ i2
            rw [writesOf_append, okDownloads_append, List.map_append, hbal1, hbal2]
          · rw [writesOf_append]
            exact fsCons_append cwd _ _ _ _ _ hfc1 i3
          · rw [downloadsOf_append, downloadsOf_append, listedFiles_append, listedFiles_append,
              hdn1, hlf1, d7, hd2, List.nil_append, List.append_nil]
            exact (List.prefix_append_right_inj _).mpr i5
          · intro hok
            rw [downloadsOf_append, downloadsOf_append, listedFiles_append, listedFiles_append,
              hdn1, hlf1, d7, hd2, List.nil_append, List.append_nil, i6 hok]

/-! ### `main` and the script -/

theorem failure_write (ev : Event) (e : Error) (h : ev.failure = some e) :
    ev.write? = none := by
  cases ev with
  | writeFile c d => simp [Event.failure] at h
  | download b p resp => rfl
  | listBuckets resp => rfl
  | list b c o resp => rfl
  | mkdir c => rfl
  | stdout c => rfl
  | stderr c => rfl

/-- What one run of `main` does. -/
theorem main_run {σ : Type} (R : Remote σ) (cwd : List String) (url outDir now : String)
    (fuel : Nat) (w : World σ) :
    FailStop (main R cwd url outDir now fuel w).2.2 (main R cwd url outDir now fuel w).1 ∧
    ((main R cwd url outDir now fuel w).1 = .ok () →
      ∃ pre, (main R cwd url outDir now fuel w).2.2 =
          pre ++ [Event.writeFile (manifestPath outDir) (.manifest url now)] ∧
        (∀ ev ∈ pre, ev.failure = none) ∧
        writesOf pre = (okDownloads pre).map (toWrite outDir) ∧
        downloadsOf pre = listedFiles pre) ∧
    ((main R cwd url outDir now fuel w).1 ≠ .ok () →
      Balanced outDir (main R cwd url outDir now fuel w).2.2
        (main R cwd url outDir now fuel w).1) ∧
    FsCons cwd (writesOf (main R cwd url outDir now fuel w).2.2) w.fs
      (main R cwd url outDir now fuel w).2.1.fs ∧
    FS.le w.fs (main R cwd url outDir now fuel w).2.1.fs ∧
    downloadsOf (main R cwd url outDir now fuel w).2.2 <+:
      listedFiles (main R cwd url outDir now fuel w).2.2 := by
  rcases hb : R.listBuckets w.remote with ⟨resp, s1⟩
  cases resp with
  | error e =>
    simp only [main, hb]
    refine ⟨?_, fun h => by simp at h, fun _ => Or.inl rfl, fsCons_refl cwd w.fs, fs_le_refl _,
      List.prefix_refl _⟩
    exact failStop_clean_snoc [] _ _ (by simp)
      (fun e2 he2 => by simp only [Event.failure, Option.some.injEq] at he2; rw [he2])
  | ok buckets =>
    obtain ⟨b1, b2, b3, b4, b5, b6⟩ := bucketLoop_run R cwd outDir fuel buckets ⟨s1, w.fs⟩
    rcases hl : bucketLoop R cwd outDir fuel buckets ⟨s1, w.fs⟩ with ⟨out, w2, evs⟩
    rw [hl] at b1 b2 b3 b4 b5 b6
    simp only at b1 b2 b3 b4 b5 b6
    have hcons : ∀ (tl : List Event), Event.listBuckets (.ok buckets) :: tl =
        [Event.listBuckets (.ok buckets)] ++ tl := fun _ => rfl
    have hlb : ∀ ev ∈ [Event.listBuckets (.ok buckets)], ev.failure = none := by
      simp [Event.failure]
    have hbal0 : writesOf [Event.listBuckets (.ok buckets)] =
        (okDownloads [Event.listBuckets (.ok buckets)]).map (toWrite outDir) := rfl
    have hfc : FsCons cwd (writesOf ([Event.listBuckets (.ok buckets)] ++ evs)) w.fs w2.fs := by
      rw [writesOf_append]
      exact fsCons_append cwd [] _ _ _ _ (fsCons_refl cwd w.fs) b3
    have hpre : downloadsOf ([Event.listBuckets (.ok buckets)] ++ evs) <+:
        listedFiles ([Event.listBuckets (.ok buckets)] ++ evs) := by
      rw [downloadsOf_append, listedFiles_append]
      exact b5
    cases out with
    | throw e =>
      simp only [main, hb, hl]
      rw [hcons]
      exact ⟨failStop_append_clean _ _ _ hlb (failStop_map _ _ _ b1 (fun _ h => h)),
        fun h => by simp at h,
        fun _ => balanced_append outDir _ _ _ hbal0 (balanced_map outDir _ _ _ b2 (fun _ h => h)),
        hfc, b4, hpre⟩
    | diverge =>
      simp only [main, hb, hl]
      rw [hcons]
      exact ⟨failStop_append_clean _ _ _ hlb (failStop_map _ _ _ b1 (fun _ h => by simp at h)),
        fun h => by simp at h,
        fun _ => balanced_append outDir _ _ _ hbal0
          (balanced_map outDir _ _ _ b2 (fun _ h => by simp at h)),
        hfc, b4, hpre⟩
    | ok u =>
      have hclean : ∀ ev ∈ [Event.listBuckets (.ok buckets)] ++ evs, ev.failure = none := by
        intro ev hev
        rcases List.mem_append.mp hev with h | h
        · exact hlb ev h
        · exact failStop_clean _ _ b1 (fun e h => by simp at h) ev h
      have hbal : writesOf ([Event.listBuckets (.ok buckets)] ++ evs) =
          (okDownloads ([Event.listBuckets (.ok buckets)] ++ evs)).map (toWrite outDir) := by
        rcases b2 with h | ⟨_, _, _, _, _, _, h, _⟩
        · rw [writesOf_append, okDownloads_append, List.map_append, hbal0, h]
        · simp at h
      cases hw : writeFileSync cwd w2.fs (manifestPath outDir) (.manifest url now) with
      | error e =>
        simp only [main, hb, hl, hw]
        rw [hcons]
        exact ⟨failStop_of_clean _ _ hclean, fun h => by simp at h, fun _ => Or.inl hbal,
          hfc, b4, hpre⟩
      | ok fs3 =>
        simp only [main, hb, hl, hw]
        have hassoc : Event.listBuckets (.ok buckets) ::
            (evs ++ [Event.writeFile (manifestPath outDir) (.manifest url now)]) =
            ([Event.listBuckets (.ok buckets)] ++ evs) ++
              [Event.writeFile (manifestPath outDir) (.manifest url now)] := rfl
        rw [hassoc]
        refine ⟨?_, ?_, fun h => absurd rfl h, ?_,
          fs_le_trans _ _ _ b4 (writeFileSync_le cwd _ _ _ _ hw), ?_⟩
        · apply failStop_of_clean
          intro ev hev
          rcases List.mem_append.mp hev with h | h
          · exact hclean ev h
          · simp only [List.mem_singleton] at h; subst h; rfl
        · intro _
          refine ⟨_, rfl, hclean, hbal, ?_⟩
          rw [downloadsOf_append, listedFiles_append]
          exact b6 rfl
        · rw [writesOf_append]
          exact fsCons_append cwd _ _ _ _ _ hfc (fsCons_write cwd _ _ _ _ hw)
        · rw [downloadsOf_append, listedFiles_append]
          have h1 : downloadsOf [Event.writeFile (manifestPath outDir) (.manifest url now)] = [] :=
            rfl
          have h2 : listedFiles [Event.writeFile (manifestPath outDir) (.manifest url now)] = [] :=
            rfl
          rw [h1, h2, List.append_nil, List.append_nil]
          exact hpre

theorem pathNormalize_ne_nil (path : List Char) : pathNormalize path ≠ [] := by
  unfold pathNormalize
  by_cases h : path = []
  · simp [h]
  · simp only [h, if_false]
    split_ifs <;> simp_all

theorem string_mk_ne_empty (l : List Char) (h : l ≠ []) : String.mk l ≠ "" := by
  intro h2
  exact h (congrArg String.data h2)

theorem pathJoin_ne_empty (a b : String) : pathJoin a b ≠ "" := by
  unfold pathJoin
  split_ifs
  · decide
  · exact string_mk_ne_empty _ (pathNormalize_ne_nil _)
  · exact string_mk_ne_empty _ (pathNormalize_ne_nil _)
  · exact string_mk_ne_empty _ (pathNormalize_ne_nil _)

theorem pageLoop_stateless {σ : Type} (R : Remote σ) (hR : Stateless R)
    (bucket current : String) :
    ∀ (fuel offset : Nat) (results stack : List String) (s t : σ),
      (pageLoop R bucket current fuel offset results stack s).1 =
          (pageLoop R bucket current fuel offset results stack t).1 ∧
        (pageLoop R bucket current fuel offset results stack s).2.2 =
          (pageLoop R bucket current fuel offset results stack t).2.2 := by
  intro fuel
  induction fuel with
  | zero => intro offset results stack s t; exact ⟨rfl, rfl⟩
  | succ f ih =>
    intro offset results stack s t
    have hresp := hR.2.1 s t bucket current (listOptions offset)
    rcases hs : R.list s bucket current (listOptions offset) with ⟨resp, s1⟩
    rcases ht : R.list t bucket current (listOptions offset) with ⟨resp2, t1⟩
    rw [hs, ht] at hresp
    simp only at hresp
    subst hresp
    cases resp with
    | error e => simp [pageLoop, hs, ht]
    | ok data =>
      by_cases hlt : data.length < limit
      · simp [pageLoop, hs, ht, hlt]
      · obtain ⟨h1, h2⟩ := ih (offset + limit) (forEntries current data (results, stack)).1
          (forEntries current data (results, stack)).2 s1 t1
        simp only [pageLoop, hs, ht, hlt, if_false]
        exact ⟨h1, by rw [h2]⟩

theorem stackLoop_stateless {σ : Type} (R : Remote σ) (hR : Stateless R) (bucket : String) :
    ∀ (fuel : Nat) (results stack : List String) (s t : σ),
      (stackLoop R bucket fuel results stack s).1 = (stackLoop R bucket fuel results stack t).1 ∧
        (stackLoop R bucket fuel results stack s).2.2 =
          (stackLoop R bucket fuel results stack t).2.2 := by
  intro fuel
  induction fuel with
  | zero => intro results stack s t; exact ⟨rfl, rfl⟩
  | succ f ih =>
    intro results stack s t
    cases hlast : stack.getLast? with
    | none => simp [stackLoop, hlast]
    | some current =>
      obtain ⟨h1, h2⟩ := pageLoop_stateless R hR bucket current f 0 results stack.dropLast s t
      rcases hs : pageLoop R bucket current f 0 results stack.dropLast s with ⟨out1, s1, evs1⟩
      rcases ht : pageLoop R bucket current f 0 results stack.dropLast t with ⟨out2, t1, evs2⟩
      rw [hs, ht] at h1 h2
      simp only at h1 h2
      subst h1 h2
      cases out1 with
      | ok acc =>
        obtain ⟨h3, h4⟩ := ih acc.1 acc.2 s1 t1
        simp only [stackLoop, hlast, hs, ht]
        exact ⟨h3, by rw [h4]⟩
      | throw e => simp [stackLoop, hlast, hs, ht]
      | diverge => simp [stackLoop, hlast, hs, ht]

theorem listAll_stateless {σ : Type} (R : Remote σ) (hR : Stateless R) (bucket start : String)
    (fuel : Nat) (s t : σ) :
    (listAll R bucket start fuel s).1 = (listAll R bucket start fuel t).1 ∧
      (listAll R bucket start fuel s).2.2 = (listAll R bucket start fuel t).2.2 :=
  stackLoop_stateless R hR bucket fuel [] [start] s t

/-! ### Running again on the filesystem a successful run left -/

theorem downloadLoop_again {σ : Type} (R : Remote σ) (hR : Stateless R) (cwd : List String)
    (outDir bucket : String) :
    ∀ (files : List String) (s t : σ) (a g : FS) (u : Unit) (w2 : World σ) (evs : List Event),
      downloadLoop R cwd bucket (pathJoin outDir bucket) files ⟨s, a⟩ = (.ok u, w2, evs) →
      FS.le w2.fs g →
      ∃ t2 g2, downloadLoop R cwd bucket (pathJoin outDir bucket) files ⟨t, g⟩ =
          (.ok u, ⟨t2, g2⟩, evs) ∧ FS.le g g2 ∧ FS.noNew g g2 := by
  intro files
  induction files with
  | nil =>
    intro s t a g u w2 evs h hle
    simp only [downloadLoop, Prod.mk.injEq] at h
    obtain ⟨_, _, rfl⟩ := h
    exact ⟨t, g, rfl, fs_le_refl g, fs_noNew_refl g⟩
  | cons filePath rest ih =>
    intro s t a g u w2 evs h hle
    cases hm : mkdirSync cwd a (pathDirname (pathJoin (pathJoin outDir bucket) filePath)) with
    | error e => simp [downloadLoop, hm] at h
    | ok a1 =>
      have hresp := hR.2.2 s t bucket filePath
      rcases hd : R.download s bucket filePath with ⟨resp, s1⟩
      rcases hd2 : R.download t bucket filePath with ⟨resp2, t1⟩
      rw [hd, hd2] at hresp
      simp only at hresp
      subst hresp
      cases resp with
      | error e => simp [downloadLoop, hm, hd] at h
      | ok data =>
        cases hw : writeFileSync cwd a1 (pathJoin (pathJoin outDir bucket) filePath)
            (.buffer data) with
        | error e => simp [downloadLoop, hm, hd, hw] at h
        | ok a2 =>
          rcases hrest : downloadLoop R cwd bucket (pathJoin outDir bucket) rest ⟨s1, a2⟩
            with ⟨out, w3, evs3⟩
          simp only [downloadLoop, hm, hd, hw, hrest, Prod.mk.injEq] at h
          obtain ⟨rfl, rfl, rfl⟩ := h
          have hle3 : FS.le a2 w3.fs := by
            have := (downloadLoop_run R cwd outDir bucket rest ⟨s1, a2⟩).2.2.2.1
            rw [hrest] at this
            exact this
          have hle2 := writeFileSync_le cwd _ _ _ _ hw
          have hg1 : mkdirSync cwd g (pathDirname (pathJoin (pathJoin outDir bucket) filePath)) =
              .ok g :=
            mkdirSync_again cwd a a1 g _ hm
              (fs_le_trans _ _ _ hle2 (fs_le_trans _ _ _ hle3 hle))
          obtain ⟨loc, _, hg2, hg3, hg4⟩ := writeFileSync_again cwd a1 a2 g _ (.buffer data)
            (.buffer data) hw (fs_le_trans _ _ _ hle3 hle)
          obtain ⟨t2, g2, hi, hi2, hi3⟩ := ih s1 t1 a2 (g.set loc (FsNode.file (.buffer data)))
            u w3 evs3 hrest (fs_le_trans _ _ _ hle hg3)
          refine ⟨t2, g2, ?_, fs_le_trans _ _ _ hg3 hi2, fs_noNew_trans _ _ _ hg4 hi3⟩
          simp only [downloadLoop, hg1, hd2, hg2, hi]

theorem bucketLoop_again {σ : Type} (R : Remote σ) (hR : Stateless R) (cwd : List String)
    (outDir : String) (fuel : Nat) :
    ∀ (buckets : List Bucket) (s t : σ) (a g : FS) (u : Unit) (w2 : World σ) (evs : List Event),
      bucketLoop R cwd outDir fuel buckets ⟨s, a⟩ = (.ok u, w2, evs) →
      FS.le w2.fs g →
      ∃ t2 g2, bucketLoop R cwd outDir fuel buckets ⟨t, g⟩ = (.ok u, ⟨t2, g2⟩, evs) ∧
        FS.le g g2 ∧ FS.noNew g g2 := by
  intro buckets
  induction buckets with
  | nil =>
    intro s t a g u w2 evs h hle
    simp only [bucketLoop, Prod.mk.injEq] at h
    obtain ⟨_, _, rfl⟩ := h
    exact ⟨t, g, rfl, fs_le_refl g, fs_noNew_refl g⟩
  | cons b rest ih =>
    intro s t a g u w2 evs h hle
    cases hm : mkdirSync cwd a (pathJoin outDir b.name) with
    | error e => simp [bucketLoop, hm] at h
    | ok a1 =>
      obtain ⟨hl1, hl2⟩ := listAll_stateless R hR b.name "" fuel s t
      rcases hls : listAll R b.name "" fuel s with ⟨out1, s1, evs1⟩
      rcases hlt : listAll R b.name "" fuel t with ⟨out2, t1, evs2⟩
      rw [hls, hlt] at hl1 hl2
      simp only at hl1 hl2
      subst hl1 hl2
      cases out1 with
      | throw e => simp [bucketLoop, hm, hls] at h
      | diverge => simp [bucketLoop, hm, hls] at h
      | ok files =>
        rcases hdl : downloadLoop R cwd b.name (pathJoin outDir b.name) files ⟨s1, a1⟩
          with ⟨out3, w3, evs3⟩
        cases out3 with
        | throw e => simp [bucketLoop, hm, hls, hdl] at h
        | diverge => simp [bucketLoop, hm, hls, hdl] at h
        | ok u3 =>
          rcases hrest : bucketLoop R cwd outDir fuel rest w3 with ⟨out4, w4, evs4⟩
          simp only [bucketLoop, hm, hls, hdl, hrest, Prod.mk.injEq] at h
          obtain ⟨rfl, rfl, rfl⟩ := h
          have hle4 : FS.le w3.fs w4.fs := by
            have := (bucketLoop_run R cwd outDir fuel rest w3).2.2.2.1
            rw [hrest] at this
            exact this
          have hle3 : FS.le a1 w3.fs := by
            have := (downloadLoop_run R cwd outDir b.name files ⟨s1, a1⟩).2.2.2.1
            rw [hdl] at this
            exact this
          have hg1 : mkdirSync cwd g (pathJoin outDir b.name) = .ok g :=
            mkdirSync_again cwd a a1 g _ hm
              (fs_le_trans _ _ _ hle3 (fs_le_trans _ _ _ hle4 hle))
          obtain ⟨t3, g3, hd1, hd2, hd3⟩ := downloadLoop_again R hR cwd outDir b.name files
            s1 t1 a1 g u3 w3 evs3 hdl (fs_le_trans _ _ _ hle4 hle)
          obtain ⟨t4, g4, hi1, hi2, hi3⟩ := ih w3.remote t3 w3.fs g3 u _ _
            hrest (fs_le_trans _ _ _ hle hd2)
          refine ⟨t4, g4, ?_, fs_le_trans _ _ _ hd2 hi2, fs_noNew_trans _ _ _ hd3 hi3⟩
          simp only [bucketLoop, hg1, hlt, hd1, hi1]

/-- What a successful run of the script did. -/
theorem script_success {σ : Type} (R : Remote σ) (env : Env) (fuel : Nat) (w : World σ)
    (h : (script R env fuel w).1 = some 0) :
    ∃ url fs0 buckets s1 wb evsB fs3,
      env.supabaseUrl = some url ∧ url ≠ "" ∧
      mkdirSync env.cwd w.fs env.outDir = .ok fs0 ∧
      R.listBuckets w.remote = (.ok buckets, s1) ∧
      bucketLoop R env.cwd env.outDir fuel buckets ⟨s1, fs0⟩ = (.ok (), wb, evsB) ∧
      writeFileSync env.cwd wb.fs (manifestPath env.outDir) (.manifest url env.now) = .ok fs3 ∧
      script R env fuel w = (some 0, ⟨wb.remote, fs3⟩,
        Event.mkdir env.outDir :: (Event.listBuckets (.ok buckets) ::
          (evsB ++ [Event.writeFile (manifestPath env.outDir) (.manifest url env.now)]))) := by
  by_cases hcfg : truthyString env.supabaseUrl = false ∨ truthyString env.serviceRole = false
  · simp [script, hcfg] at h
  · have hurl : ∃ url, env.supabaseUrl = some url ∧ url ≠ "" := by
      push_neg at hcfg
      cases hu : env.supabaseUrl with
      | none => rw [hu] at hcfg; simp [truthyString] at hcfg
      | some url =>
        rw [hu] at hcfg
        refine ⟨url, rfl, ?_⟩
        intro he
        subst he
        simp [truthyString] at hcfg
    obtain ⟨url, hurl1, hurl2⟩ := hurl
    have hgetD : env.supabaseUrl.getD "" = url := by rw [hurl1]; rfl
    cases hm : mkdirSync env.cwd w.fs env.outDir with
    | error e => simp [script, hcfg, hm] at h
    | ok fs0 =>
      rcases hb : R.listBuckets w.remote with ⟨resp, s1⟩
      cases resp with
      | error e => simp [script, hcfg, hm, main, hb] at h
      | ok buckets =>
        rcases hl : bucketLoop R env.cwd env.outDir fuel buckets ⟨s1, fs0⟩ with ⟨out, wb, evsB⟩
        cases out with
        | throw e => simp [script, hcfg, hm, main, hb, hl] at h
        | diverge => simp [script, hcfg, hm, main, hb, hl] at h
        | ok u =>
          cases hw : writeFileSync env.cwd wb.fs (manifestPath env.outDir)
              (.manifest url env.now) with
          | error e => simp [script, hcfg, hm, main, hb, hl, hgetD, hw] at h
          | ok fs3 =>
            refine ⟨url, fs0, buckets, s1, wb, evsB, fs3, hurl1, hurl2, rfl, rfl, hl, hw, ?_⟩
            simp [script, hcfg, hm, main, hb, hl, hgetD, hw]

theorem clean_downloads (evs : List Event) (h : ∀ ev ∈ evs, ev.failure = none) :
    (okDownloads evs).map (fun d => (d.1, d.2.1)) = downloadsOf evs := by
  induction evs with
  | nil => rfl
  | cons ev rest ih =>
    have hrest := ih (fun x hx => h x (List.mem_cons_of_mem _ hx))
    have hev := h ev (List.mem_cons_self _ _)
    cases ev with
    | download b p resp =>
      cases resp with
      | ok d =>
        simp only [okDownloads, downloadsOf, List.filterMap_cons, Event.okDownload?,
          Event.downloadReq?, List.map_cons] at hrest ⊢
        rw [hrest]
      | error e => simp [Event.failure] at hev
    | listBuckets resp => simpa [okDownloads, downloadsOf, Event.okDownload?, Event.downloadReq?] using hrest
    | list b c o resp => simpa [okDownloads, downloadsOf, Event.okDownload?, Event.downloadReq?] using hrest
    | mkdir c => simpa [okDownloads, downloadsOf, Event.okDownload?, Event.downloadReq?] using hrest
    | writeFile c d => simpa [okDownloads, downloadsOf, Event.okDownload?, Event.downloadReq?] using hrest
    | stdout c => simpa [okDownloads, downloadsOf, Event.okDownload?, Event.downloadReq?] using hrest
    | stderr c => simpa [okDownloads, downloadsOf, Event.okDownload?, Event.downloadReq?] using hrest

/-! ### No path twice in a tidy tree -/

theorem safeName_ne_empty (n : String) (h : safeName n = true) : n ≠ "" := by
  simp only [safeName, decide_eq_true_eq] at h
  exact h.1

theorem safeName_no_slash (n : String) (h : safeName n = true) : '/' ∉ n.data := by
  simp only [safeName, decide_eq_true_eq] at h
  exact h.2

theorem childPath_childPath (p n r : String) (hn : n ≠ "") :
    childPath (childPath p n) r = childPath p (n ++ "/" ++ r) := by
  by_cases hp : p = ""
  · subst hp
    simp [childPath, hn]
  · have h1 : childPath p n ≠ "" := childPath_ne_empty p n hp
    have h2 : childPath p n = p ++ "/" ++ n := by simp [childPath, hp]
    simp only [childPath, ne_eq, hp, not_false_eq_true, if_true] at h1 ⊢
    simp only [h1, not_false_eq_true, if_true]
    apply String.ext
    simp [List.append_assoc]

theorem childPath_injective (p r1 r2 : String) (h : childPath p r1 = childPath p r2) :
    r1 = r2 := by
  by_cases hp : p = ""
  · subst hp
    simpa [childPath] using h
  · simp only [childPath, ne_eq, hp, not_false_eq_true, if_true] at h
    have h2 := congrArg String.data h
    simp only [String.data_append, List.append_assoc] at h2
    exact String.ext (List.append_cancel_left (List.append_cancel_left h2))

theorem slash_split_unique (a b c d : List Char) (ha : '/' ∉ a) (hb : '/' ∉ b)
    (h : a ++ '/' :: c = b ++ '/' :: d) : a = b := by
  induction a generalizing b with
  | nil =>
    cases b with
    | nil => rfl
    | cons y b2 =>
      simp only [List.nil_append, List.cons_append, List.cons.injEq] at h
      exact absurd (by rw [← h.1]; simp) hb
  | cons x a2 ih =>
    cases b with
    | nil =>
      simp only [List.nil_append, List.cons_append, List.cons.injEq] at h
      exact absurd (by rw [h.1]; simp) ha
    | cons y b2 =>
      simp only [List.cons_append, List.cons.injEq] at h
      rw [h.1, ih b2 (fun hm => ha (List.mem_cons_of_mem _ hm))
        (fun hm => hb (List.mem_cons_of_mem _ hm)) h.2]

theorem tidy_names (l : Listing) (h : l.tidy = true) :
    (∀ n ∈ l.fileNames, safeName n = true) ∧ (∀ n ∈ l.folderNames, safeName n = true) := by
  induction l with
  | nil => exact ⟨by simp [Listing.fileNames], by simp [Listing.folderNames]⟩
  | file e rest ih =>
    simp only [Listing.tidy, Bool.and_eq_true] at h
    obtain ⟨h1, h2⟩ := ih h.2
    refine ⟨?_, h2⟩
    intro n hn
    simp only [Listing.fileNames, List.mem_cons] at hn
    rcases hn with rfl | hn
    · exact h.1.1
    · exact h1 n hn
  | folder name sub rest _ ih =>
    simp only [Listing.tidy, Bool.and_eq_true] at h
    obtain ⟨h1, h2⟩ := ih h.2
    refine ⟨h1, ?_⟩
    intro n hn
    simp only [Listing.folderNames, List.mem_cons] at hn
    rcases hn with rfl | hn
    · exact h.1.1.1
    · exact h2 n hn

theorem mem_walk_shape (l : Listing) : ∀ (p x : String), l.tidy = true → x ∈ Listing.walk p l →
    ∃ r, x = childPath p r ∧
      (r ∈ l.fileNames ∨ ∃ n ∈ l.folderNames, ∃ r2 : String, r = n ++ "/" ++ r2) := by
  induction l with
  | nil =>
    intro p x _ hx
    exact absurd hx (List.not_mem_nil x)
  | file e rest ih =>
    intro p x ht hx
    simp only [Listing.tidy, Bool.and_eq_true] at ht
    rw [walk_file, List.mem_cons] at hx
    rcases hx with rfl | hx
    · exact ⟨e.name, rfl, Or.inl (by simp [Listing.fileNames])⟩
    · obtain ⟨r, hr, hcase⟩ := ih p x ht.2 hx
      refine ⟨r, hr, ?_⟩
      rcases hcase with h | h
      · exact Or.inl (by simp [Listing.fileNames, h])
      · exact Or.inr (by simpa [Listing.folderNames] using h)
  | folder name sub rest ihs ihr =>
    intro p x ht hx
    simp only [Listing.tidy, Bool.and_eq_true] at ht
    rw [mem_walk_folder] at hx
    rcases hx with hx | hx
    · obtain ⟨r, hr, _⟩ := ihs (childPath p name) x ht.1.2 hx
      refine ⟨name ++ "/" ++ r, ?_, Or.inr ⟨name, by simp [Listing.folderNames], r, rfl⟩⟩
      rw [hr, childPath_childPath p name r (safeName_ne_empty name ht.1.1.1)]
    · obtain ⟨r, hr, hcase⟩ := ihr p x ht.2 hx
      refine ⟨r, hr, ?_⟩
      rcases hcase with h | ⟨n, hn, r2, h⟩
      · exact Or.inl (by simpa [Listing.fileNames] using h)
      · exact Or.inr ⟨n, by simp [Listing.folderNames, hn], r2, h⟩

theorem walk_folder_eq (p name : String) (sub rest : Listing) :
    Listing.walk p (.folder name sub rest) =
      Listing.walk p rest ++ Listing.walk (childPath p name) sub := by
  simp [Listing.walk, Listing.ownFiles, Listing.walkSubs, List.append_assoc]

theorem walk_nodup (l : Listing) : ∀ (p : String), l.tidy = true → (Listing.walk p l).Nodup := by
  induction l with
  | nil => intro p _; simp [Listing.walk, Listing.ownFiles, Listing.walkSubs]
  | file e rest ih =>
    intro p ht
    have ht2 := ht
    simp only [Listing.tidy, Bool.and_eq_true, decide_eq_true_eq] at ht2
    rw [walk_file, List.nodup_cons]
    refine ⟨?_, ih p ht2.2⟩
    intro hmem
    obtain ⟨r, hr, hcase⟩ := mem_walk_shape rest p _ ht2.2 hmem
    have hre : e.name = r := childPath_injective p _ _ hr
    rcases hcase with h | ⟨n, _, r2, h⟩
    · rw [← hre] at h
      exact ht2.1.2 h
    · have hslash : '/' ∈ e.name.data := by
        rw [hre, h]
        simp
      exact safeName_no_slash e.name ht2.1.1 hslash
  | folder name sub rest ihs ihr =>
    intro p ht
    have ht2 := ht
    simp only [Listing.tidy, Bool.and_eq_true, decide_eq_true_eq] at ht2
    obtain ⟨⟨⟨hsafe, hnotin⟩, hsub⟩, hrest⟩ := ht2
    rw [walk_folder_eq, List.nodup_append]
    refine ⟨ihr p hrest, ihs _ hsub, ?_⟩
    intro x hx1 hx2
    obtain ⟨r0, hr0, _⟩ := mem_walk_shape sub (childPath p name) x hsub hx2
    rw [childPath_childPath p name r0 (safeName_ne_empty name hsafe)] at hr0
    obtain ⟨r, hr, hcase⟩ := mem_walk_shape rest p x hrest hx1
    have hrr : name ++ "/" ++ r0 = r := childPath_injective p _ _ (hr0.symm.trans hr)
    have hnames := tidy_names rest hrest
    rcases hcase with h | ⟨n, hn, r2, h⟩
    · have hslash : '/' ∈ r.data := by
        rw [← hrr]
        simp
      exact safeName_no_slash r (hnames.1 r h) hslash
    · have hd : name.data ++ '/' :: r0.data = n.data ++ '/' :: r2.data := by
        have := congrArg String.data (hrr.trans h)
        simpa [List.append_assoc] using this
      have hnn : name = n := String.ext (slash_split_unique _ _ _ _
        (safeName_no_slash name hsafe) (safeName_no_slash n (hnames.2 n hn)) hd)
      rw [hnn] at hnotin
      exact hnotin hn

/-! ### `path.join` on clean paths -/

theorem splitSlash_ne_nil (p : List Char) : splitSlash p ≠ [] := by
  cases p with
  | nil => simp [splitSlash]
  | cons c cs =>
    simp only [splitSlash]
    split_ifs
    · simp
    · cases splitSlash cs <;> simp

theorem splitSlash_append_slash (x y : List Char) :
    splitSlash (x ++ '/' :: y) = splitSlash x ++ splitSlash y := by
  induction x with
  | nil => simp [splitSlash]
  | cons c cs ih =>
    by_cases hc : c = '/'
    · simp [splitSlash, hc, ih]
    · simp only [List.cons_append, splitSlash, hc, if_false, List.append_eq]
      rw [ih]
      cases h : splitSlash cs with
      | nil => exact absurd h (splitSlash_ne_nil cs)
      | cons seg segs => simp

theorem intercalate_cons_cons (sep x y : List Char) (rest : List (List Char)) :
    List.intercalate sep (x :: y :: rest) = x ++ sep ++ List.intercalate sep (y :: rest) := by
  simp [List.intercalate, List.intersperse, List.append_assoc]

theorem intercalate_splitSlash (p : List Char) : List.intercalate ['/'] (splitSlash p) = p := by
  induction p with
  | nil => simp [splitSlash, List.intercalate]
  | cons c cs ih =>
    by_cases hc : c = '/'
    · subst hc
      simp only [splitSlash, if_true]
      cases h : splitSlash cs with
      | nil => exact absurd h (splitSlash_ne_nil cs)
      | cons seg segs =>
        rw [intercalate_cons_cons, ← h, ih]
        rfl
    · simp only [splitSlash, hc, if_false]
      cases h : splitSlash cs with
      | nil => exact absurd h (splitSlash_ne_nil cs)
      | cons seg segs =>
        rw [h] at ih
        simp only
        cases segs with
        | nil =>
          simp only [List.intercalate, List.intersperse, List.flatten_cons, List.flatten_nil,
            List.append_nil] at ih ⊢
          rw [ih]
        | cons seg2 segs2 =>
          rw [intercalate_cons_cons] at ih ⊢
          rw [← ih]
          simp [List.append_assoc]

theorem intercalate_append (sep : List Char) (a b : List (List Char)) (hb : b ≠ []) :
    List.intercalate sep (a ++ b) =
      (if a = [] then [] else List.intercalate sep a ++ sep) ++ List.intercalate sep b := by
  induction a with
  | nil => simp
  | cons x rest ih =>
    cases rest with
    | nil =>
      cases b with
      | nil => exact absurd rfl hb
      | cons y b2 =>
        simp only [List.cons_append, List.nil_append, intercalate_cons_cons]
        simp [List.intercalate, List.intersperse]
    | cons x2 rest2 =>
      simp only [List.cons_append] at ih ⊢
      rw [intercalate_cons_cons, ih, intercalate_cons_cons]
      simp [List.append_assoc]

theorem normalizeSegments_clean (allow : Bool) (segs : List (List Char))
    (hclean : ∀ seg ∈ segs, cleanSegment seg = true) :
    ∀ acc, normalizeSegments allow segs acc = acc.reverse ++ segs := by
  induction segs with
  | nil => intro acc; simp [normalizeSegments]
  | cons seg rest ih =>
    intro acc
    have hseg := hclean seg (List.mem_cons_self _ _)
    simp only [cleanSegment, decide_eq_true_eq] at hseg
    have h1 : ¬ (seg = [] ∨ seg = ['.']) := by
      rintro (h | h)
      · exact hseg.1 h
      · exact hseg.2.1 h
    simp only [normalizeSegments, h1, hseg.2.2, if_false]
    rw [ih (fun s hs => hclean s (List.mem_cons_of_mem _ hs))]
    simp

theorem normalizeSegments_append_clean (allow : Bool) (a segs : List (List Char))
    (hclean : ∀ seg ∈ segs, cleanSegment seg = true) :
    ∀ acc, normalizeSegments allow (a ++ segs) acc = normalizeSegments allow a acc ++ segs := by
  induction a with
  | nil =>
    intro acc
    simp only [List.nil_append, normalizeSegments]
    exact normalizeSegments_clean allow segs hclean acc
  | cons seg rest ih =>
    intro acc
    have e : ∀ (r acc2 : List (List Char)), normalizeSegments allow (seg :: r) acc2 =
        if seg = [] ∨ seg = ['.'] then normalizeSegments allow r acc2
        else if seg = ['.', '.'] then
          match acc2 with
          | top :: below =>
              if top = ['.', '.'] then
                normalizeSegments allow r (if allow then ['.', '.'] :: acc2 else acc2)
              else normalizeSegments allow r below
          | [] => normalizeSegments allow r (if allow then [['.', '.']] else [])
        else normalizeSegments allow r (seg :: acc2) := by
      intro r acc2
      cases acc2 <;> simp only [normalizeSegments]
    rw [List.cons_append, e, e]
    by_cases h1 : seg = [] ∨ seg = ['.']
    · rw [if_pos h1, if_pos h1]
      exact ih _
    · rw [if_neg h1, if_neg h1]
      by_cases h2 : seg = ['.', '.']
      · rw [if_pos h2, if_pos h2]
        cases acc with
        | nil => exact ih _
        | cons top below =>
          simp only
          by_cases h3 : top = ['.', '.']
          · rw [if_pos h3, if_pos h3]
            exact ih _
          · rw [if_neg h3, if_neg h3]
            exact ih _
      · rw [if_neg h2, if_neg h2]
        exact ih _

theorem clean_last (p : List Char) (h : ∀ seg ∈ splitSlash p, cleanSegment seg = true) :
    p ≠ [] ∧ p.getLast? ≠ some '/' := by
  constructor
  · intro hp
    subst hp
    have := h [] (by simp [splitSlash])
    simp [cleanSegment] at this
  · intro hl
    obtain ⟨q, rfl⟩ := List.getLast?_eq_some_iff.mp hl
    have hs := splitSlash_append_slash q []
    have := h [] (by rw [hs]; simp [splitSlash])
    simp [cleanSegment] at this

/-- On a clean path `path.join` is plain concatenation behind a front that
depends on the first argument only. -/
theorem pathJoin_clean (b p : String) (hb : b ≠ "") (hp : cleanPath p = true) :
    (pathJoin b p).data = joinFront b.data ++ p.data := by
  have hclean : ∀ seg ∈ splitSlash p.data, cleanSegment seg = true := by
    simpa [cleanPath, List.all_eq_true] using hp
  obtain ⟨hpne, hplast⟩ := clean_last p.data hclean
  have hpne2 : p ≠ "" := fun h => hpne (by rw [h])
  have hbne : b.data ≠ [] := fun h => hb (String.ext (by rw [h]))
  have hpath : b.data ++ '/' :: p.data ≠ [] := by simp
  have hhead : (b.data ++ '/' :: p.data).head? = b.data.head? := by
    cases hbd : b.data with
    | nil => exact absurd hbd hbne
    | cons x xs => rfl
  have hlast : (b.data ++ '/' :: p.data).getLast? = p.data.getLast? := by
    have h1 : b.data ++ '/' :: p.data = (b.data ++ ['/']) ++ p.data := by simp
    rw [h1, List.getLast?_append]
    cases hpl : p.data.getLast? with
    | none => exact absurd (List.getLast?_eq_none_iff.mp hpl) hpne
    | some c => rfl
  have hsegs : normalizeSegments (!decide (b.data.head? = some '/'))
      (splitSlash (b.data ++ '/' :: p.data)) [] =
      normalizeSegments (!decide (b.data.head? = some '/')) (splitSlash b.data) [] ++
        splitSlash p.data := by
    rw [splitSlash_append_slash]
    exact normalizeSegments_append_clean _ _ _ hclean []
  have hbody : List.intercalate ['/'] (normalizeSegments (!decide (b.data.head? = some '/'))
      (splitSlash (b.data ++ '/' :: p.data)) []) =
      (if normalizeSegments (!decide (b.data.head? = some '/')) (splitSlash b.data) [] = []
        then [] else List.intercalate ['/']
          (normalizeSegments (!decide (b.data.head? = some '/')) (splitSlash b.data) []) ++
            ['/']) ++ p.data := by
    rw [hsegs, intercalate_append _ _ _ (splitSlash_ne_nil _), intercalate_splitSlash]
  have hbodyne : List.intercalate ['/'] (normalizeSegments (!decide (b.data.head? = some '/'))
      (splitSlash (b.data ++ '/' :: p.data)) []) ≠ [] := by
    rw [hbody]
    intro h
    exact hpne (List.append_eq_nil.mp h).2
  have hjoin : pathJoin b p = ⟨pathNormalize (b.data ++ '/' :: p.data)⟩ := by
    simp [pathJoin, hb, hpne2]
  rw [hjoin]
  show pathNormalize (b.data ++ '/' :: p.data) = _
  unfold pathNormalize
  simp only [hpath, if_false, hhead, hlast, hplast, hbodyne, List.append_nil]
  rw [hbody]
  simp [joinFront, List.append_assoc]

theorem pathJoin_clean_injective (b p1 p2 : String) (hb : b ≠ "")
    (h1 : cleanPath p1 = true) (h2 : cleanPath p2 = true)
    (h : pathJoin b p1 = pathJoin b p2) : p1 = p2 := by
  have e := congrArg String.data h
  rw [pathJoin_clean b p1 hb h1, pathJoin_clean b p2 hb h2] at e
  exact String.ext (List.append_cancel_left e)

/-! ### The paths of a tree with ordinary names are clean -/

theorem intercalate_go_data (as : List String) : ∀ acc : String,
    (String.intercalate.go acc "/" as).data =
      acc.data ++ as.flatMap (fun a => '/' :: a.data) := by
  induction as with
  | nil => intro acc; simp [String.intercalate.go]
  | cons a rest ih =>
    intro acc
    rw [String.intercalate.go, ih]
    simp [List.append_assoc]

theorem splitSlash_no_slash (a : List Char) (h : '/' ∉ a) : splitSlash a = [a] := by
  induction a with
  | nil => rfl
  | cons c cs ih =>
    have hc : c ≠ '/' := fun hc => h (by rw [hc]; simp)
    have hcs : '/' ∉ cs := fun hm => h (List.mem_cons_of_mem _ hm)
    simp [splitSlash, hc, ih hcs]

theorem splitSlash_joined (a : List Char) (rest : List (List Char)) (ha : '/' ∉ a)
    (hrest : ∀ r ∈ rest, '/' ∉ r) :
    splitSlash (a ++ rest.flatMap (fun r => '/' :: r)) = a :: rest := by
  induction rest generalizing a with
  | nil => simpa using splitSlash_no_slash a ha
  | cons r rs ih =>
    simp only [List.flatMap_cons, List.cons_append]
    rw [splitSlash_append_slash, splitSlash_no_slash a ha,
      ih r (hrest r (List.mem_cons_self _ _)) (fun x hx => hrest x (List.mem_cons_of_mem _ hx))]
    rfl

theorem ordinaryName_clean (n : String) (h : ordinaryName n = true) :
    '/' ∉ n.data ∧ cleanSegment n.data = true := by
  simp only [ordinaryName, Bool.and_eq_true, decide_eq_true_eq] at h
  refine ⟨safeName_no_slash n h.1, ?_⟩
  simp only [cleanSegment, decide_eq_true_eq]
  refine ⟨?_, ?_, ?_⟩
  · intro hd
    exact safeName_ne_empty n h.1 (String.ext hd)
  · intro hd
    exact h.2.1 (String.ext hd)
  · intro hd
    exact h.2.2 (String.ext hd)

theorem joinedPath_clean (segs : List String) (name : String)
    (hsegs : ∀ s ∈ segs, ordinaryName s = true) (hname : ordinaryName name = true) :
    cleanPath (joinedPath segs name) = true := by
  have hall : ∀ s ∈ segs ++ [name], ordinaryName s = true := by
    intro s hs
    rcases List.mem_append.mp hs with h | h
    · exact hsegs s h
    · simp only [List.mem_singleton] at h; subst h; exact hname
  have hkey : ∀ (xs : List String), xs ≠ [] → (∀ s ∈ xs, ordinaryName s = true) →
      (splitSlash ("/".intercalate xs).data).all cleanSegment = true := by
    intro xs hne hx
    cases xs with
    | nil => exact absurd rfl hne
    | cons a as =>
      have hd : ("/".intercalate (a :: as)).data =
          a.data ++ (as.map String.data).flatMap (fun r => '/' :: r) := by
        simp only [String.intercalate]
        rw [intercalate_go_data]
        simp [List.flatMap_map]
      rw [hd, splitSlash_joined a.data (as.map String.data)
        (ordinaryName_clean a (hx a (List.mem_cons_self _ _))).1
        (by
          intro r hr
          obtain ⟨s, hs, rfl⟩ := List.mem_map.mp hr
          exact (ordinaryName_clean s (hx s (List.mem_cons_of_mem _ hs))).1)]
      simp only [List.all_cons, List.all_eq_true, Bool.and_eq_true, List.mem_map]
      refine ⟨(ordinaryName_clean a (hx a (List.mem_cons_self _ _))).2, ?_⟩
      rintro seg ⟨s, hs, rfl⟩
      exact (ordinaryName_clean s (hx s (List.mem_cons_of_mem _ hs))).2
  exact hkey (segs ++ [name]) (by simp) hall

theorem ordinary_fileEntries (l : Listing) (h : l.ordinary = true) :
    ∀ fe ∈ l.fileEntries, (∀ s ∈ fe.1, ordinaryName s = true) ∧ ordinaryName fe.2.name = true := by
  induction l with
  | nil => intro fe hfe; exact absurd hfe (List.not_mem_nil fe)
  | file e rest ih =>
    simp only [Listing.ordinary, Bool.and_eq_true] at h
    intro fe hfe
    simp only [Listing.fileEntries, List.mem_cons] at hfe
    rcases hfe with rfl | hfe
    · exact ⟨by simp, h.1⟩
    · exact ih h.2 fe hfe
  | folder name sub rest ihs ihr =>
    simp only [Listing.ordinary, Bool.and_eq_true] at h
    intro fe hfe
    simp only [Listing.fileEntries, List.mem_append, List.mem_map] at hfe
    rcases hfe with ⟨fe2, hfe2, rfl⟩ | hfe
    · obtain ⟨h1, h2⟩ := ihs h.1.2 fe2 hfe2
      refine ⟨?_, h2⟩
      intro s hs
      rcases List.mem_cons.mp hs with rfl | hs
      · exact h.1.1
      · exact h1 s hs
    · exact ihr h.2 fe hfe

theorem walk_clean (l : Listing) (h : l.ordinary = true) :
    ∀ x ∈ Listing.walk "" l, cleanPath x = true := by
  intro x hx
  obtain ⟨fe, hfe, rfl⟩ := (mem_walk l "" x).mp hx
  obtain ⟨h1, h2⟩ := ordinary_fileEntries l h fe hfe
  have hhead : fe.1.head? ≠ some "" := by
    intro hh
    cases hs : fe.1 with
    | nil => rw [hs] at hh; simp at hh
    | cons a as =>
      rw [hs] at hh
      simp only [List.head?_cons, Option.some.injEq] at hh
      have := h1 a (by rw [hs]; simp)
      rw [hh] at this
      simp [ordinaryName, safeName] at this
  rw [codePath_eq_joinedPath _ _ hhead]
  exact joinedPath_clean fe.1 fe.2.name h1 h2

/-! ## The claims about `listAll` -/

theorem calls_eq_sum (l : Listing) (p : String) :
    l.calls = ((l.allFolders p).map (fun x => x.2.rows.length / limit + 1)).sum := by
  have hs : ∀ (l : Listing) (p : String),
      l.subCalls = ((l.subAllFolders p).map (fun x => x.2.rows.length / limit + 1)).sum := by
    intro l
    induction l with
    | nil => intro p; rfl
    | file e rest ih => intro p; simpa [Listing.subCalls, Listing.subAllFolders] using ih p
    | folder name sub rest ihs ihr =>
      intro p
      simp only [Listing.subCalls, Listing.subAllFolders, List.map_cons, List.map_append,
        List.sum_cons, List.sum_append, ← ihs, ← ihr]
      omega
  simp only [Listing.calls, Listing.allFolders, List.map_cons, List.sum_cons, ← hs l p]

theorem pageEvents_infix_subs (bucket : String) (l : Listing) :
    ∀ p, ∀ x ∈ l.subAllFolders p,
      pageEvents bucket x.1 x.2.rows 0 (x.2.rows.length / limit + 1) <:+: subsEvents bucket p l := by
  induction l with
  | nil => intro p x h; simp [Listing.subAllFolders] at h
  | file e rest ih => intro p x h; exact ih p x (by simpa [Listing.subAllFolders] using h)
  | folder name sub rest ihs ihr =>
    intro p x h
    simp only [Listing.subAllFolders, List.mem_cons, List.mem_append] at h
    simp only [subsEvents]
    rcases h with rfl | h | h
    · exact ⟨subsEvents bucket p rest, subsEvents bucket (childPath p name) sub, by
        simp [List.append_assoc]⟩
    · obtain ⟨a, b, hab⟩ := ihs _ x h
      exact ⟨subsEvents bucket p rest ++
        pageEvents bucket (childPath p name) sub.rows 0 (sub.rows.length / limit + 1) ++ a, b, by
        rw [← hab]; simp [List.append_assoc]⟩
    · obtain ⟨a, b, hab⟩ := ihr p x h
      exact ⟨a, b ++ (pageEvents bucket (childPath p name) sub.rows 0
        (sub.rows.length / limit + 1) ++ subsEvents bucket (childPath p name) sub), by
        rw [← hab]; simp [List.append_assoc]⟩

theorem pageEvents_infix (bucket p : String) (l : Listing) :
    ∀ x ∈ l.allFolders p,
      pageEvents bucket x.1 x.2.rows 0 (x.2.rows.length / limit + 1) <:+: walkEvents bucket p l := by
  intro x h
  simp only [Listing.allFolders, List.mem_cons] at h
  rcases h with rfl | h
  · exact ⟨[], subsEvents bucket p l, by simp [walkEvents]⟩
  · obtain ⟨a, b, hab⟩ := pageEvents_infix_subs bucket l p x h
    exact ⟨pageEvents bucket p l.rows 0 (l.rows.length / limit + 1) ++ a, b, by
      rw [walkEvents, ← hab]; simp [List.append_assoc]⟩

/-- C1. Over a finite folder tree served by a faithful paginated list call,
`listAll(bucket, '')` returns (with enough steps, whatever the step budget
beyond that) a list whose members are exactly the `/`-joined paths
`seg1/.../segN-1/fileName` of the file entries of the tree, at every depth; a
tree without file entries gives the empty list. -/
theorem listAll_complete_sound {σ : Type} (R : Remote σ) (bucket : String) (l : Listing) (s : σ)
    (hf : Faithful R bucket "" l) :
    ∃ files : List String,
      (∀ fuel, l.calls + l.folderCount + 1 ≤ fuel →
        (listAll R bucket "" fuel s).1 = .ok files) ∧
      (∀ p, p ∈ files ↔ ∃ fe ∈ l.fileEntries, p = joinedPath fe.1 fe.2.name) ∧
      (l.fileEntries = [] → files = []) := by
  have hiff : ∀ p, p ∈ Listing.walk "" l ↔ ∃ fe ∈ l.fileEntries, p = joinedPath fe.1 fe.2.name := by
    intro p
    rw [mem_walk]
    constructor
    · rintro ⟨fe, hfe, rfl⟩
      exact ⟨fe, hfe, codePath_eq_joinedPath _ _ (faithful_root_names R bucket s l hf fe hfe)⟩
    · rintro ⟨fe, hfe, rfl⟩
      exact ⟨fe, hfe,
        (codePath_eq_joinedPath _ _ (faithful_root_names R bucket s l hf fe hfe)).symm⟩
  refine ⟨Listing.walk "" l, ?_, hiff, ?_⟩
  · intro fuel hfuel
    obtain ⟨s2, h⟩ := listAll_faithful R bucket "" l hf s fuel hfuel
    rw [h]
  · intro hnil
    apply List.eq_nil_iff_forall_not_mem.mpr
    intro p hp
    obtain ⟨fe, hfe, _⟩ := (hiff p).mp hp
    rw [hnil] at hfe
    exact absurd hfe (List.not_mem_nil fe)

theorem assetsRemote_faithful : Faithful assetsRemote "assets" "" assetsTree :=
  ⟨by decide, fun _ _ => rfl, ⟨fun _ _ => rfl, trivial, trivial⟩⟩

/-- Witness for C1 on the bucket `assets`. -/
theorem listAll_complete_sound_witness :
    Faithful assetsRemote "assets" "" assetsTree ∧
      ∃ files : List String,
        (∀ fuel, assetsTree.calls + assetsTree.folderCount + 1 ≤ fuel →
          (listAll assetsRemote "assets" "" fuel ()).1 = .ok files) ∧
        (∀ p, p ∈ files ↔ ∃ fe ∈ assetsTree.fileEntries, p = joinedPath fe.1 fe.2.name) ∧
        (assetsTree.fileEntries = [] → files = []) :=
  ⟨assetsRemote_faithful,
    listAll_complete_sound assetsRemote "assets" assetsTree () assetsRemote_faithful⟩

/-- C2, as the code has it. Entry classification: an entry counts as a file
exactly when it has a non-empty id or a metadata block; for a file entry the
`for` loop appends the full path to `results` and pushes nothing onto `stack`,
for any other entry it pushes the full path onto `stack` and appends nothing to
`results`. Over a whole run the returned list is exactly the paths appended for
file entries, page after page, and every prefix passed to the list call is the
starting prefix or a path pushed for a non-file entry of an earlier page. -/
theorem listAll_entry_classification {σ : Type} (R : Remote σ) (bucket start : String)
    (fuel : Nat) (s : σ) :
    (∀ e : Entry, e.isFile = true ↔ ((∃ i, e.id = some i ∧ i ≠ "") ∨ e.metadata ≠ none)) ∧
    (∀ current name, childPath current name =
      if current = "" then name else current ++ "/" ++ name) ∧
    (∀ current (e : Entry) results stack, forEntries current [e] (results, stack) =
      if e.isFile then (results ++ [childPath current e.name], stack)
      else (results, stack ++ [childPath current e.name])) ∧
    (∀ current data results stack, forEntries current data (results, stack) =
      (results ++ (data.filter (fun e => e.isFile)).map (fun e => childPath current e.name),
        stack ++ (data.filter (fun e => !e.isFile)).map (fun e => childPath current e.name))) ∧
    (∀ files, (listAll R bucket start fuel s).1 = .ok files →
      files = (listAll R bucket start fuel s).2.2.flatMap Event.appended) ∧
    (∀ pre ev post q, (listAll R bucket start fuel s).2.2 = pre ++ ev :: post →
      ev.listedPath = some q → q = start ∨ q ∈ pre.flatMap Event.pushed) := by
  refine ⟨?_, ?_, ?_, ?_, ?_, ?_⟩
  · intro e
    rcases e with ⟨name, id, metadata⟩
    cases id with
    | none => cases metadata <;> simp [Entry.isFile, truthyString]
    | some i => cases metadata <;> simp [Entry.isFile, truthyString]
  · intro current name
    by_cases h : current = "" <;> simp [childPath, h]
  · intro current e results stack
    by_cases h : e.isFile = true <;> simp [forEntries, h]
  · intro current data results stack
    exact forEntries_eq current data results stack
  · intro files hfiles
    have h := (stackLoop_run R bucket fuel [] [start] s).2.1 files hfiles
    simpa [listAll] using h.1
  · intro pre ev post q hevs hq
    have h := (stackLoop_run R bucket fuel [] [start] s).1
    rcases justified_split [start] _ pre post ev q h hevs hq with h1 | h1
    · exact Or.inl (List.mem_singleton.mp h1)
    · exact Or.inr h1

/-- Witness for C2 on the bucket `assets`: the file entry `a.png` is returned,
the folder entry `img` is listed as a prefix. -/
theorem listAll_entry_classification_witness :
    (listAll assetsRemote "assets" "" 5 ()).1 = .ok ["a.png", "img/b.png"] ∧
      ["a.png", "img/b.png"] = (listAll assetsRemote "assets" "" 5 ()).2.2.flatMap Event.appended :=
  ⟨by decide,
    (listAll_entry_classification assetsRemote "assets" "" 5 ()).2.2.2.2.1 _ (by decide)⟩

/-- Counterexample to C2 as stated: the page of the bucket root holds the file
entry `a` (with an id) and a folder entry of the same name (no id, no
metadata). The full path `a` of the file entry is pushed onto the stack and
passed to the list call as a prefix, and the full path `a` of the folder entry
is in the returned list and is downloaded. -/
theorem listAll_entry_classification_counterexample :
    (⟨"a", some "id-a", none⟩ : Entry).isFile = true ∧
      (⟨"a", none, none⟩ : Entry).isFile = false ∧
      childPath "" "a" = "a" ∧
      forEntries "" [⟨"a", some "id-a", none⟩, ⟨"a", none, none⟩] ([], []) = (["a"], ["a"]) ∧
      listAll clashRemote "assets" "" 5 () =
        (.ok ["a", "a/b"], (),
          [Event.list "assets" "" (listOptions 0)
              (.ok [⟨"a", some "id-a", none⟩, ⟨"a", none, none⟩]),
            Event.list "assets" "a" (listOptions 0) (.ok [⟨"b", some "id-b", none⟩])]) ∧
      Event.download "assets" "a" (.ok [7]) ∈
        (script clashRemote scenarioEnv 5 ⟨(), scenarioFs⟩).2.2 := by
  refine ⟨by decide, by decide, by decide, by decide, by decide, by decide⟩

/-- C4, as the code has it. Fail-fast listing: a list call that returns an
error is the last call of the walk, `listAll` ends by throwing exactly that
error (no list is returned), and more steps change nothing; `listAll` fails
exactly when some list call it issued failed, and a walk that ends returns a
list exactly when every list call it issued returned data. -/
theorem listAll_fail_fast {σ : Type} (R : Remote σ) (bucket start : String)
    (fuel : Nat) (s : σ) :
    (∀ pre ev post e, (listAll R bucket start fuel s).2.2 = pre ++ ev :: post →
      ev.failure = some e →
        (listAll R bucket start fuel s).1 = .throw e ∧ post = [] ∧ AllOk pre ∧
          ∀ k, listAll R bucket start (fuel + k) s = listAll R bucket start fuel s) ∧
    (∀ e, (listAll R bucket start fuel s).1 = .throw e →
      ∃ pre c o, (listAll R bucket start fuel s).2.2 =
        pre ++ [Event.list bucket c o (.error e)] ∧ AllOk pre) ∧
    ((∃ e, (listAll R bucket start fuel s).1 = .throw e) ↔
      ¬ AllOk (listAll R bucket start fuel s).2.2) ∧
    ((listAll R bucket start fuel s).1 ≠ .diverge →
      ((∃ files, (listAll R bucket start fuel s).1 = .ok files) ↔
        AllOk (listAll R bucket start fuel s).2.2)) := by
  obtain ⟨_, hok, hthrow, hdiv⟩ := stackLoop_run R bucket fuel [] [start] s
  have hnofail : ∀ evs : List Event, AllOk evs → ∀ pre ev post e,
      evs = pre ++ ev :: post → ev.failure = some e → False := by
    intro evs hall pre ev post e hevs hfail
    have hmem : ev ∈ evs := by rw [hevs]; simp
    rw [okList_failure ev (hall ev hmem)] at hfail
    cases hfail
  refine ⟨?_, ?_, ?_, ?_⟩
  · intro pre ev post e hevs hfail
    rcases hout : (stackLoop R bucket fuel [] [start] s).1 with files | e2 | _
    · exact (hnofail _ (hok files hout).2 pre ev post e hevs hfail).elim
    · obtain ⟨pre2, c, o, hpre2, hall2⟩ := hthrow e2 hout
      have hevs2 : pre2 ++ [Event.list bucket c o (.error e2)] = pre ++ ev :: post := by
        rw [← hpre2]; exact hevs
      have hpost : post = [] := by
        rcases List.eq_nil_or_concat post with hnil | ⟨init, lst, hcat⟩
        · exact hnil
        · exfalso
          rw [List.concat_eq_append] at hcat
          rw [hcat, ← List.cons_append, ← List.append_assoc] at hevs2
          have h3 := List.append_inj_left' hevs2 rfl
          exact hnofail pre2 hall2 pre ev init e h3 hfail
      subst hpost
      have h4 := List.append_inj' hevs2 rfl
      have h5 : ev = Event.list bucket c o (.error e2) := by
        have := h4.2; simp only [List.cons.injEq, and_true] at this; exact this.symm
      have h6 : e = e2 := by
        rw [h5] at hfail
        simp only [Event.failure, Option.some.injEq] at hfail
        exact hfail.symm
      subst h6
      refine ⟨by simp only [listAll]; exact hout, rfl, by rw [← h4.1]; exact hall2, ?_⟩
      intro k
      exact stackLoop_mono_add R bucket fuel [] [start] s (by rw [hout]; simp) k
    · exact (hnofail _ (hdiv hout) pre ev post e hevs hfail).elim
  · intro e he
    exact hthrow e he
  · constructor
    · rintro ⟨e, he⟩ hall
      obtain ⟨pre2, c, o, hpre2, _⟩ := hthrow e he
      exact hnofail _ hall pre2 _ [] e hpre2 rfl
    · intro hnot
      rcases hout : (stackLoop R bucket fuel [] [start] s).1 with files | e2 | _
      · exact (hnot (hok files hout).2).elim
      · exact ⟨e2, hout⟩
      · exact (hnot (hdiv hout)).elim
  · intro hnd
    constructor
    · rintro ⟨files, hfiles⟩
      exact (hok files hfiles).2
    · intro hall
      rcases hout : (stackLoop R bucket fuel [] [start] s).1 with files | e2 | _
      · exact ⟨files, hout⟩
      · obtain ⟨pre2, c, o, hpre2, _⟩ := hthrow e2 hout
        exact (hnofail _ hall pre2 _ [] e2 hpre2 rfl).elim
      · exact absurd hout hnd

/-- Witness for C4: the list call for `img` fails, and `listAll` throws that
error after two calls, although `a.png` had been collected. -/
theorem listAll_fail_fast_witness :
    (listAll failingListRemote "assets" "" 5 ()).2.2 =
        [Event.list "assets" "" (listOptions 0) (.ok assetsTree.rows)] ++
          Event.list "assets" "img" (listOptions 0) (.error "list failed") :: [] ∧
      (Event.list "assets" "img" (listOptions 0) (.error "list failed")).failure =
        some "list failed" ∧
      (listAll failingListRemote "assets" "" 5 ()).1 = .throw "list failed" :=
  ⟨by decide, rfl,
    ((listAll_fail_fast failingListRemote "assets" "" 5 ()).1
      [Event.list "assets" "" (listOptions 0) (.ok assetsTree.rows)]
      (Event.list "assets" "img" (listOptions 0) (.error "list failed")) [] "list failed"
      (by decide) rfl).1⟩

theorem pageLoop_endless (bucket current : String) :
    ∀ (fuel offset : Nat) (results stack : List String),
      (pageLoop endlessRemote bucket current fuel offset results stack ()).1 = .diverge := by
  intro fuel
  induction fuel with
  | zero => intro offset results stack; rfl
  | succ n ih =>
    intro offset results stack
    have hl : ¬ (fileRows 1000).length < limit := by
      rw [fileRows, List.length_replicate]; decide
    have h := ih (offset + limit) (forEntries current (fileRows 1000) (results, stack)).1
      (forEntries current (fileRows 1000) (results, stack)).2
    rw [pageLoop]
    simp only [endlessRemote, hl, if_false]
    exact h

/-- Counterexample to C4 as stated: the remote returns a full page of 1000
entries at every offset. No list call fails, yet the inner loop requests page
after page and `listAll` never returns a list. -/
theorem listAll_fail_fast_counterexample :
    (listAll endlessRemote "flat" "" 3 ()).1 = .diverge ∧
      (¬ ∃ s b p o e, (endlessRemote.list s b p o).1 = .error e) ∧
      (¬ ∃ fuel files, (listAll endlessRemote "flat" "" fuel ()).1 = .ok files) ∧
      (¬ ∃ fuel e, (listAll endlessRemote "flat" "" fuel ()).1 = .throw e) := by
  have hdiv : ∀ fuel, (listAll endlessRemote "flat" "" fuel ()).1 = .diverge := by
    intro fuel
    cases fuel with
    | zero => rfl
    | succ n =>
      have h := pageLoop_endless "flat" "" n 0 [] []
      rcases hp : pageLoop endlessRemote "flat" "" n 0 [] [] () with ⟨out, s1, evs⟩
      rw [hp] at h
      simp only at h
      subst h
      simp [listAll, stackLoop, hp]
  refine ⟨hdiv 3, ?_, ?_, ?_⟩
  · rintro ⟨s, b, p, o, e, h⟩
    simp [endlessRemote] at h
  · rintro ⟨fuel, files, h⟩
    rw [hdiv fuel] at h
    cases h
  · rintro ⟨fuel, e, h⟩
    rw [hdiv fuel] at h
    cases h

theorem orderRemote_faithful : Faithful orderRemote "docs" "" orderTree :=
  ⟨by decide, fun _ _ => rfl, ⟨fun _ _ => rfl, trivial, trivial⟩⟩

/-- C8. Result order: over a finite folder tree served by a faithful paginated
remote the result of `listAll` is the preorder enumeration `Listing.walk`: for
every folder of the tree its own files, in listing order, form a contiguous
block of the result, directly followed by the files of its subfolders taken
from the last listed subfolder to the first. -/
theorem listAll_stack_pop_order {σ : Type} (R : Remote σ) (bucket start : String) (l : Listing)
    (s : σ) (hf : Faithful R bucket start l) :
    (∀ fuel, l.calls + l.folderCount + 1 ≤ fuel →
      (listAll R bucket start fuel s).1 = .ok (Listing.walk start l)) ∧
    (∀ x ∈ l.allFolders start, ∃ pre post,
      Listing.walk start l =
        pre ++ (x.2.ownFiles x.1 ++
          (x.2.subfolders x.1).reverse.flatMap (fun y => Listing.walk y.1 y.2)) ++ post) ∧
    (∀ x ∈ l.allFolders start, x.2.ownFiles x.1 = filePaths x.1 x.2.rows) := by
  have hrecAll : ∀ (l : Listing) (p : String), l.recognisable = true →
      ∀ x ∈ l.subAllFolders p, x.2.recognisable = true := by
    intro l
    induction l with
    | nil => intro p _ x h; simp [Listing.subAllFolders] at h
    | file e rest ih =>
      intro p hr x h
      simp only [Listing.recognisable, Bool.and_eq_true] at hr
      exact ih p hr.2 x (by simpa [Listing.subAllFolders] using h)
    | folder name sub rest ihs ihr =>
      intro p hr x h
      simp only [Listing.recognisable, Bool.and_eq_true] at hr
      simp only [Listing.subAllFolders, List.mem_cons, List.mem_append] at h
      rcases h with rfl | h | h
      · exact hr.1
      · exact ihs _ hr.1 x h
      · exact ihr p hr.2 x h
  have hrec := hf.1
  refine ⟨?_, ?_, ?_⟩
  · intro fuel hfuel
    obtain ⟨s2, h⟩ := listAll_faithful R bucket start l hf s fuel hfuel
    rw [h]
  · intro x hx
    obtain ⟨pre, post, h⟩ := walk_infix start l x hx
    refine ⟨pre, post, ?_⟩
    rw [← h, Listing.walk, walkSubs_eq]
  · intro x hx
    apply ownFiles_eq_filePaths
    simp only [Listing.allFolders, List.mem_cons] at hx
    rcases hx with rfl | hx
    · exact hrec
    · exact hrecAll l start hrec x hx

/-- Witness for C8: root file `b` and folder `a` holding `x` give `['b', 'a/x']`,
which is not in ascending order. -/
theorem listAll_stack_pop_order_witness :
    Faithful orderRemote "docs" "" orderTree ∧
      (listAll orderRemote "docs" "" 5 ()).1 = .ok ["b", "a/x"] ∧ ("a/x" : String) < "b" :=
  ⟨orderRemote_faithful,
    ((listAll_stack_pop_order orderRemote "docs" "" orderTree ()
      orderRemote_faithful).1 5 (by decide)).trans (by decide),
    String.lt_iff_toList_lt.mpr (by decide)⟩

/-- C10. Termination and request count: over a finite folder tree served by a
faithful paginated list call that never fails, `listAll` returns once the step
budget covers the tree; the prefixes popped from the stack are the folders of
the tree, each exactly once, the events of the run are its list calls, and
their number is the sum over the folders of `floor(n / 1000) + 1`; a folder of
exactly 1000 entries is listed by two calls, the second returning an empty page. -/
theorem listAll_terminates_request_count {σ : Type} (R : Remote σ) (bucket start : String)
    (l : Listing) (s : σ) (hf : Faithful R bucket start l) :
    ∀ fuel, l.calls + l.folderCount + 1 ≤ fuel →
      ∃ files s2 evs, listAll R bucket start fuel s = (.ok files, s2, evs) ∧
        evs.filterMap Event.poppedPath = visited start l ∧
        (visited start l).Perm ((l.allFolders start).map Prod.fst) ∧
        (∀ ev ∈ evs, ev.isList = true) ∧
        evs.length = ((l.allFolders start).map (fun x => x.2.rows.length / 1000 + 1)).sum ∧
        (∀ x ∈ l.allFolders start, x.2.rows.length = 1000 →
          ∃ pre post, evs = pre ++
            [Event.list bucket x.1 (listOptions 0) (.ok x.2.rows),
              Event.list bucket x.1 (listOptions 1000) (.ok [])] ++ post) := by
  intro fuel hfuel
  obtain ⟨s2, h⟩ := listAll_faithful R bucket start l hf s fuel hfuel
  refine ⟨_, s2, _, h, walkEvents_popped bucket start l, ?_, walkEvents_allList bucket l start,
    ?_, ?_⟩
  · simp only [visited, Listing.allFolders, List.map_cons]
    exact List.Perm.cons _ (subsVisited_perm l start)
  · rw [walkEvents_length, calls_eq_sum l start]
    rfl
  · intro x hx hlen
    obtain ⟨pre, post, hpp⟩ := pageEvents_infix bucket start l x hx
    refine ⟨pre, post, ?_⟩
    rw [← hpp, hlen]
    have h1 : (x.2.rows.drop 0).take limit = x.2.rows := by
      apply List.take_of_length_le
      simp only [List.drop_zero, hlen, limit]; omega
    have h2 : (x.2.rows.drop (0 + limit)).take limit = [] := by
      have : x.2.rows.drop (0 + limit) = [] := by
        apply List.drop_of_length_le
        simp only [hlen, limit]; omega
      rw [this]; rfl
    have h3 : pageEvents bucket x.1 x.2.rows 0 (1000 / limit + 1) =
        [Event.list bucket x.1 (listOptions 0) (.ok ((x.2.rows.drop 0).take limit)),
          Event.list bucket x.1 (listOptions (0 + limit))
            (.ok ((x.2.rows.drop (0 + limit)).take limit))] := rfl
    rw [h3, h1, h2]
    rfl

/-- Witness for C10 on the bucket `assets`: two folders, two list calls. -/
theorem listAll_terminates_request_count_witness :
    Faithful assetsRemote "assets" "" assetsTree ∧
      assetsTree.calls + assetsTree.folderCount + 1 ≤ 5 ∧
      ∃ files s2 evs, listAll assetsRemote "assets" "" 5 () = (.ok files, s2, evs) ∧
        evs.filterMap Event.poppedPath = visited "" assetsTree ∧
        (visited "" assetsTree).Perm ((assetsTree.allFolders "").map Prod.fst) ∧
        (∀ ev ∈ evs, ev.isList = true) ∧
        evs.length = ((assetsTree.allFolders "").map (fun x => x.2.rows.length / 1000 + 1)).sum ∧
        (∀ x ∈ assetsTree.allFolders "", x.2.rows.length = 1000 →
          ∃ pre post, evs = pre ++
            [Event.list "assets" x.1 (listOptions 0) (.ok x.2.rows),
              Event.list "assets" x.1 (listOptions 1000) (.ok [])] ++ post) :=
  ⟨assetsRemote_faithful, by decide,
    listAll_terminates_request_count assetsRemote "assets" "" assetsTree ()
      assetsRemote_faithful 5 (by decide)⟩

/-! ## The claims about `main` -/

/-- C9. Idempotence of the backup: against a remote whose answers do not depend
on its state, running the script again on the filesystem left by a successful
run succeeds, issues the same calls and writes the same bytes, and leaves every
location as the first run left it, except that `manifest.json` now holds the
new `generated_at`. -/
theorem backup_idempotent {σ : Type} (R : Remote σ) (hR : Stateless R) (env : Env)
    (now2 : String) (fuel : Nat) (w : World σ) (t : σ)
    (h : (script R env fuel w).1 = some 0) :
    ∃ url loc pre,
      env.supabaseUrl = some url ∧ resolve env.cwd (manifestPath env.outDir) = some loc ∧
      (script R env fuel w).2.2 = Event.mkdir env.outDir ::
        (pre ++ [Event.writeFile (manifestPath env.outDir) (.manifest url env.now)]) ∧
      (script R { env with now := now2 } fuel ⟨t, (script R env fuel w).2.1.fs⟩).1 = some 0 ∧
      (script R { env with now := now2 } fuel ⟨t, (script R env fuel w).2.1.fs⟩).2.2 =
        Event.mkdir env.outDir ::
          (pre ++ [Event.writeFile (manifestPath env.outDir) (.manifest url now2)]) ∧
      (∀ l, l ≠ loc →
        (script R { env with now := now2 } fuel ⟨t, (script R env fuel w).2.1.fs⟩).2.1.fs l =
          (script R env fuel w).2.1.fs l) ∧
      (script R env fuel w).2.1.fs loc = some (FsNode.file (.manifest url env.now)) ∧
      (script R { env with now := now2 } fuel ⟨t, (script R env fuel w).2.1.fs⟩).2.1.fs loc =
        some (FsNode.file (.manifest url now2)) := by
  obtain ⟨url, fs0, buckets, s1, wb, evsB, fs3, hurl, hurl2, hm, hb, hl, hw, hs⟩ :=
    script_success R env fuel w h
  have hcfg : ¬ (truthyString env.supabaseUrl = false ∨ truthyString env.serviceRole = false) := by
    intro hc
    simp [script, hc] at h
  obtain ⟨_, _, b3, b4, _, _⟩ := bucketLoop_run R env.cwd env.outDir fuel buckets ⟨s1, fs0⟩
  rw [hl] at b3 b4
  simp only at b3 b4
  have hle3 : FS.le wb.fs fs3 := writeFileSync_le env.cwd _ _ _ _ hw
  obtain ⟨loc, hloc, _, _, _, _, hfs3⟩ := writeFileSync_ok env.cwd _ _ _ _ hw
  have hmk2 : mkdirSync env.cwd fs3 env.outDir = .ok fs3 :=
    mkdirSync_again env.cwd w.fs fs0 fs3 _ hm (fs_le_trans _ _ _ b4 hle3)
  have hresp := hR.1 w.remote t
  rcases hb2 : R.listBuckets t with ⟨resp2, t1⟩
  rw [hb, hb2] at hresp
  simp only at hresp
  subst hresp
  obtain ⟨t2, g2, hl2, hg1, hg2⟩ := bucketLoop_again R hR env.cwd env.outDir fuel buckets
    s1 t1 fs0 fs3 () wb evsB hl hle3
  obtain ⟨loc2, hloc2, hw2, _, _⟩ := writeFileSync_again env.cwd wb.fs fs3 g2
    (manifestPath env.outDir) (.manifest url env.now) (.manifest url now2) hw hg1
  have hloceq : loc2 = loc := by
    rw [hloc] at hloc2
    exact (Option.some.inj hloc2).symm
  subst hloceq
  have c3 := (bucketLoop_run R env.cwd env.outDir fuel buckets ⟨t1, fs3⟩).2.2.1
  rw [hl2] at c3
  simp only at c3
  have hgetD : env.supabaseUrl.getD "" = url := by rw [hurl]; rfl
  have hs2 : script R { env with now := now2 } fuel ⟨t, fs3⟩ =
      (some 0, ⟨t2, g2.set loc2 (FsNode.file (.manifest url now2))⟩,
        Event.mkdir env.outDir :: (Event.listBuckets (.ok buckets) ::
          (evsB ++ [Event.writeFile (manifestPath env.outDir) (.manifest url now2)]))) := by
    have ho : ({ env with now := now2 } : Env).outDir = env.outDir := rfl
    simp [script, hcfg, ho, hmk2, main, hb2, hl2, hgetD, hw2]
  rw [hs]
  simp only
  rw [hs2]
  simp only
  refine ⟨url, loc2, Event.listBuckets (.ok buckets) :: evsB, hurl, hloc,
    rfl, trivial, rfl, ?_, ?_, ?_⟩
  · intro l hlne
    simp only [FS.set, hlne, if_false]
    obtain ⟨r1a, r1b⟩ := b3 l
    obtain ⟨r2a, r2b⟩ := c3 l
    have hfs3l : fs3 l = wb.fs l := by rw [hfs3]; simp [FS.set, hlne]
    cases hlw : lastWrite env.cwd (writesOf evsB) l with
    | some d => rw [r2a d hlw, hfs3l, r1a d hlw]
    | none =>
      rcases r2b hlw with h2 | ⟨h2, h3⟩
      · exact h2
      · rw [hg2 l h2] at h3
        cases h3
  · rw [hfs3]; simp [FS.set]
  · simp [FS.set]

theorem assetsRemote_stateless : Stateless assetsRemote :=
  ⟨fun _ _ => rfl, fun _ _ _ _ _ => by simp only [assetsRemote],
    fun _ _ _ _ => by simp only [assetsRemote]⟩

/-- Witness for C9: the end-to-end scenario run twice. -/
theorem backup_idempotent_witness :
    Stateless assetsRemote ∧
      (script assetsRemote scenarioEnv 5 ⟨(), scenarioFs⟩).1 = some 0 ∧
      ∃ url loc pre,
        scenarioEnv.supabaseUrl = some url ∧
        resolve scenarioEnv.cwd (manifestPath scenarioEnv.outDir) = some loc ∧
        (script assetsRemote scenarioEnv 5 ⟨(), scenarioFs⟩).2.2 =
          Event.mkdir scenarioEnv.outDir ::
            (pre ++ [Event.writeFile (manifestPath scenarioEnv.outDir)
              (.manifest url scenarioEnv.now)]) ∧
        (script assetsRemote { scenarioEnv with now := "2024-01-02T00:00:00.000Z" } 5
          ⟨(), (script assetsRemote scenarioEnv 5 ⟨(), scenarioFs⟩).2.1.fs⟩).1 = some 0 ∧
        (script assetsRemote { scenarioEnv with now := "2024-01-02T00:00:00.000Z" } 5
          ⟨(), (script assetsRemote scenarioEnv 5 ⟨(), scenarioFs⟩).2.1.fs⟩).2.2 =
          Event.mkdir scenarioEnv.outDir ::
            (pre ++ [Event.writeFile (manifestPath scenarioEnv.outDir)
              (.manifest url "2024-01-02T00:00:00.000Z")]) ∧
        (∀ l, l ≠ loc →
          (script assetsRemote { scenarioEnv with now := "2024-01-02T00:00:00.000Z" } 5
            ⟨(), (script assetsRemote scenarioEnv 5 ⟨(), scenarioFs⟩).2.1.fs⟩).2.1.fs l =
            (script assetsRemote scenarioEnv 5 ⟨(), scenarioFs⟩).2.1.fs l) ∧
        (script assetsRemote scenarioEnv 5 ⟨(), scenarioFs⟩).2.1.fs loc =
          some (FsNode.file (.manifest url scenarioEnv.now)) ∧
        (script assetsRemote { scenarioEnv with now := "2024-01-02T00:00:00.000Z" } 5
          ⟨(), (script assetsRemote scenarioEnv 5 ⟨(), scenarioFs⟩).2.1.fs⟩).2.1.fs loc =
          some (FsNode.file (.manifest url "2024-01-02T00:00:00.000Z")) :=
  ⟨assetsRemote_stateless, by decide,
    backup_idempotent assetsRemote assetsRemote_stateless scenarioEnv
      "2024-01-02T00:00:00.000Z" 5 ⟨(), scenarioFs⟩ () (by decide)⟩

/-- C7, as the code has it. Download-once: in every run the downloads requested
are, in order, an initial part of the paths collected by the list calls, and
all of them when the run succeeds, so `main` issues one download per element of
each list `listAll` returned (an element that occurs twice is downloaded
twice); a successful run writes the bytes of each download once, to
`path.join(path.join(outDir, bucket), path)`, and then the manifest. When the
remote faithfully serves a finite tree whose names are non-empty, free of `/`
and distinct among the files and among the subfolders of each folder, the
returned list has no path twice; when moreover no name is `.` or `..`, two
different returned paths have different destinations (as any two different
paths without empty, `.` or `..` segments have). -/
theorem download_once {σ : Type} (R : Remote σ) (env : Env) (fuel : Nat) (w : World σ) :
    downloadsOf (script R env fuel w).2.2 <+: listedFiles (script R env fuel w).2.2 ∧
    ((script R env fuel w).1 = some 0 →
      downloadsOf (script R env fuel w).2.2 = listedFiles (script R env fuel w).2.2 ∧
      (okDownloads (script R env fuel w).2.2).map (fun d => (d.1, d.2.1)) =
        downloadsOf (script R env fuel w).2.2 ∧
      writesOf (script R env fuel w).2.2 =
        (okDownloads (script R env fuel w).2.2).map (toWrite env.outDir) ++
          [(manifestPath env.outDir, FileData.manifest (env.supabaseUrl.getD "") env.now)]) ∧
    (∀ bucket files w2,
      downloadsOf (downloadLoop R env.cwd bucket (pathJoin env.outDir bucket) files w2).2.2 <+:
        files.map (fun p => (bucket, p))) ∧
    (∀ d : String × String × Bytes, toWrite env.outDir d =
      (pathJoin (pathJoin env.outDir d.1) d.2.1, FileData.buffer d.2.2)) ∧
    (∀ (bucket : String) (l : Listing) (s : σ), l.tidy = true →
      Faithful R bucket "" l → ∀ fuel2, l.calls + l.folderCount + 1 ≤ fuel2 →
        ∃ files, (listAll R bucket "" fuel2 s).1 = .ok files ∧ files.Nodup ∧
          (l.ordinary = true → ∀ p1 ∈ files, ∀ p2 ∈ files, p1 ≠ p2 →
            destPath env.outDir bucket p1 ≠ destPath env.outDir bucket p2)) ∧
    (∀ bucket p1 p2, cleanPath p1 = true → cleanPath p2 = true → p1 ≠ p2 →
      destPath env.outDir bucket p1 ≠ destPath env.outDir bucket p2) := by
  have hdest : ∀ bucket p1 p2, cleanPath p1 = true → cleanPath p2 = true → p1 ≠ p2 →
      destPath env.outDir bucket p1 ≠ destPath env.outDir bucket p2 := by
    intro bucket p1 p2 h1 h2 hne heq
    exact hne (pathJoin_clean_injective _ p1 p2 (pathJoin_ne_empty _ _) h1 h2 heq)
  refine ⟨?_, ?_, ?_, fun _ => rfl, ?_, hdest⟩
  · by_cases hcfg : truthyString env.supabaseUrl = false ∨ truthyString env.serviceRole = false
    · simp only [script, hcfg, if_true]
      exact List.nil_prefix
    · cases hm : mkdirSync env.cwd w.fs env.outDir with
      | error e =>
        simp only [script, hcfg, if_false, hm]
        exact List.nil_prefix
      | ok fs1 =>
        have m6 := (main_run R env.cwd (env.supabaseUrl.getD "") env.outDir env.now fuel
          ⟨w.remote, fs1⟩).2.2.2.2.2
        rcases hmain : main R env.cwd (env.supabaseUrl.getD "") env.outDir env.now fuel
          ⟨w.remote, fs1⟩ with ⟨out, w2, mevs⟩
        rw [hmain] at m6
        simp only at m6
        have h1 : downloadsOf (Event.mkdir env.outDir :: mevs) = downloadsOf mevs := rfl
        have h2 : listedFiles (Event.mkdir env.outDir :: mevs) = listedFiles mevs := by
          simp [listedFiles, Event.listed]
        cases out with
        | ok u =>
          simp only [script, hcfg, if_false, hm, hmain]
          rw [h1, h2]
          exact m6
        | diverge =>
          simp only [script, hcfg, if_false, hm, hmain]
          rw [h1, h2]
          exact m6
        | throw e =>
          simp only [script, hcfg, if_false, hm, hmain]
          have h3 : Event.mkdir env.outDir :: (mevs ++ [Event.stderr e]) =
              (Event.mkdir env.outDir :: mevs) ++ [Event.stderr e] := rfl
          rw [h3, downloadsOf_append, listedFiles_append, h1, h2]
          simpa [downloadsOf, listedFiles, Event.downloadReq?, Event.listed] using m6
  · intro h
    obtain ⟨url, fs0, buckets, s1, wb, evsB, fs3, hurl, _, hm, hb, hl, hw, hs⟩ :=
      script_success R env fuel w h
    obtain ⟨b1, b2, _, _, _, b6⟩ := bucketLoop_run R env.cwd env.outDir fuel buckets ⟨s1, fs0⟩
    rw [hl] at b1 b2 b6
    simp only at b1 b2 b6
    have hgetD : env.supabaseUrl.getD "" = url := by rw [hurl]; rfl
    have hsplit : Event.mkdir env.outDir :: (Event.listBuckets (.ok buckets) ::
        (evsB ++ [Event.writeFile (manifestPath env.outDir) (.manifest url env.now)])) =
        [Event.mkdir env.outDir, Event.listBuckets (.ok buckets)] ++ evsB ++
          [Event.writeFile (manifestPath env.outDir) (.manifest url env.now)] := by simp
    have hbalB : writesOf evsB = (okDownloads evsB).map (toWrite env.outDir) := by
      rcases b2 with h | ⟨_, _, _, _, _, _, h, _⟩
      · exact h
      · simp at h
    have hcleanB : ∀ ev ∈ evsB, ev.failure = none :=
      failStop_clean _ _ b1 (fun e h => by simp at h)
    have hl0 : listedFiles [Event.mkdir env.outDir, Event.listBuckets (.ok buckets)] = [] := by
      simp [listedFiles, Event.listed]
    have hl1 : listedFiles [Event.writeFile (manifestPath env.outDir)
        (.manifest url env.now)] = [] := by
      simp [listedFiles, Event.listed]
    rw [hs, hgetD]
    simp only
    rw [hsplit]
    refine ⟨?_, ?_, ?_⟩
    · rw [downloadsOf_append, downloadsOf_append, listedFiles_append, listedFiles_append,
        hl0, hl1, b6 trivial]
      rfl
    · rw [okDownloads_append, okDownloads_append, downloadsOf_append, downloadsOf_append,
        List.map_append, List.map_append, clean_downloads evsB hcleanB]
      rfl
    · have hw0 : writesOf [Event.mkdir env.outDir, Event.listBuckets (.ok buckets)] = [] := rfl
      have hw1 : writesOf [Event.writeFile (manifestPath env.outDir) (.manifest url env.now)] =
          [(manifestPath env.outDir, FileData.manifest url env.now)] := rfl
      have hd0 : okDownloads [Event.mkdir env.outDir, Event.listBuckets (.ok buckets)] = [] := rfl
      have hd1 : okDownloads [Event.writeFile (manifestPath env.outDir)
          (.manifest url env.now)] = [] := rfl
      rw [writesOf_append, writesOf_append, okDownloads_append, okDownloads_append, hbalB,
        hw0, hw1, hd0, hd1, List.nil_append, List.nil_append, List.append_nil]
  · intro bucket files w2
    exact (downloadLoop_run R env.cwd env.outDir bucket files w2).2.2.2.2.1
  · intro bucket l s htidy hf fuel2 hfuel
    obtain ⟨s2, hl⟩ := listAll_faithful R bucket "" l hf s fuel2 hfuel
    refine ⟨Listing.walk "" l, by rw [hl], walk_nodup l "" htidy, ?_⟩
    intro hord p1 hp1 p2 hp2 hne
    exact hdest bucket p1 p2 (walk_clean l hord p1 hp1) (walk_clean l hord p2 hp2) hne

/-- Witness for C7 on the end-to-end scenario: the two collected paths are downloaded once each. -/
theorem download_once_witness :
    (script assetsRemote scenarioEnv 5 ⟨(), scenarioFs⟩).1 = some 0 ∧
      downloadsOf (script assetsRemote scenarioEnv 5 ⟨(), scenarioFs⟩).2.2 =
        listedFiles (script assetsRemote scenarioEnv 5 ⟨(), scenarioFs⟩).2.2 ∧
      listedFiles (script assetsRemote scenarioEnv 5 ⟨(), scenarioFs⟩).2.2 =
        [("assets", "a.png"), ("assets", "img/b.png")] ∧
      assetsTree.tidy = true ∧ assetsTree.ordinary = true :=
  ⟨by decide,
    ((download_once assetsRemote scenarioEnv 5 ⟨(), scenarioFs⟩).2.1 (by decide)).1,
    by decide, by decide, by decide⟩

/-- Counterexample to C7 as stated: a listing that shows the file `a` twice
makes `listAll` return `a` twice and `main` download it twice; and the two
different paths `x` and `./x` are written to the same destination. -/
theorem download_once_counterexample :
    ((listAll duplicateRemote "assets" "" 5 ()).1 = .ok ["a", "a"] ∧
      ¬ (["a", "a"] : List String).Nodup ∧
      downloadsOf (script duplicateRemote scenarioEnv 5 ⟨(), scenarioFs⟩).2.2 =
        [("assets", "a"), ("assets", "a")]) ∧
    ((listAll dotRemote "assets" "" 5 ()).1 = .ok ["x", "./x"] ∧
      ("x" : String) ≠ "./x" ∧
      destPath "storage-backup" "assets" "x" = destPath "storage-backup" "assets" "./x" ∧
      writesOf (script dotRemote scenarioEnv 5 ⟨(), scenarioFs⟩).2.2 =
        [("storage-backup/assets/x", FileData.buffer [1]),
          ("storage-backup/assets/x", FileData.buffer [2]),
          ("storage-backup/manifest.json",
            FileData.manifest "https://project.example" "2024-01-01T00:00:00.000Z")]) := by
  refine ⟨⟨by decide, by decide, by decide⟩, ⟨by decide, by decide, by decide, by decide⟩⟩


end StorageBackup
